import Mathlib

/-!
# OpenBR JIT kernels (`sdk/plugins/llvm.cpp`): a shallow embedding

The plugin emits LLVM IR for element-wise and reducing kernels over dense
four-axis matrices.  The embedding below gives the meaning of the emitted
code: every `Value *` is the unsigned bit pattern it holds (a `Nat` below
`2 ^ width`), `i32` index arithmetic wraps modulo `2 ^ 32`, element
arithmetic wraps modulo `2 ^ bits`, and a matrix buffer is the list of its
element patterns.  Floating-point instructions are not interpreted: the
development is parametric in a `FloatSem` that supplies their results.
-/

namespace OpenBR

/-! ## Machine arithmetic -/

/-- Wrap a natural number to an `i32` bit pattern. -/
def i32 (n : Nat) : Nat := n % 2 ^ 32

/-- Source `CreateAdd` on `i32` operands. -/
def add32 (a b : Nat) : Nat := (a + b) % 2 ^ 32

/-- Source `CreateMul` on `i32` operands. -/
def mul32 (a b : Nat) : Nat := (a * b) % 2 ^ 32

/-- Source `CreateSub` on `i32` operands. -/
def sub32 (a b : Nat) : Nat := (a + (2 ^ 32 - b % 2 ^ 32)) % 2 ^ 32

/-- Source `CreateURem` on `i32` operands (a zero divisor is undefined in LLVM; here it
leaves the dividend). -/
def urem32 (a b : Nat) : Nat := a % b

/-- Source `CreateExactUDiv` on `i32` operands (a zero divisor is undefined in LLVM;
here it yields zero). -/
def udiv32 (a b : Nat) : Nat := a / b

/-! ## The matrix header -/

/-- Modelled from the spec: `jitcv/jitcv.h`, which declares `struct Matrix`
and the layout of its 16-bit `hash`, is not part of the sources.  The hash is
kept decoded into the fields the spec lists: element width, floating flag,
signed flag and the four single-axis flags.  Two hashes are equal exactly
when all seven fields agree. -/
structure Hash where
  bits : Nat
  floating : Bool
  signed : Bool
  singleChannel : Bool
  singleColumn : Bool
  singleRow : Bool
  singleFrame : Bool
  deriving DecidableEq, Repr

/-- The hash value `0`: width zero and no flag set. -/
def Hash.zero : Hash := ⟨0, false, false, false, false, false, false⟩

/-- Modelled from the spec: `struct Matrix` of `jitcv/jitcv.h` (not in the
sources): four axis extents, the hash, and the buffer `data` points to, held
as the list of element bit patterns in storage order. -/
structure Matrix where
  channels : Nat
  columns : Nat
  rows : Nat
  frames : Nat
  hash : Hash
  data : List Nat
  deriving DecidableEq, Repr

namespace Matrix

/-- Modelled from the spec: `Matrix::elements()` (declared in the missing
`jitcv/jitcv.h`): the size of the element index space,
`channels × columns × rows × frames`. -/
def elements (m : Matrix) : Nat := m.channels * m.columns * m.rows * m.frames

end Matrix

/-! ## `MatrixBuilder` -/

/-- A `MatrixBuilder`: the compile-time copy of the matrix the kernel is
specialised for (`desc`, the `Matrix` base class) and the run-time matrix the
IR value `m` points to. -/
structure MatrixBuilder where
  desc : Matrix
  m : Matrix
  deriving DecidableEq, Repr

namespace MatrixBuilder

/-- Source `getChannels`: the constant one for a single-channel specialisation,
otherwise a load of the header field. -/
def getChannels (mb : MatrixBuilder) : Nat :=
  if mb.desc.hash.singleChannel then 1 else mb.m.channels

/-- Source `getColumns`. -/
def getColumns (mb : MatrixBuilder) : Nat :=
  if mb.desc.hash.singleColumn then 1 else mb.m.columns

/-- Source `getRows`. -/
def getRows (mb : MatrixBuilder) : Nat :=
  if mb.desc.hash.singleRow then 1 else mb.m.rows

/-- Source `getFrames`. -/
def getFrames (mb : MatrixBuilder) : Nat :=
  if mb.desc.hash.singleFrame then 1 else mb.m.frames

/-- Source `elementsCode`. -/
def elementsCode (mb : MatrixBuilder) : Nat :=
  mul32 (mul32 (mul32 mb.getChannels mb.getColumns) mb.getRows) mb.getFrames

/-- Source `columnStep`. -/
def columnStep (mb : MatrixBuilder) : Nat := mb.getChannels

/-- Source `rowStep`. -/
def rowStep (mb : MatrixBuilder) : Nat := mul32 mb.getColumns mb.columnStep

/-- Source `frameStep`. -/
def frameStep (mb : MatrixBuilder) : Nat := mul32 mb.getRows mb.rowStep

/-- Source `aliasColumnStep`: the comparison is on the compile-time extents. -/
def aliasColumnStep (mb other : MatrixBuilder) : Nat :=
  if mb.desc.channels = other.desc.channels then other.columnStep else mb.columnStep

/-- Source `aliasRowStep`. -/
def aliasRowStep (mb other : MatrixBuilder) : Nat :=
  if mb.desc.columns = other.desc.columns then other.rowStep else mb.rowStep

/-- Source `aliasFrameStep`. -/
def aliasFrameStep (mb other : MatrixBuilder) : Nat :=
  if mb.desc.rows = other.desc.rows then other.frameStep else mb.frameStep

/-- Source `index(c)`. -/
def index1 (mb : MatrixBuilder) (c : Nat) : Nat :=
  if mb.desc.hash.singleChannel then 0 else c

/-- Source `index(c, x)`. -/
def index2 (mb : MatrixBuilder) (c x : Nat) : Nat :=
  if mb.desc.hash.singleColumn then mb.index1 c
  else add32 (mul32 x mb.columnStep) (mb.index1 c)

/-- Source `index(c, x, y)`. -/
def index3 (mb : MatrixBuilder) (c x y : Nat) : Nat :=
  if mb.desc.hash.singleRow then mb.index2 c x
  else add32 (mul32 y mb.rowStep) (mb.index2 c x)

/-- Source `index(c, x, y, f)`. -/
def index (mb : MatrixBuilder) (c x y f : Nat) : Nat :=
  if mb.desc.hash.singleFrame then mb.index3 c x y
  else add32 (mul32 f mb.frameStep) (mb.index3 c x y)

/-- Source `aliasIndex(other, c, x)`. -/
def aliasIndex2 (mb other : MatrixBuilder) (c x : Nat) : Nat :=
  if mb.desc.hash.singleColumn then mb.index1 c
  else add32 (mul32 x (mb.aliasColumnStep other)) (mb.index1 c)

/-- Source `aliasIndex(other, c, x, y)`. -/
def aliasIndex3 (mb other : MatrixBuilder) (c x y : Nat) : Nat :=
  if mb.desc.hash.singleRow then mb.aliasIndex2 other c x
  else add32 (mul32 y (mb.aliasRowStep other)) (mb.aliasIndex2 other c x)

/-- Source `aliasIndex(other, c, x, y, f)`. -/
def aliasIndex (mb other : MatrixBuilder) (c x y f : Nat) : Nat :=
  if mb.desc.hash.singleFrame then mb.aliasIndex3 other c x y
  else add32 (mul32 f (mb.aliasFrameStep other)) (mb.aliasIndex3 other c x y)

/-- Source `deindex(i, &c)`. -/
def deindex1 (mb : MatrixBuilder) (i : Nat) : Nat :=
  if mb.desc.hash.singleChannel then 0 else i

/-- Source `deindex(i, &c, &x)`, returning `(c, x)`. -/
def deindex2 (mb : MatrixBuilder) (i : Nat) : Nat × Nat :=
  if mb.desc.hash.singleColumn then (mb.deindex1 i, 0)
  else
    let step := mb.columnStep
    let rem := urem32 i step
    (mb.deindex1 rem, udiv32 (sub32 i rem) step)

/-- Source `deindex(i, &c, &x, &y)`, returning `(c, x, y)`. -/
def deindex3 (mb : MatrixBuilder) (i : Nat) : Nat × Nat × Nat :=
  if mb.desc.hash.singleRow then
    let cx := mb.deindex2 i
    (cx.1, cx.2, 0)
  else
    let step := mb.rowStep
    let rem := urem32 i step
    let cx := mb.deindex2 rem
    (cx.1, cx.2, udiv32 (sub32 i rem) step)

/-- Source `deindex(i, &c, &x, &y, &t)`, returning `(c, x, y, t)`. -/
def deindex (mb : MatrixBuilder) (i : Nat) : Nat × Nat × Nat × Nat :=
  if mb.desc.hash.singleFrame then
    let cxy := mb.deindex3 i
    (cxy.1, cxy.2.1, cxy.2.2, 0)
  else
    let step := mb.frameStep
    let rem := urem32 i step
    let cxy := mb.deindex3 rem
    (cxy.1, cxy.2.1, cxy.2.2, udiv32 (sub32 i rem) step)

end MatrixBuilder

/-- The channels-innermost flat offset of the coordinate `(c, x, y, f)`. -/
def flatOffset (m : Matrix) (c x y f : Nat) : Nat :=
  c + m.channels * (x + m.columns * (y + m.rows * f))

/-- A single-axis flag of the specialisation is set only where the run-time
extent is one. -/
def FlagsSound (mb : MatrixBuilder) : Prop :=
  (mb.desc.hash.singleChannel = true → mb.m.channels = 1) ∧
  (mb.desc.hash.singleColumn = true → mb.m.columns = 1) ∧
  (mb.desc.hash.singleRow = true → mb.m.rows = 1) ∧
  (mb.desc.hash.singleFrame = true → mb.m.frames = 1)

/-- A single-axis flag of the specialisation is set exactly where the run-time
extent is one. -/
def FlagsExact (mb : MatrixBuilder) : Prop :=
  (mb.desc.hash.singleChannel = true ↔ mb.m.channels = 1) ∧
  (mb.desc.hash.singleColumn = true ↔ mb.m.columns = 1) ∧
  (mb.desc.hash.singleRow = true ↔ mb.m.rows = 1) ∧
  (mb.desc.hash.singleFrame = true ↔ mb.m.frames = 1)

/-- The coordinate `(c, x, y, f)` lies inside the extents of `m`. -/
def InRange (m : Matrix) (c x y f : Nat) : Prop :=
  c < m.channels ∧ x < m.columns ∧ y < m.rows ∧ f < m.frames


/-! ## Scalars and element values -/

/-- A finite `double` held exactly: the number `m * 2 ^ e`.  Every finite
IEEE double has this form; transform properties declared `double`
(`exponent`, `a`, `b`, `min`, `max`) carry values of this type. -/
structure Dbl where
  m : Int
  e : Int
  deriving DecidableEq, Repr

namespace Dbl

/-- The double holding the integer `n`. -/
def ofInt (n : Int) : Dbl := ⟨n, 0⟩

/-- Unary minus (exact on doubles). -/
def neg (d : Dbl) : Dbl := ⟨-d.m, d.e⟩

/-- Source `std::numeric_limits<double>::max()`, that is `(2^53 - 1) * 2^971`. -/
def max : Dbl := ⟨2 ^ 53 - 1, 971⟩

/-- The mantissa of `d` rescaled to the exponent `k` (for `k ≤ d.e`). -/
def scaled (d : Dbl) (k : Int) : Int := d.m * (2 ^ (d.e - k).toNat : Nat)

/-- The comparison `a < b` of two doubles. -/
def lt (a b : Dbl) : Bool := decide (a.scaled (min a.e b.e) < b.scaled (min a.e b.e))

/-- The comparison `a == b` of two doubles. -/
def eq (a b : Dbl) : Bool := decide (a.scaled (min a.e b.e) = b.scaled (min a.e b.e))

/-- The C conversion `int(value)`: truncation toward zero.  (The conversion is
undefined in C when the truncated value does not fit `int`.) -/
def toInt (d : Dbl) : Int :=
  if 0 ≤ d.e then d.m * (2 ^ d.e.toNat : Nat) else Int.tdiv d.m (2 ^ (-d.e).toNat : Nat)

/-- The test `value == ceil(value)`: the double is a whole number. -/
def isIntegral (d : Dbl) : Bool :=
  decide (0 ≤ d.e) || decide (d.m % (2 ^ (-d.e).toNat : Nat) = 0)

/-- The truncation `int(value)` is representable in a 32-bit `int`. -/
def FitsInt (d : Dbl) : Prop := -(2 ^ 31 : Int) ≤ d.toInt ∧ d.toInt < 2 ^ 31

end Dbl

/-- The floating-point instructions the kernels emit, left uninterpreted:
every operation maps operand bit patterns to a result bit pattern, the first
argument being the operand width (two widths for the conversions). -/
structure FloatSem where
  fadd : Nat → Nat → Nat → Nat
  fmul : Nat → Nat → Nat → Nat
  fabs : Nat → Nat → Nat
  powi : Nat → Nat → Nat → Nat
  pow : Nat → Nat → Nat → Nat
  fcmpOLT : Nat → Nat → Nat → Bool
  fcmpOGT : Nat → Nat → Nat → Bool
  constFloat : Dbl → Nat
  constDouble : Dbl → Nat
  sitofp : Nat → Nat → Nat → Nat
  uitofp : Nat → Nat → Nat → Nat
  fptosi : Nat → Nat → Nat → Nat
  fptoui : Nat → Nat → Nat → Nat
  fptrunc : Nat → Nat → Nat → Nat
  fpext : Nat → Nat → Nat → Nat

/-- The degenerate interpretation in which every floating-point instruction
yields the all-zero pattern; integer kernels never consult it. -/
def FloatSem.zero : FloatSem :=
  { fadd := fun _ _ _ => 0, fmul := fun _ _ _ => 0, fabs := fun _ _ => 0,
    powi := fun _ _ _ => 0, pow := fun _ _ _ => 0,
    fcmpOLT := fun _ _ _ => false, fcmpOGT := fun _ _ _ => false,
    constFloat := fun _ => 0, constDouble := fun _ => 0,
    sitofp := fun _ _ _ => 0, uitofp := fun _ _ _ => 0,
    fptosi := fun _ _ _ => 0, fptoui := fun _ _ _ => 0,
    fptrunc := fun _ _ _ => 0, fpext := fun _ _ _ => 0 }

/-- The signed reading of a `bits`-wide pattern. -/
def sval (bits : Nat) (v : Nat) : Int :=
  if v < 2 ^ (bits - 1) then (v : Int) else (v : Int) - (2 ^ bits : Nat)

/-- The reading of a pattern in an integer element type. -/
def ival (signed : Bool) (bits : Nat) (v : Nat) : Int :=
  if signed then sval bits v else (v : Int)

/-- The `bits`-wide pattern of an integer (twos complement). -/
def pat (bits : Nat) (n : Int) : Nat := (n % (2 ^ bits : Nat)).toNat

namespace Matrix

/-- Modelled from the spec: the default constructor `Matrix()` of the missing
`jitcv/jitcv.h`; an all-zero header without a buffer is assumed. -/
def null : Matrix := ⟨0, 0, 0, 0, Hash.zero, []⟩

/-- Modelled from the spec: `Matrix::bits()`. -/
def bits (m : Matrix) : Nat := m.hash.bits

/-- Modelled from the spec: `Matrix::isFloating()`. -/
def isFloating (m : Matrix) : Bool := m.hash.floating

/-- Modelled from the spec: `Matrix::isSigned()`. -/
def isSigned (m : Matrix) : Bool := m.hash.signed

/-- Modelled from the spec: `Matrix::type()`, the hash restricted to
`Bits + Floating + Signed`. -/
def type (m : Matrix) : Nat × Bool × Bool := (m.hash.bits, m.hash.floating, m.hash.signed)

/-- Modelled from the spec: `Matrix::copyHeader(other)` copies shape and hash
and leaves the buffer alone. -/
def copyHeader (m other : Matrix) : Matrix :=
  { m with channels := other.channels, columns := other.columns, rows := other.rows,
           frames := other.frames, hash := other.hash }

/-- Modelled from the spec: `Matrix::setBits`. -/
def setBits (m : Matrix) (bits : Nat) : Matrix :=
  { m with hash := { m.hash with bits := bits } }

/-- Modelled from the spec: `Matrix::setSigned`. -/
def setSigned (m : Matrix) (isSigned : Bool) : Matrix :=
  { m with hash := { m.hash with signed := isSigned } }

/-- Modelled from the spec: `Matrix::setFloating`, the host twin of
`MatrixBuilder::setFloatingCode`: a floating type is made signed as well. -/
def setFloating (m : Matrix) (isFloating : Bool) : Matrix :=
  let m1 := if isFloating then m.setSigned true else m
  { m1 with hash := { m1.hash with floating := isFloating } }

/-- Modelled from the spec: `Matrix::setType`, replacing width, floating and
signed flags together. -/
def setType (m : Matrix) (t : Nat × Bool × Bool) : Matrix :=
  { m with hash := { m.hash with bits := t.1, floating := t.2.1, signed := t.2.2 } }

/-- Modelled from the spec: `Matrix::allocate()` gives the matrix a fresh buffer
of `elements()` slots (their initial contents are unspecified; zero here). -/
def allocate (m : Matrix) : Matrix := { m with data := List.replicate m.elements 0 }

/-- Modelled from the spec: the constructor
`Matrix(channels, columns, rows, frames, hash)`: the element type is taken
from `hash` and each single-axis flag is set exactly when the extent is one. -/
def mk5 (channels columns rows frames : Nat) (hash : Hash) : Matrix :=
  { channels := channels, columns := columns, rows := rows, frames := frames,
    hash := { hash with singleChannel := decide (channels = 1), singleColumn := decide (columns = 1),
                        singleRow := decide (rows = 1), singleFrame := decide (frames = 1) },
    data := [] }

end Matrix

namespace MatrixBuilder

/-- Source `constant(int value, int bits)`: an `APInt(bits, value)`. -/
def constant (value : Int) (bits : Nat) : Nat := pat bits value

/-- Source `autoConstant(double value)`: a literal of the element type of the descriptor;
for an integer type the value goes through `int(value)`. -/
def autoConstant (S : FloatSem) (mb : MatrixBuilder) (value : Dbl) : Nat :=
  if mb.desc.isFloating then
    (if mb.desc.bits = 64 then S.constDouble value else S.constFloat value)
  else constant value.toInt mb.desc.bits

/-- Source `load(i)`: the element at index `i` (a read past the buffer is undefined
in C; it yields zero here; `getelementptr` reads the `i32` index as signed, so
the model is meant for indices below `2 ^ 31`). -/
def load (mb : MatrixBuilder) (i : Nat) : Nat := mb.m.data.getD i 0

/-- Source `store(i, value)`: the builder with element `i` of its run-time matrix
overwritten. -/
def store (mb : MatrixBuilder) (i : Nat) (value : Nat) : MatrixBuilder :=
  { mb with m := { mb.m with data := mb.m.data.set i value } }

/-- Source `cast(i, dst)`: the identity between equal types, otherwise the LLVM cast
chosen by `CastInst::getCastOpcode` from the two types and signs. -/
def cast (S : FloatSem) (mb : MatrixBuilder) (i : Nat) (dst : MatrixBuilder) : Nat :=
  if mb.desc.type = dst.desc.type then i
  else if dst.desc.isFloating then
    (if mb.desc.isFloating then
      (if dst.desc.bits < mb.desc.bits then S.fptrunc mb.desc.bits dst.desc.bits i
       else if mb.desc.bits < dst.desc.bits then S.fpext mb.desc.bits dst.desc.bits i
       else i)
     else if mb.desc.isSigned then S.sitofp mb.desc.bits dst.desc.bits i
     else S.uitofp mb.desc.bits dst.desc.bits i)
  else if mb.desc.isFloating then
    (if dst.desc.isSigned then S.fptosi mb.desc.bits dst.desc.bits i
     else S.fptoui mb.desc.bits dst.desc.bits i)
  else if dst.desc.bits < mb.desc.bits then i % 2 ^ dst.desc.bits
  else if mb.desc.bits < dst.desc.bits then
    (if mb.desc.isSigned then pat dst.desc.bits (sval mb.desc.bits i) else i)
  else i

/-- Source `add(i, j)`: `fadd` for a floating descriptor, else a wrapping `add`. -/
def add (S : FloatSem) (mb : MatrixBuilder) (i j : Nat) : Nat :=
  if mb.desc.isFloating then S.fadd mb.desc.bits i j else (i + j) % 2 ^ mb.desc.bits

/-- Source `multiply(i, j)`: `fmul` for a floating descriptor, else a wrapping `mul`. -/
def multiply (S : FloatSem) (mb : MatrixBuilder) (i j : Nat) : Nat :=
  if mb.desc.isFloating then S.fmul mb.desc.bits i j else (i * j) % 2 ^ mb.desc.bits

/-- Source `compareLT(i, j)`: ordered `fcmp`, signed or unsigned `icmp` by descriptor. -/
def compareLT (S : FloatSem) (mb : MatrixBuilder) (i j : Nat) : Bool :=
  if mb.desc.isFloating then S.fcmpOLT mb.desc.bits i j
  else if mb.desc.isSigned then decide (sval mb.desc.bits i < sval mb.desc.bits j)
  else decide (i < j)

/-- Source `compareGT(i, j)`. -/
def compareGT (S : FloatSem) (mb : MatrixBuilder) (i j : Nat) : Bool :=
  if mb.desc.isFloating then S.fcmpOGT mb.desc.bits i j
  else if mb.desc.isSigned then decide (sval mb.desc.bits j < sval mb.desc.bits i)
  else decide (j < i)

end MatrixBuilder

/-! ## The counted loop -/

/-- The loop of `beginLoop`/`endLoop` from counter value `j`: run the body,
increment the `i32` counter, and go round again while it differs from `limit`.
`fuel` bounds the number of iterations. -/
def loopFrom {σ : Type} (body : Nat → σ → σ) (limit : Nat) : Nat → Nat → σ → σ
  | 0, _, s => s
  | fuel + 1, j, s =>
    let s1 := body j s
    let increment := add32 j 1
    if increment ≠ limit then loopFrom body limit fuel increment s1 else s1

/-- The loop of `beginLoop`/`endLoop`: the counter starts at zero; a 32-bit
counter returns to any value within `2 ^ 32` steps, which bounds the run. -/
def loop {σ : Type} (body : Nat → σ → σ) (limit : Nat) (s : σ) : σ :=
  loopFrom body limit (2 ^ 32) 0 s



/-! ## Kernels -/

/-- A `UnaryKernel`: its two pure virtual members.  `preallocate src dst`
returns the destination header and the kernel length; `build src dst i` is the
effect of the emitted loop body for index `i` on the destination. -/
structure UnaryKernel where
  preallocate : Matrix → Matrix → Matrix × Nat
  build : MatrixBuilder → MatrixBuilder → Nat → MatrixBuilder

namespace UnaryKernel

/-- The function `compileKernel(m)` emits, run on `(src, dst, len)`: one counted
loop around `build`, with builders specialised to `m` and to the header
`preallocate` derives from `m`. -/
def compileKernel (K : UnaryKernel) (m : Matrix) (src dst : Matrix) (len : Nat) : Matrix :=
  let n := (K.preallocate m Matrix.null).1
  loop (fun i d => (K.build ⟨m, src⟩ ⟨n, d⟩ i).m) len dst

/-- Source `apply(src, dst)` on a kernel whose specialisation was compiled for the
matrix `m`: preallocate, allocate, then run the kernel on the `i32` length. -/
def applyWith (K : UnaryKernel) (m : Matrix) (src dst : Matrix) : Matrix :=
  let p := K.preallocate src dst
  K.compileKernel m src p.1.allocate (i32 p.2)

/-- Source `apply(src, dst)` when `src` itself triggers the compilation. -/
def apply (K : UnaryKernel) (src dst : Matrix) : Matrix := K.applyWith src src dst

end UnaryKernel

/-- Source `castTransform::Type`. -/
inductive CastType
  | u1 | u8 | u16 | u32 | u64 | s8 | s16 | s32 | s64 | f16 | f32 | f64
  deriving DecidableEq, Repr

/-- The `Matrix` type constant behind a `castTransform::Type`: width, floating
flag, signed flag. -/
def CastType.toType : CastType → Nat × Bool × Bool
  | .u1 => (1, false, false)
  | .u8 => (8, false, false)
  | .u16 => (16, false, false)
  | .u32 => (32, false, false)
  | .u64 => (64, false, false)
  | .s8 => (8, false, true)
  | .s16 => (16, false, true)
  | .s32 => (32, false, true)
  | .s64 => (64, false, true)
  | .f16 => (16, true, true)
  | .f32 => (32, true, true)
  | .f64 => (64, true, true)

/-- The stitchable kernels of the plugin with their properties. -/
inductive StitchableKernel
  | squareTransform
  | powTransform (exponent : Dbl)
  | castTransform (type : CastType)
  | scaleTransform (a : Dbl)
  | absTransform
  | addTransform (b : Dbl)
  | clampTransform (min max : Dbl)
  deriving DecidableEq, Repr

namespace StitchableKernel

/-- Source `preallocate`: `StitchableKernel::preallocate` unless overridden
(`powTransform`, `castTransform`). -/
def preallocate (k : StitchableKernel) (src dst : Matrix) : Matrix × Nat :=
  match k with
  | powTransform _ =>
    let d := ((dst.copyHeader src).setFloating true).setBits (Nat.max src.bits 32)
    (d, d.elements)
  | castTransform type =>
    let d := (dst.copyHeader src).setType type.toType
    (d, d.elements)
  | _ =>
    let d := dst.copyHeader src
    (d, d.elements)

/-- Source `stitch(src, dst, val)` of each transform. -/
def stitch (S : FloatSem) (k : StitchableKernel) (src dst : MatrixBuilder) (val : Nat) : Nat :=
  match k with
  | squareTransform => dst.multiply S val val
  | powTransform exponent =>
    let load := src.cast S val dst
    if exponent.isIntegral then
      if exponent.eq (Dbl.ofInt 0) then dst.autoConstant S (Dbl.ofInt 1)
      else if exponent.eq (Dbl.ofInt 1) then load
      else if exponent.eq (Dbl.ofInt 2) then dst.multiply S load load
      else S.powi dst.desc.bits load (MatrixBuilder.constant exponent.toInt 32)
    else S.pow dst.desc.bits load (dst.autoConstant S exponent)
  | castTransform _ => src.cast S val dst
  | scaleTransform a => dst.multiply S val (dst.autoConstant S a)
  | absTransform =>
    if !src.desc.isSigned then val
    else if src.desc.isFloating then S.fabs src.desc.bits val
    else
      if decide (sval src.desc.bits val < sval src.desc.bits (src.autoConstant S (Dbl.ofInt 0)))
      then pat src.desc.bits ((src.autoConstant S (Dbl.ofInt 0) : Int) - (val : Int))
      else val
  | addTransform b => dst.add S val (dst.autoConstant S b)
  | clampTransform min max =>
    let clampedVal := val
    let clampedVal :=
      if (Dbl.neg Dbl.max).lt min then
        let low := dst.autoConstant S min
        if dst.compareLT S clampedVal low then low else clampedVal
      else clampedVal
    let clampedVal :=
      if max.lt Dbl.max then
        let high := dst.autoConstant S max
        if dst.compareGT S clampedVal high then high else clampedVal
      else clampedVal
    clampedVal

/-- Source `StitchableKernel::build`: `dst.store(i, stitch(src, dst, src.load(i)))`. -/
def build (S : FloatSem) (k : StitchableKernel) (src dst : MatrixBuilder) (i : Nat) :
    MatrixBuilder :=
  dst.store i (k.stitch S src dst (src.load i))

/-- A stitchable kernel as a `UnaryKernel`. -/
def toUnaryKernel (S : FloatSem) (k : StitchableKernel) : UnaryKernel :=
  { preallocate := k.preallocate, build := k.build S }

end StitchableKernel

namespace stitchTransform

/-- Source `stitchTransform::preallocate`: every kernel preallocates from the
previous destination; the last destination is the result. -/
def preallocate (kernels : List StitchableKernel) (src dst : Matrix) : Matrix × Nat :=
  let r := kernels.foldl
    (fun (p : Matrix × Matrix) kernel =>
      let dst1 := (kernel.preallocate p.1 p.2).1
      (dst1, dst1))
    (src, dst)
  (r.2, r.2.elements)

/-- One round of the loop in `stitchTransform::build`, on `(src, dst, val)`. -/
def step (S : FloatSem) (st : MatrixBuilder × MatrixBuilder × Nat) (transform : StitchableKernel) :
    MatrixBuilder × MatrixBuilder × Nat :=
  let src := st.1
  let dst := st.2.1
  let val := st.2.2
  let dst1 : MatrixBuilder := { dst with desc := (transform.preallocate src.desc dst.desc).1 }
  let val1 := transform.stitch S src dst1 val
  let src1 : MatrixBuilder := { desc := src.desc.copyHeader dst1.desc, m := dst1.m }
  (src1, dst1, val1)

/-- Source `stitchTransform::build`: one load, the `stitch` of every kernel in order, one
store. -/
def build (S : FloatSem) (kernels : List StitchableKernel) (src_ dst_ : MatrixBuilder) (i : Nat) :
    MatrixBuilder :=
  let r := kernels.foldl (step S) (src_, dst_, src_.load i)
  r.2.1.store i r.2.2

/-- The stitch transform as a `UnaryKernel`. -/
def toUnaryKernel (S : FloatSem) (kernels : List StitchableKernel) : UnaryKernel :=
  { preallocate := preallocate kernels, build := build S kernels }

end stitchTransform

/-- The kernels applied one after the other as separate transforms, each to
the output of the previous one; `dst` is the destination handed to every `apply`. -/
def applyEach (S : FloatSem) (kernels : List StitchableKernel) (src dst : Matrix) : Matrix :=
  kernels.foldl (fun m k => (k.toUnaryKernel S).apply m dst) src

namespace sumTransform

/-- Source `sumTransform::preallocate`. -/
def preallocate (channels columns rows frames : Bool) (src _dst : Matrix) : Matrix × Nat :=
  let dst := Matrix.mk5 (if channels then 1 else src.channels) (if columns then 1 else src.columns)
    (if rows then 1 else src.rows) (if frames then 1 else src.frames) src.hash
  let dst := dst.setBits (Nat.min (2 * dst.bits) (if dst.isFloating then 64 else 32))
  (dst, dst.elements)

/-- Source `sumTransform::build`: the accumulator starts at zero, the reduced axes
that are not single in `src` are looped over from frames (outermost) to
channels (innermost), the other coordinates come from `dst.deindex(i)`, and
the accumulated value is stored at `i`. -/
def build (S : FloatSem) (channels columns rows frames : Bool) (src dst : MatrixBuilder) (i : Nat) :
    MatrixBuilder :=
  let cxyt := dst.deindex i
  let c := cxyt.1
  let x := cxyt.2.1
  let y := cxyt.2.2.1
  let t := cxyt.2.2.2
  let sum0 := dst.autoConstant S (Dbl.ofInt 0)
  let accumulate := fun (src_c src_x src_y src_t sum : Nat) =>
    dst.add S sum (src.cast S (src.load (src.aliasIndex dst src_c src_x src_y src_t)) dst)
  let overC := fun (src_x src_y src_t sum : Nat) =>
    if channels && !src.desc.hash.singleChannel then
      loop (fun src_c s => accumulate src_c src_x src_y src_t s) src.getChannels sum
    else accumulate c src_x src_y src_t sum
  let overX := fun (src_y src_t sum : Nat) =>
    if columns && !src.desc.hash.singleColumn then
      loop (fun src_x s => overC src_x src_y src_t s) src.getColumns sum
    else overC x src_y src_t sum
  let overY := fun (src_t sum : Nat) =>
    if rows && !src.desc.hash.singleRow then
      loop (fun src_y s => overX src_y src_t s) src.getRows sum
    else overX y src_t sum
  let overT := fun (sum : Nat) =>
    if frames && !src.desc.hash.singleFrame then
      loop (fun src_t s => overY src_t s) src.getFrames sum
    else overY t sum
  dst.store i (overT sum0)

/-- The sum transform as a `UnaryKernel`. -/
def toUnaryKernel (S : FloatSem) (channels columns rows frames : Bool) : UnaryKernel :=
  { preallocate := preallocate channels columns rows frames,
    build := build S channels columns rows frames }

end sumTransform


/-! ## Type rule and element function of a pipeline -/

/-- The hash `preallocate` gives the destination, as a function of the source
hash. -/
def typeRule (k : StitchableKernel) (h : Hash) : Hash :=
  (k.preallocate ⟨0, 0, 0, 0, h, []⟩ Matrix.null).1.hash

/-- The element function of a stitchable kernel specialised to source hash `h`. -/
def elemFn (S : FloatSem) (k : StitchableKernel) (h : Hash) (v : Nat) : Nat :=
  k.stitch S ⟨⟨0, 0, 0, 0, h, []⟩, Matrix.null⟩ ⟨⟨0, 0, 0, 0, typeRule k h, []⟩, Matrix.null⟩ v

/-- The hash after a list of kernels. -/
def chainHash : List StitchableKernel → Hash → Hash
  | [], h => h
  | k :: ks, h => chainHash ks (typeRule k h)

/-- The composed element function of a list of kernels. -/
def chainFn (S : FloatSem) : List StitchableKernel → Hash → Nat → Nat
  | [], _, v => v
  | k :: ks, h, v => chainFn S ks (typeRule k h) (elemFn S k h v)

/-- A matrix whose buffer holds exactly its `elements()` values, with a
non-empty index space that the `int` kernel length and the signed 32-bit
element index can express. -/
def Matrix.WellFormed (m : Matrix) : Prop :=
  m.data.length = m.elements ∧ 0 < m.elements ∧ m.elements < 2 ^ 31

/-! ## Specialisation names and dispatch -/

namespace Matrix

/-- Modelled from the spec: `Matrix::singleChannel()`. -/
def singleChannel (m : Matrix) : Bool := m.hash.singleChannel

/-- Modelled from the spec: `Matrix::singleColumn()`. -/
def singleColumn (m : Matrix) : Bool := m.hash.singleColumn

/-- Modelled from the spec: `Matrix::singleRow()`. -/
def singleRow (m : Matrix) : Bool := m.hash.singleRow

/-- Modelled from the spec: `Matrix::singleFrame()`. -/
def singleFrame (m : Matrix) : Bool := m.hash.singleFrame

end Matrix

/-- Source `MatrixToString`: the width in decimal, `s`/`u`, `f`/`i`, and the four
single-axis flags printed as `0`/`1`. -/
def MatrixToString (m : Matrix) : String :=
  toString m.bits ++ (if m.isSigned then "s" else "u") ++ (if m.isFloating then "f" else "i") ++
    toString m.singleChannel.toNat ++ toString m.singleColumn.toNat ++
    toString m.singleRow.toNat ++ toString m.singleFrame.toNat

/-- Source `UnaryKernel::mangledName(src)`; `family` stands for the argument-free
`mangledName()` of the kernel. -/
def mangledName (family : String) (src : Matrix) : String :=
  family ++ "_" ++ MatrixToString src

/-- What dispatch reads and writes: the names of the functions held by
`TheModule`, the cached `kernel` pointer of the wrapper (`none` is `NULL`, `some n`
the native address of the function named `n`) and cached `hash`, and a count of
the runs of `compile`. -/
structure Dispatch where
  module : List String
  kernel : Option String
  hash : Hash
  compiled : Nat
  deriving DecidableEq, Repr

/-- A wrapper as constructed (`kernel(NULL), hash(0)`) over a given module. -/
def Dispatch.init (module : List String) : Dispatch := ⟨module, none, Hash.zero, 0⟩

/-- Source `UnaryKernel::compile(m)`, when emission goes through: `compileKernel`
inserts the specialisation `mangledName(m)`, then the trampoline
`mangledName()` is inserted or reused. -/
def compile (family : String) (st : Dispatch) (m : Matrix) : Dispatch :=
  let module1 := mangledName family m :: st.module
  let module2 := if family ∈ module1 then module1 else family :: module1
  { st with module := module2, compiled := st.compiled + 1 }

/-- Source `UnaryKernel::getKernel(src)`: look the specialisation up by name, compile
it when the module has none, and return its native address.  `emits src` tells
whether the virtual `preallocate`/`build` of the kernel emit code for `src`;
where they end in `qFatal` (an element type `ty` rejects) the result is `none`. -/
def getKernel (emits : Matrix → Bool) (family : String) (st : Dispatch) (src : Matrix) :
    Option (Dispatch × String) :=
  let functionName := mangledName family src
  if functionName ∈ st.module then some (st, functionName)
  else if emits src then some (compile family st src, functionName)
  else none

/-- Source `UnaryKernel::invoke(src, dst, size)` as far as dispatch goes: refresh the
cache when the hash differs (the second test under the lock repeats the first),
then call through the cached pointer.  The result is the new state and the
function called; a fatal compilation or a call of the `NULL` pointer gives
`none`. -/
def invoke (emits : Matrix → Bool) (family : String) (st : Dispatch) (src : Matrix) :
    Option (Dispatch × String) :=
  let refreshed : Option Dispatch :=
    if src.hash ≠ st.hash then
      if src.hash ≠ st.hash then
        match getKernel emits family st src with
        | none => none
        | some r => some { r.1 with kernel := some r.2, hash := src.hash }
      else some st
    else some st
  match refreshed with
  | none => none
  | some st1 =>
    match st1.kernel with
    | none => none
    | some f => some (st1, f)

/-- A run of `invoke` over a sequence of inputs. -/
def invokeAll (emits : Matrix → Bool) (family : String) : Dispatch → List Matrix → Option Dispatch
  | st, [] => some st
  | st, src :: rest =>
    match invoke emits family st src with
    | none => none
    | some r => invokeAll emits family r.1 rest

/-- The states a wrapper and the shared module can reach: construction over
any module, dispatches of this wrapper, and functions added to the module by
other kernels. -/
inductive Reachable (emits : Matrix → Bool) (family : String) : Dispatch → Prop
  | init (module : List String) : Reachable emits family (Dispatch.init module)
  | step {st st1 : Dispatch} {src : Matrix} {f : String} :
      Reachable emits family st → invoke emits family st src = some (st1, f) →
      Reachable emits family st1
  | other {st : Dispatch} (name : String) :
      Reachable emits family st → Reachable emits family { st with module := name :: st.module }

/-- The LLVM element types `MatrixBuilder::ty` can return. -/
inductive ElementTy
  | half | float | double | int (bits : Nat)
  deriving DecidableEq, Repr

/-- Source `MatrixBuilder::ty(m)`: the LLVM type of an element, `none` where the
source ends in `qFatal("Invalid matrix type.")`. -/
def MatrixBuilder.ty (m : Matrix) : Option ElementTy :=
  if m.isFloating then
    if m.bits = 16 then some .half
    else if m.bits = 32 then some .float
    else if m.bits = 64 then some .double
    else none
  else
    if m.bits = 1 then some (.int 1)
    else if m.bits = 8 then some (.int 8)
    else if m.bits = 16 then some (.int 16)
    else if m.bits = 32 then some (.int 32)
    else if m.bits = 64 then some (.int 64)
    else none

/-- Emission for a kernel that keeps the element type (such as `add`): it goes
through exactly when `ty` accepts the type of the input. -/
def emitsSameType (m : Matrix) : Bool := (MatrixBuilder.ty m).isSome

/-- The element widths the code generator accepts. -/
def ValidWidth (m : Matrix) : Prop :=
  m.bits = 1 ∨ m.bits = 8 ∨ m.bits = 16 ∨ m.bits = 32 ∨ m.bits = 64

/-- The cache of a wrapper is either as constructed or names a function the
module holds for the cached hash. -/
def CacheOk (family : String) (st : Dispatch) : Prop :=
  (st.kernel = none ∧ st.hash = Hash.zero) ∨
  (∃ m : Matrix, m.hash = st.hash ∧ st.kernel = some (mangledName family m) ∧
    mangledName family m ∈ st.module)

/-! ## Concrete inputs -/

/-- The 2x2 `s8` image `[[-1,-2],[3,4]]` as `MatrixFromMat` presents it. -/
def s8M : Matrix := ⟨1, 2, 2, 1, ⟨8, false, true, false, false, false, false⟩, [255, 254, 3, 4]⟩

/-- A 2x2 `f32` image (all elements `+0.0`) as `MatrixFromMat` presents it. -/
def f32M : Matrix := ⟨1, 2, 2, 1, ⟨32, true, true, false, false, false, false⟩, [0, 0, 0, 0]⟩

/-- The integers an integer element type can hold. -/
def InType (signed : Bool) (bits : Nat) (n : Int) : Prop :=
  if signed then -((2 ^ (bits - 1) : Nat) : Int) ≤ n ∧ n < ((2 ^ (bits - 1) : Nat) : Int)
  else 0 ≤ n ∧ n < ((2 ^ bits : Nat) : Int)


/-- The 1x1 `s8` matrix holding `-128`. -/
def s8Min : Matrix := ⟨1, 1, 1, 1, ⟨8, false, true, true, true, true, true⟩, [128]⟩

/-- The 1x1 `s8` matrix holding `100`. -/
def s8Hundred : Matrix := ⟨1, 1, 1, 1, ⟨8, false, true, true, true, true, true⟩, [100]⟩

/-- The 1x1 `u8` matrix holding `1`. -/
def u8One : Matrix := ⟨1, 1, 1, 1, ⟨8, false, false, true, true, true, true⟩, [1]⟩

/-- An integer matrix: not floating, of positive width, every slot of the
buffer holding a pattern of that width. -/
def Matrix.IntegerTyped (m : Matrix) : Prop :=
  m.hash.floating = false ∧ 0 < m.hash.bits ∧ ∀ v ∈ m.data, v < 2 ^ m.hash.bits

/-- The reading of element `i` of a matrix in its own integer element type. -/
def Matrix.elem (m : Matrix) (i : Nat) : Int := ival m.hash.signed m.hash.bits (m.data.getD i 0)

/-- The `min` property of `clamp`: a whole-number bound, or the default
`-std::numeric_limits<double>::max()` when none is given. -/
def clampMin : Option Int → Dbl
  | none => Dbl.neg Dbl.max
  | some l => Dbl.ofInt l

/-- The `max` property of `clamp`: a whole-number bound, or the default
`std::numeric_limits<double>::max()` when none is given. -/
def clampMax : Option Int → Dbl
  | none => Dbl.max
  | some h => Dbl.ofInt h

/-- A whole-number bound that the element type can hold and that fits `int`. -/
def BoundOk (m : Matrix) (b : Option Int) : Prop :=
  ∀ n, b = some n → InType m.hash.signed m.hash.bits n ∧ (Dbl.ofInt n).FitsInt

/-- The sum the specification asks of the output element at coordinate
`(c, x, y, t)`: the source elements whose coordinates agree with it on every
axis that is not reduced, the reduced axes ranging over the whole source
extent, read in the source type, added up and reduced to `bits` bits. -/
def specSum (channels columns rows frames : Bool) (src : Matrix) (c x y t : Nat) (bits : Nat) :
    Nat :=
  pat bits
    ((List.range src.frames).foldl (fun acc t1 =>
      (List.range src.rows).foldl (fun acc y1 =>
        (List.range src.columns).foldl (fun acc x1 =>
          (List.range src.channels).foldl (fun acc c1 =>
            if (channels || c1 == c) && (columns || x1 == x) && (rows || y1 == y) &&
                (frames || t1 == t)
            then acc + ival src.hash.signed src.hash.bits (src.data.getD (flatOffset src c1 x1 y1 t1) 0)
            else acc) acc) acc) acc) (0 : Int))

/-- A `u8` matrix with two channels, two columns, two rows and one frame,
holding `1 .. 8` in storage order. -/
def u8Cube : Matrix :=
  ⟨2, 2, 2, 1, ⟨8, false, false, false, false, false, true⟩, [1, 2, 3, 4, 5, 6, 7, 8]⟩

/-- The same two-channel 2x2 `u8` image with no single-axis flag set, the way
`MatrixFromMat` presents it. -/
def u8Image : Matrix :=
  ⟨2, 2, 2, 1, ⟨8, false, false, false, false, false, false⟩, [1, 2, 3, 4, 5, 6, 7, 8]⟩

/-! ## Casting between integer types -/

/-- The element type `T` can represent every value of the element type `S`:
every integer an `S` element can hold is one a `T` element can hold. -/
def Represents (T S : CastType) : Prop :=
  ∀ n : Int, InType S.toType.2.2 S.toType.1 n → InType T.toType.2.2 T.toType.1 n

/-! ## Allocation size -/

namespace MatrixBuilder

/-- Source `bitsCode`: the `Bits` field of the run-time hash (`get(Bits)`). -/
def bitsCode (mb : MatrixBuilder) : Nat := mb.m.hash.bits

/-- Source `bytesCode`: the width zero-extended to `i32`, divided by eight with
`udiv`, times `elementsCode`. -/
def bytesCode (mb : MatrixBuilder) : Nat :=
  mul32 (udiv32 (i32 mb.bitsCode) 8) mb.elementsCode

/-- Source `allocateCode`, as far as the size goes: the argument of the `malloc` call. -/
def allocateCode (mb : MatrixBuilder) : Nat := mb.bytesCode

end MatrixBuilder

/-- The packed size in bytes the specification gives a matrix:
`ceil(bits/8) * channels * columns * rows * frames`. -/
def packedBytes (m : Matrix) : Nat :=
  ((m.hash.bits + 7) / 8) * (m.channels * m.columns * m.rows * m.frames)

/-- A `u1` matrix of eight columns. -/
def u1Row : Matrix :=
  ⟨1, 8, 1, 1, ⟨1, false, false, true, false, true, true⟩, [1, 0, 1, 1, 0, 0, 1, 0]⟩

/-! ## Argument identifiers -/

namespace argsLUT

/-- Source `QHash::contains` on the static `argsLUT` of
`UnaryKernel::mangledName()`, the table held as an association list. -/
def contains (lut : List (String × Nat)) (args : String) : Bool :=
  lut.any (fun e => e.1 == args)

/-- Source `QHash::value`: the identifier stored for `args`, zero when there is none. -/
def value (lut : List (String × Nat)) (args : String) : Nat :=
  match lut.find? (fun e => e.1 == args) with
  | some e => e.2
  | none => 0

/-- Source `QHash::insert`: the entry for `args` is added, replacing an earlier one. -/
def insert (lut : List (String × Nat)) (args : String) (uid : Nat) : List (String × Nat) :=
  (args, uid) :: lut.filter (fun e => e.1 != args)

end argsLUT

/-- Source `UnaryKernel::mangledName()`: `name` is the transform name with
`Transform` removed and `args` the joined argument string; the result is the
table after the call and the mangled name. -/
def UnaryKernel.mangledName (name args : String) (lut : List (String × Nat)) :
    List (String × Nat) × String :=
  let lut1 := if !(argsLUT.contains lut args) then argsLUT.insert lut args lut.length else lut
  let uid := argsLUT.value lut1 args
  (lut1, "jitcv_" ++ name ++ (if args.isEmpty then "" else toString uid))

/-- The table after a sequence of calls of `mangledName()`, each given by the
name and the argument string of the calling instance. -/
def argsLUT.after (calls : List (String × String)) (lut : List (String × Nat)) :
    List (String × Nat) :=
  calls.foldl (fun l c => (UnaryKernel.mangledName c.1 c.2 l).1) lut

/-! ## Binary kernels -/

/-- A `BinaryKernel` instance as far as naming goes: its transform name with
`Transform` removed and its joined argument string. -/
structure BinaryKernel where
  name : String
  arguments : String
  deriving DecidableEq, Repr

/-- Source `BinaryKernel::mangledName(srcA, srcB)`. -/
def BinaryKernel.mangledName (k : BinaryKernel) (srcA srcB : Matrix) : String :=
  "jitcv_" ++ k.name ++ "_" ++ MatrixToString srcA ++ "_" ++ MatrixToString srcB

/-- What binary dispatch reads and writes: the function names held by
`TheModule`, the cached `kernel` pointer of the wrapper (`none` is `NULL`), its
cached `hashA` and `hashB`, and a count of the runs of `compile`. -/
structure BinaryDispatch where
  module : List String
  kernel : Option String
  hashA : Hash
  hashB : Hash
  compiled : Nat
  deriving DecidableEq, Repr

/-- A binary wrapper as constructed (`kernel(NULL), hashA(0), hashB(0)`). -/
def BinaryDispatch.init (module : List String) : BinaryDispatch :=
  ⟨module, none, Hash.zero, Hash.zero, 0⟩

/-- Source `BinaryKernel::invoke` as far as dispatch goes: when a hash differs
the function is looked up by its mangled name and compiled only if the module
has none; then the cached pointer is called.  The result is the new state and
the function called; a call of the `NULL` pointer gives `none`. -/
def BinaryKernel.invoke (k : BinaryKernel) (st : BinaryDispatch) (srcA srcB : Matrix) :
    Option (BinaryDispatch × String) :=
  let st1 : BinaryDispatch :=
    if srcA.hash ≠ st.hashA ∨ srcB.hash ≠ st.hashB then
      if srcA.hash ≠ st.hashA ∨ srcB.hash ≠ st.hashB then
        let functionName := k.mangledName srcA srcB
        let st2 : BinaryDispatch :=
          if functionName ∈ st.module then st
          else { st with module := functionName :: st.module, compiled := st.compiled + 1 }
        { st2 with kernel := some functionName, hashA := srcA.hash, hashB := srcB.hash }
      else st
    else st
  match st1.kernel with
  | none => none
  | some f => some (st1, f)

/-! ## The type rule in the words of the specification -/

/-- The element type a stitchable primitive gives its output, as the
specification words it: `cast` sets the requested type, `pow` makes the type
floating (hence signed) with width `max(bits, 32)`, every other primitive keeps
the type.  The single-axis flags are kept. -/
def typeRuleSpec (k : StitchableKernel) (h : Hash) : Hash :=
  match k with
  | .castTransform type =>
    { h with bits := type.toType.1, floating := type.toType.2.1, signed := type.toType.2.2 }
  | .powTransform _ => { h with bits := Nat.max h.bits 32, floating := true, signed := true }
  | _ => h

/-! ## Wrapping an image -/

/-- An OpenCV image as `MatrixFromMat` reads it: `isContinuous()`,
`channels()`, `cols`, `rows`, `depth()` and the buffer behind `data`. -/
structure Mat where
  isContinuous : Bool
  channels : Nat
  cols : Nat
  rows : Nat
  depth : Nat
  data : List Nat
  deriving DecidableEq, Repr

/-- OpenCV depth code `CV_8U`. -/
def CV_8U : Nat := 0
/-- OpenCV depth code `CV_8S`. -/
def CV_8S : Nat := 1
/-- OpenCV depth code `CV_16U`. -/
def CV_16U : Nat := 2
/-- OpenCV depth code `CV_16S`. -/
def CV_16S : Nat := 3
/-- OpenCV depth code `CV_32S`. -/
def CV_32S : Nat := 4
/-- OpenCV depth code `CV_32F`. -/
def CV_32F : Nat := 5
/-- OpenCV depth code `CV_64F`. -/
def CV_64F : Nat := 6

/-- Modelled from the spec: a type constant of `Matrix` (`Matrix::u8` and so on,
declared in the missing `jitcv/jitcv.h`) as a hash value: width, floating and
signed flag, no single-axis flag. -/
def Matrix.typeHash (t : CastType) : Hash :=
  ⟨t.toType.1, t.toType.2.1, t.toType.2.2, false, false, false, false⟩

/-- Source `MatrixFromMat`: fatal (`none`) for a buffer that is not continuous or
a depth outside the seven of the `switch`; otherwise the extents of the image
with one frame, the type constant assigned to the whole hash, and the buffer. -/
def MatrixFromMat (mat : Mat) : Option Matrix :=
  if !mat.isContinuous then none
  else
    let hash : Option Hash :=
      if mat.depth = CV_8U then some (Matrix.typeHash .u8)
      else if mat.depth = CV_8S then some (Matrix.typeHash .s8)
      else if mat.depth = CV_16U then some (Matrix.typeHash .u16)
      else if mat.depth = CV_16S then some (Matrix.typeHash .s16)
      else if mat.depth = CV_32S then some (Matrix.typeHash .s32)
      else if mat.depth = CV_32F then some (Matrix.typeHash .f32)
      else if mat.depth = CV_64F then some (Matrix.typeHash .f64)
      else none
    match hash with
    | none => none
    | some h => some ⟨mat.channels, mat.cols, mat.rows, 1, h, mat.data⟩

/-- The single-axis flags of a matrix are set exactly on the axes of extent one. -/
def FingerprintInvariant (m : Matrix) : Prop :=
  (m.hash.singleChannel = true ↔ m.channels = 1) ∧
  (m.hash.singleColumn = true ↔ m.columns = 1) ∧
  (m.hash.singleRow = true ↔ m.rows = 1) ∧
  (m.hash.singleFrame = true ↔ m.frames = 1)

/-- A continuous 2x2 one-channel 8-bit unsigned image. -/
def grayImage : Mat := ⟨true, 1, 2, 2, CV_8U, [10, 20, 30, 40]⟩

/-- What every table reached from the empty one satisfies: no argument string
has two entries, every identifier is below the size, and no identifier occurs
twice. -/
def argsLUT.Ok (lut : List (String × Nat)) : Prop :=
  (lut.map Prod.fst).Nodup ∧ (∀ e ∈ lut, e.2 < lut.length) ∧ (lut.map Prod.snd).Nodup

/-- The 1x1 `u64` matrix holding `1`. -/
def u64One : Matrix := ⟨1, 1, 1, 1, ⟨64, false, false, true, true, true, true⟩, [1]⟩

/-- A continuous 2x2 three-channel 8-bit unsigned image. -/
def colorImage : Mat := ⟨true, 3, 2, 2, CV_8U, [1, 2, 3, 4, 5, 6, 7, 8, 9, 10, 11, 12]⟩

/-- The type rules of a pipeline applied in list order, in the words of the
specification. -/
def chainHashSpec (ps : List StitchableKernel) (h : Hash) : Hash :=
  ps.foldl (fun h k => typeRuleSpec k h) h

/-! ## The counted loop, traced -/

/-- The values the induction variable takes, in order: the loop of
`beginLoop`/`endLoop` run with a body that records its index. -/
def loopTrace (limit : Nat) : List Nat := loop (fun i l => l ++ [i]) limit []

/-- The number of runs of the body: the loop run with a body that counts. -/
def loopCount (limit : Nat) : Nat := loop (fun _ n => n + 1) limit 0

/-! ## The emitted preallocation -/

namespace MatrixBuilder

/-- Source `getHash`: a load of the header field. -/
def getHash (mb : MatrixBuilder) : Hash := mb.m.hash

/-- Source `setChannels`: a store to the run-time header. -/
def setChannels (mb : MatrixBuilder) (value : Nat) : MatrixBuilder :=
  { mb with m := { mb.m with channels := value } }

/-- Source `setColumns`. -/
def setColumns (mb : MatrixBuilder) (value : Nat) : MatrixBuilder :=
  { mb with m := { mb.m with columns := value } }

/-- Source `setRows`. -/
def setRows (mb : MatrixBuilder) (value : Nat) : MatrixBuilder :=
  { mb with m := { mb.m with rows := value } }

/-- Source `setFrames`. -/
def setFrames (mb : MatrixBuilder) (value : Nat) : MatrixBuilder :=
  { mb with m := { mb.m with frames := value } }

/-- Source `setHash`. -/
def setHash (mb : MatrixBuilder) (value : Hash) : MatrixBuilder :=
  { mb with m := { mb.m with hash := value } }

/-- Source `copyHeaderCode(other)`: stores of channels, rows, frames and hash, in
that order; there is no store of columns. -/
def copyHeaderCode (mb other : MatrixBuilder) : MatrixBuilder :=
  (((mb.setChannels other.getChannels).setRows other.getRows).setFrames other.getFrames).setHash
    other.getHash

end MatrixBuilder

/-- Source `StitchableKernel::buildPreallocate`, which no stitchable transform
overrides: the destination after `copyHeaderCode` and the value of
`elementsCode`. -/
def StitchableKernel.buildPreallocate (_k : StitchableKernel) (src dst : MatrixBuilder) :
    MatrixBuilder × Nat :=
  let dst1 := dst.copyHeaderCode src
  (dst1, dst1.elementsCode)

/-- The `preallocate` block of the trampoline `compile(m)` emits, run on the
matrices `src` and `dst`: both builders (`mb`, `nb`) are made from the matrix
`m`; the result is the destination header and the kernel length. -/
def StitchableKernel.trampolinePreallocate (k : StitchableKernel) (m src dst : Matrix) :
    Matrix × Nat :=
  let r := k.buildPreallocate ⟨m, src⟩ ⟨m, dst⟩
  (r.1.m, r.2)

/-! ## What a stitch pipeline accepts -/

/-- The registered transforms as far as `stitchTransform::init` tells them
apart: the subclasses of `StitchableKernel`, `stitchTransform` and
`sumTransform` (subclasses of `UnaryKernel`), and any other transform by name. -/
inductive Transform
  | stitchable (k : StitchableKernel)
  | stitchTransform (kernels : List Transform)
  | sumTransform (channels columns rows frames : Bool)
  | other (name : String)

/-- Source `dynamic_cast<StitchableKernel*>(transform) != NULL`: only the
classes declared `: public StitchableKernel` pass. -/
def Transform.isStitchableKernel : Transform → Bool
  | .stitchable _ => true
  | _ => false

/-- Source `stitchTransform::init`: `qFatal` (`none`) at the first element that
is not a `StitchableKernel`. -/
def stitchTransform.init : List Transform → Option Unit
  | [] => some ()
  | transform :: kernels =>
    if transform.isStitchableKernel = false then none else stitchTransform.init kernels

/-- The nested pipeline `stitch([stitch([add(1)]), scale(2)])`. -/
def nestedStitch : List Transform :=
  [.stitchTransform [.stitchable (.addTransform (Dbl.ofInt 1))],
   .stitchable (.scaleTransform (Dbl.ofInt 2))]

/-! ## Utilities of `core/common.h` -/

namespace Common

/-- Qt `operator<` on `QPair<T,int>`: by the first component, then by the second. -/
def pairLt {T : Type} [LinearOrder T] (p q : T × Nat) : Bool :=
  decide (p.1 < q.1) || (!decide (q.1 < p.1) && decide (p.2 < q.2))

/-- Qt `qSort` with `operator<` given as `lt`.  The Qt algorithm is not part of
the repository; the model is an ascending sort (by insertion), and for a
linear order every ascending sort returns this list. -/
def qSort {α : Type} (lt : α → α → Bool) (l : List α) : List α :=
  l.insertionSort (fun a b => lt b a = false)

/-- Qt `QList::swap(i, j)`. -/
def swap {α : Type} (l : List α) (i j : Nat) : List α :=
  match l[i]?, l[j]? with
  | some a, some b => (l.set i b).set j a
  | _, _ => l

/-- Source `Sort(vals, decending)`; the name `Sort` is reserved in Lean. -/
def SortPairs {T : Type} [LinearOrder T] (vals : List T) (decending : Bool) : List (T × Nat) :=
  let size := vals.length
  let pairs := vals.enum.map (fun p => (p.2, p.1))
  let pairs := qSort pairLt pairs
  if decending then
    (List.range (size / 2)).foldl (fun pairs k => swap pairs k (size - (1 + k))) pairs
  else pairs

/-- The loop of `MinMax` over the elements from index `i` on; the state is
`(min, max, min_index, max_index)`. -/
def MinMax.loop {T : Type} [LinearOrder T] : List T → Nat → T × T × Nat × Nat → T × T × Nat × Nat
  | [], _, st => st
  | val :: rest, i, (min, max, min_index, max_index) =>
    if val < min then MinMax.loop rest (i + 1) (val, max, i, max_index)
    else if max < val then MinMax.loop rest (i + 1) (min, val, min_index, i)
    else MinMax.loop rest (i + 1) (min, max, min_index, max_index)

/-- Source `MinMax(vals, min, max, min_index, max_index)`; `none` where
`assert(size > 0)` fails. -/
def MinMax {T : Type} [LinearOrder T] (vals : List T) : Option (T × T × Nat × Nat) :=
  match vals with
  | [] => none
  | v0 :: rest => some (MinMax.loop rest 1 (v0, v0, 0, 0))

/-- Source `Max(vals)`, which compiles for `T = int` only (its temporaries are
`int`); the values here are counts, held as natural numbers. -/
def Max (vals : List Nat) : Option Nat := (MinMax vals).map (fun r => r.2.1)

/-- Source `Min(vals)`, for `T = int` as `Max`. -/
def Min (vals : List Nat) : Option Nat := (MinMax vals).map (fun r => r.1)

namespace QMap

/-- Qt `QMap::contains`, the map held as the list of its items in ascending
key order. -/
def contains {T : Type} [LinearOrder T] (m : List (T × Nat)) (k : T) : Bool :=
  m.any (fun e => decide (e.1 = k))

/-- Qt `QMap::value`: the value stored for `k`, zero when there is none. -/
def value {T : Type} [LinearOrder T] (m : List (T × Nat)) (k : T) : Nat :=
  match m.find? (fun e => decide (e.1 = k)) with
  | some e => e.2
  | none => 0

/-- Qt `QMap::insert`: the item is put at its place in key order, replacing an
item with the same key. -/
def insert {T : Type} [LinearOrder T] : List (T × Nat) → T → Nat → List (T × Nat)
  | [], k, v => [(k, v)]
  | e :: m, k, v =>
    if k < e.1 then (k, v) :: e :: m
    else if e.1 < k then e :: insert m k v
    else (k, v) :: m

/-- Qt `QMap::values`: the values in ascending key order. -/
def values {T : Type} [LinearOrder T] (m : List (T × Nat)) : List Nat := m.map Prod.snd

/-- Qt `QMap::key(value)`: the first key in key order holding `value`, a
default-constructed key when there is none. -/
def key {T : Type} [LinearOrder T] (m : List (T × Nat)) (v : Nat) (defaultKey : T) : T :=
  match m.find? (fun e => decide (e.2 = v)) with
  | some e => e.1
  | none => defaultKey

end QMap

/-- The loop of `Mode`: the map of counts after the values of the list. -/
def Mode.counts {T : Type} [LinearOrder T] (vals : List T) : List (T × Nat) :=
  vals.foldl (fun counts val =>
    let counts1 := if QMap.contains counts val = false then QMap.insert counts val 0 else counts
    QMap.insert counts1 val (QMap.value counts1 val + 1)) []

/-- Source `Mode(vals)`; `none` where the `assert` of `MinMax` fails. -/
def Mode {T : Type} [LinearOrder T] [Inhabited T] (vals : List T) : Option T :=
  match Max (QMap.values (Mode.counts vals)) with
  | none => none
  | some mx => some (QMap.key (Mode.counts vals) mx default)

/-- Qt `QList::indexOf`: the index of the first occurrence, `-1` when there is
none. -/
def indexOf {T : Type} [LinearOrder T] (l : List T) (v : T) : Int :=
  if v ∈ l then (l.indexOf v : Int) else -1

/-- One round of the loop of `Unique` that computes `b` and `m`. -/
def Unique.step {T : Type} [LinearOrder T] (st : List T × List Nat) (p : T × Nat) :
    List T × List Nat :=
  if st.1.getLast? = some p.1 then (st.1, st.2.dropLast ++ [max (st.2.getLastD 0) p.2])
  else (st.1 ++ [p.1], st.2 ++ [p.2])

/-- Source `Unique(vals, b, m, n)`: the three lists after the call; `none`
where `assert(size > 0)` fails. -/
def Unique {T : Type} [LinearOrder T] (vals : List T) (b : List T) (m : List Nat) (n : List Int) :
    Option (List T × List Nat × List Int) :=
  match SortPairs vals false with
  | [] => none
  | p0 :: rest =>
    let st := rest.foldl Unique.step (b ++ [p0.1], m ++ [p0.2])
    some (st.1, st.2, n ++ vals.map (fun v => indexOf st.1 v))

/-- Element `i` of a list for a `long` index: `none` where the index is out of range. -/
def at? {T : Type} (l : List T) (i : Int) : Option T :=
  if i < 0 then none else l[i.toNat]?

/-- Source `Downsample(vals, k)`; `none` for a division by zero or an index
out of range.  The `long` product `i * (size-1)` cannot wrap: the loop runs
only for `i < k < size`, and a `QList` holds fewer than `2^31` items. -/
def Downsample {T : Type} [LinearOrder T] (vals : List T) (k : Int) : Option (List T) :=
  let vals1 := qSort (fun a b => decide (a < b)) vals
  let size : Int := vals1.length
  if size ≤ k then some vals1
  else
    (List.range k.toNat).foldlM (fun newVals (i : Nat) =>
      if k - 1 = 0 then none
      else (at? vals1 (Int.tdiv ((i : Int) * (size - 1)) (k - 1))).map (fun v => newVals ++ [v])) []

end Common

/-! ## Concatenating a template (`plugins/regions.cpp`) -/

/-- OpenCV `Mat::total()`: the number of array elements. -/
def Mat.total (mat : Mat) : Nat := mat.rows * mat.cols

/-- OpenCV `Mat::elemSize1()`: the bytes of one channel of an element, by depth. -/
def Mat.elemSize1 (mat : Mat) : Nat :=
  if mat.depth = CV_8U ∨ mat.depth = CV_8S then 1
  else if mat.depth = CV_16U ∨ mat.depth = CV_16S then 2
  else if mat.depth = CV_32S ∨ mat.depth = CV_32F then 4
  else 8

/-- OpenCV `Mat::elemSize()`: the bytes of one element, all channels. -/
def Mat.elemSize (mat : Mat) : Nat := mat.channels * mat.elemSize1

/-- What `Cat::project` does with memory: the capacity in bytes of the matrix
`cat` it allocates and the byte ranges `(offset, size)` it copies to, in order. -/
structure CatTrace where
  capacity : Nat
  copies : List (Nat × Nat)
  offset : Nat
  deriving DecidableEq, Repr

/-- Source `Cat::project`: `vals` scalars are counted, `cat` is a `1 x vals`
matrix of `CV_32FC1` (four bytes an element), and every input is copied whole
at the running offset. -/
def Cat.project (src : List Mat) : CatTrace :=
  let vals := src.foldl (fun vals m => vals + m.total * m.channels) 0
  let r := src.foldl (fun (p : List (Nat × Nat) × Nat) m =>
    let size := m.total * m.elemSize
    (p.1 ++ [(p.2, size)], p.2 + size)) ([], 0)
  ⟨4 * vals, r.1, r.2⟩

/-- A continuous 1x1 one-channel image of depth `CV_64F`. -/
def doubleImage : Mat := ⟨true, 1, 1, 1, CV_64F, [0]⟩

/-- What the lists `b` and `m` of `Unique` satisfy after the sorted pairs
`pre`: both end in a last element, `b` is strictly increasing, every pair of
`b` and `m` is a pair of `pre` carrying the largest index of its value, every
value of `pre` is in `b`, and none exceeds the last element of `b`. -/
def Common.UniqueInv {T : Type} [LinearOrder T] (pre : List (T × Nat))
    (st : List T × List Nat) : Prop :=
  ∃ (bi : List T) (bl : T) (mi : List Nat) (ml : Nat),
    st = (bi ++ [bl], mi ++ [ml]) ∧ bi.length = mi.length ∧
    (bi ++ [bl]).Pairwise (fun a b => a < b) ∧
    (∀ e ∈ (bi ++ [bl]).zip (mi ++ [ml]), e ∈ pre ∧ ∀ i, (e.1, i) ∈ pre → i ≤ e.2) ∧
    (∀ q ∈ pre, q.1 ∈ bi ++ [bl]) ∧ (∀ q ∈ pre, q.1 ≤ bl)

/-! # Theorems -/

open MatrixBuilder

theorem lt_mul_of_digit {a n b m : Nat} (ha : a < n) (hb : b < m) : a + n * b < n * m := by
  calc a + n * b < n + n * b := by omega
    _ = n * (b + 1) := by ring
    _ ≤ n * m := Nat.mul_le_mul_left n hb

theorem flatOffset_lt (m : Matrix) {c x y f : Nat} (h : InRange m c x y f) :
    flatOffset m c x y f < m.elements := by
  obtain ⟨hc, hx, hy, hf⟩ := h
  unfold flatOffset Matrix.elements
  have h1 := lt_mul_of_digit hy hf
  have h2 := lt_mul_of_digit hx h1
  have h3 := lt_mul_of_digit hc h2
  calc _ < m.channels * (m.columns * (m.rows * m.frames)) := h3
    _ = _ := by ring

theorem getChannels_eq {mb : MatrixBuilder} (h : FlagsSound mb) : mb.getChannels = mb.m.channels := by
  unfold getChannels; split
  · next hs => exact (h.1 hs).symm
  · rfl
theorem getColumns_eq {mb : MatrixBuilder} (h : FlagsSound mb) : mb.getColumns = mb.m.columns := by
  unfold getColumns; split
  · next hs => exact (h.2.1 hs).symm
  · rfl
theorem getRows_eq {mb : MatrixBuilder} (h : FlagsSound mb) : mb.getRows = mb.m.rows := by
  unfold getRows; split
  · next hs => exact (h.2.2.1 hs).symm
  · rfl
theorem getFrames_eq {mb : MatrixBuilder} (h : FlagsSound mb) : mb.getFrames = mb.m.frames := by
  unfold getFrames; split
  · next hs => exact (h.2.2.2 hs).symm
  · rfl

theorem add32_modEq (a b : Nat) : add32 a b ≡ a + b [MOD 2 ^ 32] := Nat.mod_modEq _ _
theorem mul32_modEq (a b : Nat) : mul32 a b ≡ a * b [MOD 2 ^ 32] := Nat.mod_modEq _ _

theorem rowStep_modEq {mb : MatrixBuilder} (h : FlagsSound mb) :
    mb.rowStep ≡ mb.m.channels * mb.m.columns [MOD 2 ^ 32] := by
  unfold rowStep columnStep
  rw [getChannels_eq h, getColumns_eq h, Nat.mul_comm mb.m.channels]
  exact mul32_modEq _ _

theorem frameStep_modEq {mb : MatrixBuilder} (h : FlagsSound mb) :
    mb.frameStep ≡ mb.m.channels * mb.m.columns * mb.m.rows [MOD 2 ^ 32] := by
  unfold frameStep
  rw [getRows_eq h, Nat.mul_comm _ mb.m.rows]
  exact (mul32_modEq _ _).trans ((Nat.ModEq.refl _).mul (rowStep_modEq h))

theorem index_modEq {mb : MatrixBuilder} (h : FlagsSound mb) {c x y f : Nat}
    (hr : InRange mb.m c x y f) :
    mb.index c x y f ≡ flatOffset mb.m c x y f [MOD 2 ^ 32] := by
  obtain ⟨hc, hx, hy, hf⟩ := hr
  have e1 : mb.index1 c = c := by
    unfold index1; split
    · next hs => have := h.1 hs; omega
    · rfl
  have e2 : mb.index2 c x ≡ c + mb.m.channels * x [MOD 2 ^ 32] := by
    unfold index2; split
    · next hs =>
      have := h.2.1 hs
      have hx0 : x = 0 := by omega
      rw [e1, hx0]; exact Nat.ModEq.refl _
    · rw [e1, columnStep, getChannels_eq h]
      refine (add32_modEq _ _).trans ?_
      rw [Nat.add_comm, Nat.mul_comm]
      exact (Nat.ModEq.refl c).add (mul32_modEq _ _)
  have e3 : mb.index3 c x y ≡ c + mb.m.channels * (x + mb.m.columns * y) [MOD 2 ^ 32] := by
    unfold index3; split
    · next hs =>
      have := h.2.2.1 hs
      have hy0 : y = 0 := by omega
      rw [hy0]; simpa using e2
    · refine (add32_modEq _ _).trans ?_
      have := (((Nat.ModEq.refl y).mul (rowStep_modEq h)).add e2)
      refine ((mul32_modEq _ _).add (Nat.ModEq.refl _)).trans (this.trans ?_)
      have : y * (mb.m.channels * mb.m.columns) + (c + mb.m.channels * x)
          = c + mb.m.channels * (x + mb.m.columns * y) := by ring
      rw [this]
  unfold index flatOffset; split
  · next hs =>
    have := h.2.2.2 hs
    have hf0 : f = 0 := by omega
    rw [hf0]; simpa using e3
  · refine (add32_modEq _ _).trans ?_
    have := (((Nat.ModEq.refl f).mul (frameStep_modEq h)).add e3)
    refine ((mul32_modEq _ _).add (Nat.ModEq.refl _)).trans (this.trans ?_)
    have : f * (mb.m.channels * mb.m.columns * mb.m.rows) + (c + mb.m.channels * (x + mb.m.columns * y))
        = c + mb.m.channels * (x + mb.m.columns * (y + mb.m.rows * f)) := by ring
    rw [this]

theorem add32_lt (a b : Nat) : add32 a b < 2 ^ 32 := Nat.mod_lt _ (by norm_num)

theorem elements_pos_of_inRange {m : Matrix} {c x y f : Nat} (hr : InRange m c x y f) :
    0 < m.channels ∧ 0 < m.columns ∧ 0 < m.rows ∧ 0 < m.frames := by
  obtain ⟨hc, hx, hy, hf⟩ := hr
  exact ⟨by omega, by omega, by omega, by omega⟩

theorem channels_le_elements {m : Matrix} (h2 : 0 < m.columns) (h3 : 0 < m.rows) (h4 : 0 < m.frames) :
    m.channels ≤ m.elements := by
  unfold Matrix.elements
  calc m.channels = m.channels * 1 * 1 * 1 := by ring
    _ ≤ m.channels * m.columns * m.rows * m.frames := by gcongr <;> omega

theorem index_lt {mb : MatrixBuilder} {c x y f : Nat}
    (hr : InRange mb.m c x y f) (hfit : mb.m.elements ≤ 2 ^ 32) :
    mb.index c x y f < 2 ^ 32 := by
  obtain ⟨-, p2, p3, p4⟩ := elements_pos_of_inRange hr
  have hle := channels_le_elements p2 p3 p4
  have hc := hr.1
  have e1 : mb.index1 c < 2 ^ 32 := by
    unfold index1; split
    · norm_num
    · omega
  have e2 : mb.index2 c x < 2 ^ 32 := by
    unfold index2; split
    · exact e1
    · exact add32_lt _ _
  have e3 : mb.index3 c x y < 2 ^ 32 := by
    unfold index3; split
    · exact e2
    · exact add32_lt _ _
  unfold index; split
  · exact e3
  · exact add32_lt _ _

theorem index_eq_flat {mb : MatrixBuilder} (h : FlagsSound mb) {c x y f : Nat}
    (hr : InRange mb.m c x y f) (hfit : mb.m.elements ≤ 2 ^ 32) :
    mb.index c x y f = flatOffset mb.m c x y f := by
  have h1 := index_modEq h hr
  have h2 := index_lt hr hfit
  have h3 := flatOffset_lt mb.m hr
  unfold Nat.ModEq at h1
  rw [Nat.mod_eq_of_lt h2, Nat.mod_eq_of_lt (by omega)] at h1
  exact h1

theorem sub32_eq {a b : Nat} (hb : b ≤ a) (ha : a < 2 ^ 32) : sub32 a b = a - b := by
  unfold sub32
  have hb' : b % 2 ^ 32 = b := Nat.mod_eq_of_lt (by omega)
  rw [hb']
  have : a + (2 ^ 32 - b) = (a - b) + 2 ^ 32 := by omega
  rw [this, Nat.add_mod_right]
  exact Nat.mod_eq_of_lt (by omega)

theorem udiv_sub_urem {i s : Nat} (hi : i < 2 ^ 32) :
    udiv32 (sub32 i (urem32 i s)) s = i / s := by
  unfold udiv32 urem32
  rw [sub32_eq (Nat.mod_le i s) hi]
  exact (Nat.div_eq_sub_mod_div).symm

/-- Exact steps when the element count fits. -/
theorem steps_exact {mb : MatrixBuilder} (h : FlagsSound mb)
    (hfit : mb.m.elements < 2 ^ 32) (p3 : 0 < mb.m.rows) (p4 : 0 < mb.m.frames) :
    mb.columnStep = mb.m.channels ∧ mb.rowStep = mb.m.channels * mb.m.columns ∧
    mb.frameStep = mb.m.channels * mb.m.columns * mb.m.rows := by
  have hcs : mb.columnStep = mb.m.channels := by rw [columnStep, getChannels_eq h]
  have hle2 : mb.m.channels * mb.m.columns * mb.m.rows ≤ mb.m.elements := by
    unfold Matrix.elements; exact Nat.le_mul_of_pos_right _ p4
  have hle1 : mb.m.channels * mb.m.columns ≤ mb.m.channels * mb.m.columns * mb.m.rows :=
    Nat.le_mul_of_pos_right _ p3
  have hrs : mb.rowStep = mb.m.channels * mb.m.columns := by
    rw [rowStep, hcs, getColumns_eq h, mul32, Nat.mul_comm]
    exact Nat.mod_eq_of_lt (by omega)
  refine ⟨hcs, hrs, ?_⟩
  rw [frameStep, hrs, getRows_eq h, mul32, Nat.mul_comm]
  exact Nat.mod_eq_of_lt (by omega)

/-- The digits computed by `deindex`. -/
theorem deindex_eq {mb : MatrixBuilder} (h : FlagsSound mb)
    (hfit : mb.m.elements < 2 ^ 32) {i : Nat} (hi : i < mb.m.elements) :
    mb.deindex i =
      (i % (mb.m.channels * mb.m.columns * mb.m.rows) % (mb.m.channels * mb.m.columns) % mb.m.channels,
       i % (mb.m.channels * mb.m.columns * mb.m.rows) % (mb.m.channels * mb.m.columns) / mb.m.channels,
       i % (mb.m.channels * mb.m.columns * mb.m.rows) / (mb.m.channels * mb.m.columns),
       i / (mb.m.channels * mb.m.columns * mb.m.rows)) := by
  have hpos : 0 < mb.m.elements := by omega
  unfold Matrix.elements at hpos hi hfit
  have p4 : 0 < mb.m.frames := Nat.pos_of_ne_zero (fun h0 => by simp [h0] at hpos)
  have p3 : 0 < mb.m.rows := Nat.pos_of_ne_zero (fun h0 => by simp [h0] at hpos)
  have p2 : 0 < mb.m.columns := Nat.pos_of_ne_zero (fun h0 => by simp [h0] at hpos)
  have p1 : 0 < mb.m.channels := Nat.pos_of_ne_zero (fun h0 => by simp [h0] at hpos)
  have p12 : 0 < mb.m.channels * mb.m.columns := Nat.mul_pos p1 p2
  have p123 : 0 < mb.m.channels * mb.m.columns * mb.m.rows := Nat.mul_pos p12 p3
  obtain ⟨hcs, hrs, hfs⟩ := steps_exact h hfit p3 p4
  set ch := mb.m.channels
  set rs := mb.m.channels * mb.m.columns
  set fs := rs * mb.m.rows
  have hfsle : fs ≤ fs * mb.m.frames := Nat.le_mul_of_pos_right _ p4
  have hrsle : rs ≤ fs := Nat.le_mul_of_pos_right _ p3
  have hchle : ch ≤ rs := Nat.le_mul_of_pos_right _ p2
  -- level 1
  have d1 : ∀ j, j < ch → mb.deindex1 j = j % ch := by
    intro j hj
    unfold deindex1; split
    · next hs => have := h.1 hs; rw [Nat.mod_eq_of_lt hj]; omega
    · exact (Nat.mod_eq_of_lt hj).symm
  have d2 : ∀ j, j < rs → mb.deindex2 j = (j % ch, j / ch) := by
    intro j hj
    unfold deindex2; split
    · next hs =>
      have hc1 := h.2.1 hs
      have hj' : j < ch := by simpa [rs, hc1] using hj
      rw [d1 j hj', Nat.div_eq_of_lt hj']
    · simp only [hcs]
      rw [udiv_sub_urem (by omega), urem32, d1 _ (Nat.mod_lt _ p1), Nat.mod_mod]
  have d3 : ∀ j, j < fs → mb.deindex3 j = (j % rs % ch, j % rs / ch, j / rs) := by
    intro j hj
    unfold deindex3; split
    · next hs =>
      have hr1 := h.2.2.1 hs
      have hj' : j < rs := by simpa [fs, hr1] using hj
      simp only [d2 j hj', Nat.mod_eq_of_lt hj', Nat.div_eq_of_lt hj']
    · simp only [hrs]
      rw [udiv_sub_urem (by omega), urem32, d2 _ (Nat.mod_lt _ p12)]
  unfold deindex; split
  · next hs =>
    have hf1 := h.2.2.2 hs
    have hj' : i < fs := by simpa [hf1] using hi
    simp only [d3 i hj', Nat.mod_eq_of_lt hj', Nat.div_eq_of_lt hj']
  · simp only [hfs]
    rw [udiv_sub_urem (by omega), urem32, d3 _ (Nat.mod_lt _ p123)]

theorem flagsSound_of_exact {mb : MatrixBuilder} (h : FlagsExact mb) : FlagsSound mb :=
  ⟨h.1.1, h.2.1.1, h.2.2.1.1, h.2.2.2.1⟩

theorem pos_of_elements_pos {m : Matrix} (hpos : 0 < m.elements) :
    0 < m.channels ∧ 0 < m.columns ∧ 0 < m.rows ∧ 0 < m.frames := by
  unfold Matrix.elements at hpos
  exact ⟨Nat.pos_of_ne_zero (fun h0 => by simp [h0] at hpos),
    Nat.pos_of_ne_zero (fun h0 => by simp [h0] at hpos),
    Nat.pos_of_ne_zero (fun h0 => by simp [h0] at hpos),
    Nat.pos_of_ne_zero (fun h0 => by simp [h0] at hpos)⟩

theorem deindex_inRange {mb : MatrixBuilder} (h : FlagsSound mb)
    (hfit : mb.m.elements < 2 ^ 32) {i : Nat} (hi : i < mb.m.elements) :
    InRange mb.m (mb.deindex i).1 (mb.deindex i).2.1 (mb.deindex i).2.2.1 (mb.deindex i).2.2.2 := by
  obtain ⟨p1, p2, p3, p4⟩ := pos_of_elements_pos (show 0 < mb.m.elements by omega)
  rw [deindex_eq h hfit hi]
  unfold Matrix.elements at hi
  refine ⟨Nat.mod_lt _ p1, ?_, ?_, ?_⟩
  · exact Nat.div_lt_of_lt_mul (Nat.mod_lt _ (Nat.mul_pos p1 p2))
  · exact Nat.div_lt_of_lt_mul (Nat.mod_lt _ (Nat.mul_pos (Nat.mul_pos p1 p2) p3))
  · exact Nat.div_lt_of_lt_mul hi

theorem flat_deindex {mb : MatrixBuilder} (h : FlagsSound mb)
    (hfit : mb.m.elements < 2 ^ 32) {i : Nat} (hi : i < mb.m.elements) :
    flatOffset mb.m (mb.deindex i).1 (mb.deindex i).2.1 (mb.deindex i).2.2.1 (mb.deindex i).2.2.2 = i := by
  rw [deindex_eq h hfit hi]
  unfold flatOffset
  simp only
  set ch := mb.m.channels
  set col := mb.m.columns
  set r := mb.m.rows
  set a := i % (ch * col * r)
  set b := a % (ch * col)
  have e1 : b % ch + ch * (b / ch) = b := Nat.mod_add_div b ch
  have e2 : a % (ch * col) + (ch * col) * (a / (ch * col)) = a := Nat.mod_add_div a (ch * col)
  have e3 : i % (ch * col * r) + (ch * col * r) * (i / (ch * col * r)) = i := Nat.mod_add_div i _
  calc b % ch + ch * (b / ch + col * (a / (ch * col) + r * (i / (ch * col * r))))
      = (b % ch + ch * (b / ch)) + (ch * col) * (a / (ch * col)) + (ch * col * r) * (i / (ch * col * r)) := by ring
    _ = i := by rw [e1, e2, e3]

theorem deindex_flat {mb : MatrixBuilder} (h : FlagsSound mb)
    (hfit : mb.m.elements < 2 ^ 32) {c x y f : Nat} (hr : InRange mb.m c x y f) :
    mb.deindex (flatOffset mb.m c x y f) = (c, x, y, f) := by
  rw [deindex_eq h hfit (flatOffset_lt mb.m hr)]
  obtain ⟨hc, hx, hy, hf⟩ := hr
  unfold flatOffset
  set ch := mb.m.channels
  set col := mb.m.columns
  set r := mb.m.rows
  have h2 : c + ch * x < ch * col := lt_mul_of_digit hc hx
  have h3 : (c + ch * x) + (ch * col) * y < ch * col * r := lt_mul_of_digit h2 hy
  have pc : 0 < ch := by omega
  have prs : 0 < ch * col := by omega
  have pfs : 0 < ch * col * r := by omega
  have ef : c + ch * (x + col * (y + r * f)) = ((c + ch * x) + (ch * col) * y) + (ch * col * r) * f := by ring
  have m3 : (c + ch * (x + col * (y + r * f))) % (ch * col * r) = (c + ch * x) + (ch * col) * y := by
    rw [ef, Nat.add_mul_mod_self_left, Nat.mod_eq_of_lt h3]
  have d3 : (c + ch * (x + col * (y + r * f))) / (ch * col * r) = f := by
    rw [ef, Nat.add_mul_div_left _ _ pfs, Nat.div_eq_of_lt h3, Nat.zero_add]
  have m2 : ((c + ch * x) + (ch * col) * y) % (ch * col) = c + ch * x := by
    rw [Nat.add_mul_mod_self_left, Nat.mod_eq_of_lt h2]
  have d2 : ((c + ch * x) + (ch * col) * y) / (ch * col) = y := by
    rw [Nat.add_mul_div_left _ _ prs, Nat.div_eq_of_lt h2, Nat.zero_add]
  have m1 : (c + ch * x) % ch = c := by
    rw [Nat.add_mul_mod_self_left, Nat.mod_eq_of_lt hc]
  have d1 : (c + ch * x) / ch = x := by
    rw [Nat.add_mul_div_left _ _ pc, Nat.div_eq_of_lt hc, Nat.zero_add]
  rw [m3, d3, m2, d2, m1, d1]

/-- C6: `MatrixBuilder::index(c, x, y, f)` is the channels-innermost flat offset
`c + channels*(x + columns*(y + rows*f))` whenever a single-axis flag is set
only on an axis of extent one and the coordinate is in range: the two agree as
`i32` values for every such descriptor, and as numbers as soon as the element
count fits the 32-bit index. -/
theorem index_is_flat_offset (mb : MatrixBuilder) (c x y f : Nat)
    (hflags : FlagsSound mb) (hr : InRange mb.m c x y f) :
    mb.index c x y f % 2 ^ 32 = flatOffset mb.m c x y f % 2 ^ 32 ∧
    (mb.m.elements ≤ 2 ^ 32 → mb.index c x y f = flatOffset mb.m c x y f) :=
  ⟨index_modEq hflags hr, fun hfit => index_eq_flat hflags hr hfit⟩

/-- C7: `MatrixBuilder::deindex` inverts `index`.  For a descriptor whose flags
are set exactly on the axes of extent one and whose element count fits the
32-bit index, every flat index `i` below the element count is taken to an
in-range coordinate (zero on degenerate axes) that `index` maps back to `i`,
and every in-range coordinate is recovered by `deindex` from its `index`. -/
theorem deindex_inverse_of_index (mb : MatrixBuilder)
    (hflags : FlagsExact mb) (hfit : mb.m.elements < 2 ^ 32) :
    (∀ i, i < mb.m.elements →
      InRange mb.m (mb.deindex i).1 (mb.deindex i).2.1 (mb.deindex i).2.2.1 (mb.deindex i).2.2.2 ∧
      (mb.m.channels = 1 → (mb.deindex i).1 = 0) ∧
      (mb.m.columns = 1 → (mb.deindex i).2.1 = 0) ∧
      (mb.m.rows = 1 → (mb.deindex i).2.2.1 = 0) ∧
      (mb.m.frames = 1 → (mb.deindex i).2.2.2 = 0) ∧
      mb.index (mb.deindex i).1 (mb.deindex i).2.1 (mb.deindex i).2.2.1 (mb.deindex i).2.2.2 = i) ∧
    (∀ c x y f, InRange mb.m c x y f → mb.deindex (mb.index c x y f) = (c, x, y, f)) := by
  have hs := flagsSound_of_exact hflags
  constructor
  · intro i hi
    have hin := deindex_inRange hs hfit hi
    obtain ⟨a1, a2, a3, a4⟩ := hin
    refine ⟨⟨a1, a2, a3, a4⟩, fun e => by omega, fun e => by omega, fun e => by omega,
      fun e => by omega, ?_⟩
    rw [index_eq_flat hs ⟨a1, a2, a3, a4⟩ (by omega)]
    exact flat_deindex hs hfit hi
  · intro c x y f hr
    rw [index_eq_flat hs hr (by omega)]
    exact deindex_flat hs hfit hr

/-! ## The counted loop as a fold -/

theorem loopFrom_eq_foldl {σ : Type} (body : Nat → σ → σ) (limit : Nat) (hl : limit < 2 ^ 32) :
    ∀ (k fuel j : Nat) (s : σ), j + k + 1 = limit → k < fuel →
      loopFrom body limit fuel j s = (List.range' j (k + 1)).foldl (fun s i => body i s) s := by
  intro k
  induction k with
  | zero =>
    intro fuel j s hj hf
    obtain ⟨fuel, rfl⟩ : ∃ f, fuel = f + 1 := ⟨fuel - 1, by omega⟩
    have : add32 j 1 = limit := by
      unfold add32; rw [Nat.mod_eq_of_lt (by omega)]; omega
    simp [loopFrom, this]
  | succ k ih =>
    intro fuel j s hj hf
    obtain ⟨fuel, rfl⟩ : ∃ f, fuel = f + 1 := ⟨fuel - 1, by omega⟩
    have h1 : add32 j 1 = j + 1 := by
      unfold add32; exact Nat.mod_eq_of_lt (by omega)
    have h2 : j + 1 ≠ limit := by omega
    rw [loopFrom]
    simp only [h1, h2, ne_eq, not_false_eq_true, if_true]
    rw [ih fuel (j + 1) (body j s) (by omega) (by omega)]
    rw [List.range'_succ j (k + 1)]
    rfl

theorem loop_eq_foldl {σ : Type} (body : Nat → σ → σ) (limit : Nat) (s : σ)
    (h0 : 0 < limit) (hl : limit < 2 ^ 32) :
    loop body limit s = (List.range limit).foldl (fun s i => body i s) s := by
  unfold loop
  rw [loopFrom_eq_foldl body limit hl (limit - 1) (2 ^ 32) 0 s (by omega) (by omega)]
  rw [List.range_eq_range']
  congr 2
  omega

/-- Overwriting the slots `0 .. n-1` of an `n`-slot buffer one after the other. -/
theorem foldl_set_range (g : Nat → Nat) :
    ∀ (n : Nat) (l : List Nat), l.length = n →
      (List.range n).foldl (fun l i => l.set i (g i)) l = (List.range n).map g := by
  intro n l hl
  have key : ∀ k, k ≤ n →
      (List.range k).foldl (fun l i => l.set i (g i)) l = (List.range k).map g ++ l.drop k := by
    intro k
    induction k with
    | zero => intro _; simp
    | succ k ih =>
      intro hk
      rw [List.range_succ, List.foldl_append, ih (by omega)]
      simp only [List.foldl_cons, List.foldl_nil, List.map_append, List.map_cons, List.map_nil]
      have hlen : ((List.range k).map g).length = k := by simp
      rw [List.set_append_right _ _ (by omega)]
      rw [hlen, Nat.sub_self]
      have hkl : k < l.length := by omega
      have hd : l.drop k = l[k] :: l.drop (k + 1) := by
        rw [List.drop_eq_getElem_cons]
      rw [hd, List.set_cons_zero]
      simp only [List.append_assoc, List.singleton_append]
  have := key n (le_refl n)
  rw [this, List.drop_eq_nil_of_le (by omega)]
  simp

/-! ## Element-wise kernels as maps -/

/-- A kernel body that stores `g i` at slot `i`, run over a full buffer. -/
theorem loop_store_eq_map (g : Nat → Nat) (n : Nat) (d : Matrix)
    (h0 : 0 < n) (hl : n < 2 ^ 32) (hd : d.data.length = n) :
    loop (fun i (d : Matrix) => { d with data := d.data.set i (g i) }) n d
      = { d with data := (List.range n).map g } := by
  rw [loop_eq_foldl _ _ _ h0 hl]
  have key : ∀ (l : List Nat) (d : Matrix),
      l.foldl (fun (d : Matrix) i => { d with data := d.data.set i (g i) }) d
        = { d with data := l.foldl (fun l i => l.set i (g i)) d.data } := by
    intro l
    induction l with
    | nil => intro d; rfl
    | cons a l ih => intro d; simp only [List.foldl_cons]; rw [ih]
  rw [key, foldl_set_range g n d.data hd]

theorem map_getD_range (f : Nat → Nat) (l : List Nat) :
    (List.range l.length).map (fun i => f (l.getD i 0)) = l.map f := by
  apply List.ext_getElem
  · simp
  · intro i h1 h2
    simp at h1
    simp [List.getElem?_eq_getElem h1]

theorem stitch_hash (S : FloatSem) (k : StitchableKernel) (src dst src1 dst1 : MatrixBuilder)
    (hs : src.desc.hash = src1.desc.hash) (hd : dst.desc.hash = dst1.desc.hash) (v : Nat) :
    k.stitch S src dst v = k.stitch S src1 dst1 v := by
  cases k <;>
    simp only [StitchableKernel.stitch, MatrixBuilder.multiply, MatrixBuilder.add,
      MatrixBuilder.cast, MatrixBuilder.autoConstant, MatrixBuilder.compareLT,
      MatrixBuilder.compareGT, Matrix.isFloating, Matrix.isSigned, Matrix.bits, Matrix.type,
      hs, hd]

theorem preallocate_fst (k : StitchableKernel) (src dst : Matrix) :
    (k.preallocate src dst).1 =
      ⟨src.channels, src.columns, src.rows, src.frames, typeRule k src.hash, dst.data⟩ := by
  cases k <;> rfl

theorem preallocate_snd (k : StitchableKernel) (src dst : Matrix) :
    (k.preallocate src dst).2 = src.elements := by
  cases k <;> rfl

theorem i32_eq {n : Nat} (h : n < 2 ^ 32) : i32 n = n := Nat.mod_eq_of_lt h

theorem elements_mk (a b c d : Nat) (h : Hash) (l : List Nat) :
    (Matrix.mk a b c d h l).elements = a * b * c * d := rfl

/-- A stitchable kernel applied on its own maps its element function over the
buffer and gives the header its type rule. -/
theorem apply_stitchable (S : FloatSem) (k : StitchableKernel) (M dst : Matrix)
    (hM : M.WellFormed) :
    (k.toUnaryKernel S).apply M dst =
      ⟨M.channels, M.columns, M.rows, M.frames, typeRule k M.hash,
        M.data.map (elemFn S k M.hash)⟩ := by
  obtain ⟨hlen, hpos, hfit31⟩ := hM
  have hfit : M.elements < 2 ^ 32 := by omega
  unfold UnaryKernel.apply UnaryKernel.applyWith UnaryKernel.compileKernel
  simp only [StitchableKernel.toUnaryKernel, preallocate_fst, preallocate_snd, i32_eq hfit]
  have hbody : (fun i (d : Matrix) =>
      (StitchableKernel.build S k ⟨M, M⟩
        ⟨⟨M.channels, M.columns, M.rows, M.frames, typeRule k M.hash, Matrix.null.data⟩, d⟩ i).m)
      = (fun i (d : Matrix) =>
          { d with data := d.data.set i (elemFn S k M.hash (M.data.getD i 0)) }) := by
    funext i d
    simp only [StitchableKernel.build, MatrixBuilder.store, MatrixBuilder.load]
    rw [stitch_hash S k ⟨M, M⟩
      ⟨⟨M.channels, M.columns, M.rows, M.frames, typeRule k M.hash, Matrix.null.data⟩, d⟩
      ⟨⟨0, 0, 0, 0, M.hash, []⟩, Matrix.null⟩
      ⟨⟨0, 0, 0, 0, typeRule k M.hash, []⟩, Matrix.null⟩ rfl rfl]
    rfl
  rw [hbody]
  rw [loop_store_eq_map _ M.elements _ hpos hfit
    (by simp [Matrix.allocate, Matrix.elements])]
  simp only [Matrix.allocate]
  rw [← hlen, map_getD_range]

theorem applyEach_eq (S : FloatSem) (dst : Matrix) :
    ∀ (ps : List StitchableKernel) (M : Matrix), M.WellFormed →
      applyEach S ps M dst =
        ⟨M.channels, M.columns, M.rows, M.frames, chainHash ps M.hash,
          M.data.map (chainFn S ps M.hash)⟩ := by
  intro ps
  induction ps with
  | nil =>
    intro M _
    simp [applyEach, chainHash, chainFn]
  | cons k ps ih =>
    intro M hM
    have h1 := apply_stitchable S k M dst hM
    have hwf : Matrix.WellFormed ⟨M.channels, M.columns, M.rows, M.frames, typeRule k M.hash,
        M.data.map (elemFn S k M.hash)⟩ := by
      obtain ⟨a, b, c⟩ := hM
      exact ⟨by simpa [Matrix.elements] using a, b, c⟩
    have h2 := ih _ hwf
    unfold applyEach at h2 ⊢
    rw [List.foldl_cons, h1, h2]
    simp [chainHash, chainFn, List.map_map, Function.comp_def]

theorem stitch_preallocate_fold :
    ∀ (ps : List StitchableKernel) (tmp dst : Matrix),
      (ps.foldl (fun (p : Matrix × Matrix) kernel =>
          ((kernel.preallocate p.1 p.2).1, (kernel.preallocate p.1 p.2).1)) (tmp, dst)).2
        = if ps = [] then dst
          else ⟨tmp.channels, tmp.columns, tmp.rows, tmp.frames, chainHash ps tmp.hash, dst.data⟩ := by
  intro ps
  induction ps with
  | nil => intro tmp dst; rfl
  | cons k ps ih =>
    intro tmp dst
    rw [List.foldl_cons, ih]
    simp only [preallocate_fst, chainHash]
    split <;> simp_all [chainHash]

theorem stitch_preallocate_eq (ps : List StitchableKernel) (hps : ps ≠ []) (src dst : Matrix) :
    stitchTransform.preallocate ps src dst =
      (⟨src.channels, src.columns, src.rows, src.frames, chainHash ps src.hash, dst.data⟩,
        src.elements) := by
  unfold stitchTransform.preallocate
  have := stitch_preallocate_fold ps src dst
  simp only [hps, if_false] at this
  simp only [this]
  rfl

theorem stitch_step_fold (S : FloatSem) :
    ∀ (ps : List StitchableKernel) (src dst : MatrixBuilder) (v : Nat),
      (ps.foldl (stitchTransform.step S) (src, dst, v)).2.2 = chainFn S ps src.desc.hash v ∧
      (ps.foldl (stitchTransform.step S) (src, dst, v)).2.1.m = dst.m := by
  intro ps
  induction ps with
  | nil => intro src dst v; exact ⟨rfl, rfl⟩
  | cons k ps ih =>
    intro src dst v
    rw [List.foldl_cons]
    have hstep : stitchTransform.step S (src, dst, v) k =
        (⟨src.desc.copyHeader (k.preallocate src.desc dst.desc).1, dst.m⟩,
         ⟨(k.preallocate src.desc dst.desc).1, dst.m⟩,
         k.stitch S src ⟨(k.preallocate src.desc dst.desc).1, dst.m⟩ v) := rfl
    rw [hstep]
    obtain ⟨h1, h2⟩ := ih ⟨src.desc.copyHeader (k.preallocate src.desc dst.desc).1, dst.m⟩
      ⟨(k.preallocate src.desc dst.desc).1, dst.m⟩
      (k.stitch S src ⟨(k.preallocate src.desc dst.desc).1, dst.m⟩ v)
    refine ⟨?_, h2⟩
    rw [h1]
    simp only [Matrix.copyHeader, preallocate_fst, chainFn]
    congr 1

/-- The fused kernel maps the composed element function over the buffer. -/
theorem apply_stitch (S : FloatSem) (ps : List StitchableKernel) (hps : ps ≠ [])
    (M dst : Matrix) (hM : M.WellFormed) :
    (stitchTransform.toUnaryKernel S ps).apply M dst =
      ⟨M.channels, M.columns, M.rows, M.frames, chainHash ps M.hash,
        M.data.map (chainFn S ps M.hash)⟩ := by
  obtain ⟨hlen, hpos, hfit31⟩ := hM
  have hfit : M.elements < 2 ^ 32 := by omega
  unfold UnaryKernel.apply UnaryKernel.applyWith UnaryKernel.compileKernel
  simp only [stitchTransform.toUnaryKernel, stitch_preallocate_eq ps hps, i32_eq hfit]
  have hbody : (fun i (d : Matrix) =>
      (stitchTransform.build S ps ⟨M, M⟩
        ⟨⟨M.channels, M.columns, M.rows, M.frames, chainHash ps M.hash, Matrix.null.data⟩, d⟩ i).m)
      = (fun i (d : Matrix) =>
          { d with data := d.data.set i (chainFn S ps M.hash (M.data.getD i 0)) }) := by
    funext i d
    unfold stitchTransform.build
    obtain ⟨h1, h2⟩ := stitch_step_fold S ps ⟨M, M⟩
      ⟨⟨M.channels, M.columns, M.rows, M.frames, chainHash ps M.hash, Matrix.null.data⟩, d⟩
      (MatrixBuilder.load ⟨M, M⟩ i)
    simp only [MatrixBuilder.load] at h1 h2
    simp only [MatrixBuilder.store, MatrixBuilder.load, h1, h2]
  rw [hbody]
  rw [loop_store_eq_map _ M.elements _ hpos hfit
    (by simp [Matrix.allocate, Matrix.elements])]
  simp only [Matrix.allocate]
  rw [← hlen, map_getD_range]

theorem digitChar_val (k : Nat) (hk : k < 10) : (Nat.digitChar k).toNat - 48 = k := by
  interval_cases k <;> rfl

theorem toDigitsCore_value :
    ∀ (fuel n : Nat) (ds : List Char), n < fuel →
      (Nat.toDigitsCore 10 fuel n ds).foldl (fun a c => 10 * a + (c.toNat - 48)) 0
        = ds.foldl (fun a c => 10 * a + (c.toNat - 48)) n := by
  intro fuel
  induction fuel with
  | zero => intro n ds h; omega
  | succ fuel ih =>
    intro n ds h
    unfold Nat.toDigitsCore
    simp only
    split
    · next h0 =>
      have hn : n < 10 := by
        by_contra hc
        have : 1 ≤ n / 10 := (Nat.one_le_div_iff (by norm_num)).2 (by omega)
        omega
      simp only [List.foldl_cons, digitChar_val _ (Nat.mod_lt n (by norm_num))]
      rw [Nat.mod_eq_of_lt hn]
      simp
    · next h0 =>
      have hlt : n / 10 < fuel := by
        have : n / 10 < n := Nat.div_lt_self (by omega) (by norm_num)
        omega
      rw [ih (n / 10) _ hlt]
      simp only [List.foldl_cons, digitChar_val _ (Nat.mod_lt n (by norm_num))]
      congr 1
      omega

theorem toDigits_injective {a b : Nat} (h : Nat.toDigits 10 a = Nat.toDigits 10 b) : a = b := by
  have ha := toDigitsCore_value (a + 1) a [] (by omega)
  have hb := toDigitsCore_value (b + 1) b [] (by omega)
  unfold Nat.toDigits at h
  rw [h, hb] at ha
  simpa using ha.symm

theorem toString_nat_data (n : Nat) : (toString n).data = Nat.toDigits 10 n := rfl

theorem boolDigits_length (b : Bool) : (toString b.toNat).data.length = 1 := by
  cases b <;> rfl

theorem boolDigits_injective {a b : Bool}
    (h : (toString a.toNat).data = (toString b.toNat).data) : a = b := by
  cases a <;> cases b <;> first | rfl | (exact absurd h (by decide))

theorem MatrixToString_data (m : Matrix) :
    (MatrixToString m).data =
      Nat.toDigits 10 m.hash.bits ++ (if m.hash.signed then "s" else "u").data ++
        (if m.hash.floating then "f" else "i").data ++ (toString m.hash.singleChannel.toNat).data ++
        (toString m.hash.singleColumn.toNat).data ++ (toString m.hash.singleRow.toNat).data ++
        (toString m.hash.singleFrame.toNat).data := by
  simp only [MatrixToString, String.data_append, toString_nat_data, Matrix.bits, Matrix.isSigned,
    Matrix.isFloating, Matrix.singleChannel, Matrix.singleColumn, Matrix.singleRow,
    Matrix.singleFrame]

/-- Two matrices print the same fingerprint string only if their hashes agree. -/
theorem MatrixToString_injective {m n : Matrix} (h : MatrixToString m = MatrixToString n) :
    m.hash = n.hash := by
  have hd := congrArg String.data h
  rw [MatrixToString_data, MatrixToString_data] at hd
  obtain ⟨hd, h7⟩ := List.append_inj' hd (by rw [boolDigits_length, boolDigits_length])
  obtain ⟨hd, h6⟩ := List.append_inj' hd (by rw [boolDigits_length, boolDigits_length])
  obtain ⟨hd, h5⟩ := List.append_inj' hd (by rw [boolDigits_length, boolDigits_length])
  obtain ⟨hd, h4⟩ := List.append_inj' hd (by rw [boolDigits_length, boolDigits_length])
  obtain ⟨hd, h3⟩ := List.append_inj' hd (by split <;> split <;> rfl)
  obtain ⟨h1, h2⟩ := List.append_inj' hd (by split <;> split <;> rfl)
  have e1 := toDigits_injective h1
  have e2 : m.hash.signed = n.hash.signed := by
    revert h2
    cases m.hash.signed <;> cases n.hash.signed <;> simp
  have e3 : m.hash.floating = n.hash.floating := by
    revert h3
    cases m.hash.floating <;> cases n.hash.floating <;> simp
  have e4 := boolDigits_injective h4
  have e5 := boolDigits_injective h5
  have e6 := boolDigits_injective h6
  have e7 := boolDigits_injective h7
  cases hm : m.hash
  cases hn : n.hash
  simp_all

theorem MatrixToString_congr {m n : Matrix} (h : m.hash = n.hash) :
    MatrixToString m = MatrixToString n := by
  simp only [MatrixToString, Matrix.bits, Matrix.isSigned,
    Matrix.isFloating, Matrix.singleChannel, Matrix.singleColumn, Matrix.singleRow,
    Matrix.singleFrame, h]

theorem mangledName_eq_iff (family : String) (m n : Matrix) :
    mangledName family m = mangledName family n ↔ m.hash = n.hash := by
  constructor
  · intro h
    apply MatrixToString_injective
    have hd := congrArg String.data h
    simp only [mangledName, String.data_append] at hd
    exact String.ext (List.append_cancel_left hd)
  · intro h
    unfold mangledName
    rw [MatrixToString_congr h]

theorem mangledName_ne_family (family : String) (m : Matrix) : mangledName family m ≠ family := by
  intro h
  have hd := congrArg (fun s => s.data.length) h
  simp [mangledName, String.data_append] at hd

/-! ## Dispatch -/

theorem hash_ne_zero_of_validWidth {m : Matrix} (h : ValidWidth m) : m.hash ≠ Hash.zero := by
  intro h0
  unfold ValidWidth Matrix.bits at h
  rw [h0] at h
  simp [Hash.zero] at h

theorem mem_compile_module (family : String) (st : Dispatch) (m : Matrix) (name : String) :
    name ∈ (compile family st m).module ↔
      name = family ∨ name = mangledName family m ∨ name ∈ st.module := by
  unfold compile
  simp only
  split
  · next hmem =>
    simp only [List.mem_cons]
    constructor
    · intro h; exact Or.inr h
    · rintro (h | h)
      · rw [h]; simpa using hmem
      · exact h
  · simp only [List.mem_cons]

/-- What one dispatch does to the state. -/
theorem invoke_spec (emits : Matrix → Bool) (family : String) (st : Dispatch) (src : Matrix)
    (hc : CacheOk family st) (hv : ValidWidth src) (he : emits src = true) :
    ∃ st1, invoke emits family st src = some (st1, mangledName family src) ∧
      st1.hash = src.hash ∧ st1.kernel = some (mangledName family src) ∧
      mangledName family src ∈ st1.module ∧
      (src.hash = st.hash → st1 = st) ∧
      st1.compiled =
        st.compiled + (if mangledName family src ∈ st.module then 0 else 1) ∧
      (∀ name, name ∈ st1.module ↔
        name ∈ st.module ∨
          (mangledName family src ∉ st.module ∧
            (name = family ∨ name = mangledName family src))) := by
  have hz := hash_ne_zero_of_validWidth hv
  by_cases heq : src.hash = st.hash
  · -- cache hit
    rcases hc with ⟨_, h0⟩ | ⟨m, hm, hk, hmem⟩
    · exact absurd (heq.trans h0) hz
    · have hname : mangledName family m = mangledName family src :=
        (mangledName_eq_iff family m src).2 (hm.trans heq.symm)
      rw [hname] at hk hmem
      refine ⟨st, ?_, heq.symm, hk, hmem, fun _ => rfl, by simp [hmem], ?_⟩
      · unfold invoke
        simp only [heq, ne_eq, not_true_eq_false, if_false, hk]
      · intro name; simp [hmem]
  · -- cache miss
    by_cases hmem : mangledName family src ∈ st.module
    · refine ⟨{ st with kernel := some (mangledName family src), hash := src.hash }, ?_, rfl, rfl,
        hmem, fun h => absurd h heq, by simp [hmem], ?_⟩
      · unfold invoke getKernel
        simp only [heq, ne_eq, not_false_eq_true, if_true, hmem]
      · intro name; simp [hmem]
    · refine ⟨⟨(compile family st src).module, some (mangledName family src), src.hash,
          (compile family st src).compiled⟩, ?_, rfl, rfl, ?_, fun h => absurd h heq, ?_, ?_⟩
      · unfold invoke getKernel
        simp only [heq, ne_eq, not_false_eq_true, if_true, hmem, if_false, he]
      · exact (mem_compile_module family st src _).2 (Or.inr (Or.inl rfl))
      · simp [hmem, compile]
      · intro name
        show name ∈ (compile family st src).module ↔ _
        rw [mem_compile_module]
        simp only [hmem, not_false_eq_true, true_and]
        tauto

theorem cacheOk_of_invoke (emits : Matrix → Bool) (family : String) (st st1 : Dispatch)
    (src : Matrix) (f : String)
    (h : invoke emits family st src = some (st1, f)) (hc : CacheOk family st) :
    CacheOk family st1 := by
  by_cases heq : src.hash = st.hash
  · have : st1 = st := by
      unfold invoke at h
      simp only [heq, ne_eq, not_true_eq_false, if_false] at h
      split at h
      · exact absurd h (by simp)
      · simp only [Option.some.injEq, Prod.mk.injEq] at h; exact h.1.symm
    rw [this]; exact hc
  · unfold invoke at h
    simp only [heq, ne_eq, not_false_eq_true, if_true] at h
    cases hg : getKernel emits family st src with
    | none => simp [hg] at h
    | some r =>
      simp only [hg, Option.some.injEq, Prod.mk.injEq] at h
      obtain ⟨h1, -⟩ := h
      subst h1
      have hr : r.2 = mangledName family src ∧ mangledName family src ∈ r.1.module := by
        unfold getKernel at hg
        simp only at hg
        split at hg
        · next hm =>
          simp only [Option.some.injEq] at hg
          subst hg
          exact ⟨rfl, hm⟩
        · split at hg
          · simp only [Option.some.injEq] at hg
            subst hg
            exact ⟨rfl, (mem_compile_module family st src _).2 (Or.inr (Or.inl rfl))⟩
          · exact absurd hg (by simp)
      exact Or.inr ⟨src, rfl, by simp only [hr.1], hr.2⟩

theorem cacheOk_of_reachable (emits : Matrix → Bool) (family : String) (st : Dispatch)
    (h : Reachable emits family st) : CacheOk family st := by
  induction h with
  | init module => exact Or.inl ⟨rfl, rfl⟩
  | step _ hi ih => exact cacheOk_of_invoke emits family _ _ _ _ hi ih
  | other name _ ih =>
    rcases ih with h | ⟨m, h1, h2, h3⟩
    · exact Or.inl h
    · exact Or.inr ⟨m, h1, h2, List.mem_cons_of_mem _ h3⟩

/-- C3: in every state reachable from a freshly constructed wrapper, a dispatch
of an input with a valid element width (for which the kernel emits code)
returns; afterwards the cached hash is the hash of the input and the pointer
that was called is the cached one, the specialisation named for the fingerprint
of the input, held by the module (so never `NULL`); on a cache hit pointer, hash
and module are unchanged. -/
theorem invoke_caches_specialization (emits : Matrix → Bool) (family : String)
    (st : Dispatch) (src : Matrix)
    (hr : Reachable emits family st) (hv : ValidWidth src) (he : emits src = true) :
    ∃ st1 f, invoke emits family st src = some (st1, f) ∧
      st1.hash = src.hash ∧ st1.kernel = some f ∧
      f = mangledName family src ∧ f ∈ st1.module ∧
      (src.hash = st.hash →
        st1.kernel = st.kernel ∧ st1.hash = st.hash ∧ st1.module = st.module) := by
  obtain ⟨st1, h1, h2, h3, h4, h5, -, -⟩ :=
    invoke_spec emits family st src (cacheOk_of_reachable emits family st hr) hv he
  exact ⟨st1, _, h1, h2, h3, rfl, h4, fun h => by rw [h5 h]; exact ⟨rfl, rfl, rfl⟩⟩

theorem mem_newHashes (family : String) (module : List String) (inputs : List Matrix) (h : Hash) :
    h ∈ ((inputs.filter (fun s => decide (mangledName family s ∉ module))).map
        (fun s => s.hash)).toFinset ↔
      ∃ s ∈ inputs, mangledName family s ∉ module ∧ s.hash = h := by
  simp only [List.mem_toFinset, List.mem_map, List.mem_filter, decide_eq_true_eq]
  constructor
  · rintro ⟨s, ⟨h1, h2⟩, h3⟩; exact ⟨s, h1, h2, h3⟩
  · rintro ⟨s, h1, h2, h3⟩; exact ⟨s, ⟨h1, h2⟩, h3⟩

theorem invokeAll_count (emits : Matrix → Bool) (family : String) :
    ∀ (inputs : List Matrix) (st : Dispatch), CacheOk family st →
      (∀ src ∈ inputs, ValidWidth src ∧ emits src = true) →
      ∃ st1, invokeAll emits family st inputs = some st1 ∧
        st1.compiled = st.compiled +
          (((inputs.filter (fun s => decide (mangledName family s ∉ st.module))).map
            (fun s => s.hash)).toFinset).card := by
  intro inputs
  induction inputs with
  | nil => intro st _ _; exact ⟨st, rfl, by simp⟩
  | cons src rest ih =>
    intro st hc hv
    obtain ⟨st1, h1, -, -, -, -, hcount, hmod⟩ :=
      invoke_spec emits family st src hc (hv src (List.mem_cons_self _ _)).1
        (hv src (List.mem_cons_self _ _)).2
    have hc1 := cacheOk_of_invoke emits family st st1 src _ h1 hc
    obtain ⟨st2, h2, hcount2⟩ := ih st1 hc1 (fun s hs => hv s (List.mem_cons_of_mem _ hs))
    refine ⟨st2, ?_, ?_⟩
    · simp only [invokeAll, h1, h2]
    · rw [hcount2, hcount, Nat.add_assoc]
      congr 1
      by_cases hmem : mangledName family src ∈ st.module
      · simp only [hmem, if_true, Nat.zero_add]
        congr 1
        ext h
        rw [mem_newHashes, mem_newHashes]
        constructor
        · rintro ⟨s, hs, hn, rfl⟩
          refine ⟨s, List.mem_cons_of_mem _ hs, ?_, rfl⟩
          intro hin; exact hn ((hmod _).2 (Or.inl hin))
        · rintro ⟨s, hs, hn, rfl⟩
          rcases List.mem_cons.1 hs with rfl | hs
          · exact absurd hmem hn
          · refine ⟨s, hs, ?_, rfl⟩
            intro hin
            rcases (hmod _).1 hin with h | ⟨h, -⟩
            · exact hn h
            · exact h hmem
      · simp only [hmem, if_false]
        have hins : ((((src :: rest).filter (fun s => decide (mangledName family s ∉ st.module))).map
            (fun s => s.hash)).toFinset)
            = insert src.hash
              (((rest.filter (fun s => decide (mangledName family s ∉ st1.module))).map
                (fun s => s.hash)).toFinset) := by
          ext h
          rw [Finset.mem_insert, mem_newHashes, mem_newHashes]
          constructor
          · rintro ⟨s, hs, hn, rfl⟩
            rcases List.mem_cons.1 hs with rfl | hs
            · exact Or.inl rfl
            · by_cases he : s.hash = src.hash
              · exact Or.inl he
              · refine Or.inr ⟨s, hs, ?_, rfl⟩
                intro hin
                rcases (hmod _).1 hin with h | ⟨-, h | h⟩
                · exact hn h
                · exact mangledName_ne_family family s h
                · exact he ((mangledName_eq_iff family s src).1 h)
          · rintro (rfl | ⟨s, hs, hn, rfl⟩)
            · exact ⟨src, List.mem_cons_self _ _, hmem, rfl⟩
            · refine ⟨s, List.mem_cons_of_mem _ hs, ?_, rfl⟩
              intro hin; exact hn ((hmod _).2 (Or.inl hin))
        have hnot : src.hash ∉
            (((rest.filter (fun s => decide (mangledName family s ∉ st1.module))).map
                (fun s => s.hash)).toFinset) := by
          rw [mem_newHashes]
          rintro ⟨s, -, hn, he⟩
          apply hn
          rw [(mangledName_eq_iff family s src).2 he]
          exact (hmod _).2 (Or.inr ⟨hmem, Or.inr rfl⟩)
        rw [hins, Finset.card_insert_of_not_mem hnot, Nat.add_comm]

/-- C2: dispatching a sequence of inputs of valid element width (for which the
kernel emits code) through a freshly constructed unary kernel always returns,
and `compile` runs once for each distinct fingerprint of the sequence whose
specialisation the module did not hold beforehand; for a module holding none
of them, the number of compilations is the number of distinct fingerprints of
the sequence. -/
theorem compilations_equal_distinct_fingerprints (emits : Matrix → Bool) (family : String)
    (module : List String) (inputs : List Matrix)
    (hv : ∀ src ∈ inputs, ValidWidth src ∧ emits src = true) :
    ∃ st, invokeAll emits family (Dispatch.init module) inputs = some st ∧
      st.compiled =
        (((inputs.filter (fun s => decide (mangledName family s ∉ module))).map
          (fun s => s.hash)).dedup).length ∧
      ((∀ src ∈ inputs, mangledName family src ∉ module) →
        st.compiled = ((inputs.map (fun s => s.hash)).dedup).length) := by
  obtain ⟨st, h1, h2⟩ := invokeAll_count emits family inputs (Dispatch.init module)
    (Or.inl ⟨rfl, rfl⟩) hv
  have h3 : st.compiled =
      (((inputs.filter (fun s => decide (mangledName family s ∉ module))).map
          (fun s => s.hash)).dedup).length := by
    rw [h2, List.card_toFinset]
    simp [Dispatch.init]
  refine ⟨st, h1, h3, fun hfresh => ?_⟩
  rw [h3]
  have : inputs.filter (fun s => decide (mangledName family s ∉ module)) = inputs := by
    rw [List.filter_eq_self]
    intro s hs
    simpa using hfresh s hs
  rw [this]

/-- Scenario F: the `add(1)` kernel dispatched on an `s8`, an `f32` and again an
`s8` input compiles exactly twice. -/
theorem compilations_s8_f32_s8 :
    (∀ src ∈ [s8M, f32M, s8M], ValidWidth src ∧ emitsSameType src = true) ∧
    ∃ st, invokeAll emitsSameType "jitcv_add0" (Dispatch.init []) [s8M, f32M, s8M] = some st ∧
      st.compiled = 2 := by
  have hv : ∀ src ∈ [s8M, f32M, s8M], ValidWidth src ∧ emitsSameType src = true := by
    intro src hs
    simp only [List.mem_cons, List.mem_singleton, List.not_mem_nil, or_false] at hs
    rcases hs with rfl | rfl | rfl <;>
      exact ⟨by simp [ValidWidth, Matrix.bits, s8M, f32M], by decide⟩
  obtain ⟨st, h1, -, h3⟩ := compilations_equal_distinct_fingerprints emitsSameType "jitcv_add0" []
    [s8M, f32M, s8M] hv
  exact ⟨hv, st, h1, by rw [h3 (by simp)]; decide⟩

/-! ## Integer element values -/

theorem two_pow_split {bits : Nat} (hb : 0 < bits) : 2 ^ bits = 2 * 2 ^ (bits - 1) := by
  obtain ⟨k, rfl⟩ : ∃ k, bits = k + 1 := ⟨bits - 1, by omega⟩
  simp [pow_succ, Nat.mul_comm]

theorem natCast_pat (bits : Nat) (n : Int) : ((pat bits n : Nat) : Int) = n % ((2 ^ bits : Nat) : Int) := by
  unfold pat
  exact Int.toNat_of_nonneg (Int.emod_nonneg _ (by positivity))

theorem pat_lt (bits : Nat) (n : Int) : pat bits n < 2 ^ bits := by
  have h := natCast_pat bits n
  have h2 : n % ((2 ^ bits : Nat) : Int) < ((2 ^ bits : Nat) : Int) :=
    Int.emod_lt_of_pos _ (by positivity)
  omega

theorem pat_natCast {bits v : Nat} (hv : v < 2 ^ bits) : pat bits (v : Int) = v := by
  have h := natCast_pat bits v
  rw [Int.emod_eq_of_lt (by positivity) (by exact_mod_cast hv)] at h
  exact_mod_cast h

theorem ival_pat {signed : Bool} {bits : Nat} {n : Int} (hb : 0 < bits)
    (hn : InType signed bits n) : ival signed bits (pat bits n) = n := by
  have hs := two_pow_split hb
  have hc := natCast_pat bits n
  unfold InType at hn
  unfold ival sval
  cases signed
  · simp only [Bool.false_eq_true, if_false] at hn ⊢
    rw [hc, Int.emod_eq_of_lt hn.1 hn.2]
  · simp only [if_true] at hn ⊢
    obtain ⟨h1, h2⟩ := hn
    by_cases hneg : n < 0
    · have he : n % ((2 ^ bits : Nat) : Int) = n + ((2 ^ bits : Nat) : Int) := by
        rw [← Int.add_emod_self]
        exact Int.emod_eq_of_lt (by omega) (by omega)
      have hge : ¬ pat bits n < 2 ^ (bits - 1) := by omega
      rw [if_neg hge, hc, he]; omega
    · have he : n % ((2 ^ bits : Nat) : Int) = n :=
        Int.emod_eq_of_lt (by omega) (by omega)
      have hlt : pat bits n < 2 ^ (bits - 1) := by omega
      rw [if_pos hlt, hc, he]

theorem ival_inType {signed : Bool} {bits v : Nat} (hb : 0 < bits) (hv : v < 2 ^ bits) :
    InType signed bits (ival signed bits v) := by
  have hs := two_pow_split hb
  unfold InType ival sval
  cases signed
  · simp only [Bool.false_eq_true, if_false]; omega
  · simp only [if_true]
    split <;> omega

/-! ## `abs` -/

theorem elemFn_abs_int (S : FloatSem) (h : Hash) (hf : h.floating = false) (v : Nat) :
    elemFn S .absTransform h v =
      if h.signed = false then v
      else if sval h.bits v < 0 then pat h.bits (-(v : Int)) else v := by
  simp only [elemFn, StitchableKernel.stitch, MatrixBuilder.autoConstant, Matrix.isSigned,
    Matrix.isFloating, Matrix.bits, hf, MatrixBuilder.constant, Dbl.toInt, Dbl.ofInt]
  cases h.signed
  · simp
  · have p0 : pat h.bits 0 = 0 := by simp [pat]
    have s0 : sval h.bits 0 = 0 := by simp [sval]
    simp [p0, s0]

theorem abs_elem (S : FloatSem) (h : Hash) (hf : h.floating = false) (hb : 0 < h.bits)
    (v : Nat) (hv : v < 2 ^ h.bits) :
    (ival h.signed h.bits v ≠ -((2 ^ (h.bits - 1) : Nat) : Int) →
      0 ≤ ival h.signed h.bits (elemFn S .absTransform h v)) ∧
    (0 ≤ ival h.signed h.bits v → elemFn S .absTransform h v = v) ∧
    (ival h.signed h.bits v = -((2 ^ (h.bits - 1) : Nat) : Int) →
      elemFn S .absTransform h v = v) := by
  have hs := two_pow_split hb
  rw [elemFn_abs_int S h hf]
  cases hsg : h.signed
  · simp only [if_true]
    refine ⟨fun _ => ?_, fun _ => trivial, fun _ => trivial⟩
    simp [ival]
  · simp only [Bool.true_eq_false, if_false, ival, if_true]
    by_cases hneg : sval h.bits v < 0
    · simp only [hneg, if_true]
      have hvge : ¬ v < 2 ^ (h.bits - 1) := by
        intro hlt; simp only [sval, hlt, if_true] at hneg; omega
      have hsv : sval h.bits v = (v : Int) - ((2 ^ h.bits : Nat) : Int) := by simp [sval, hvge]
      have hc := natCast_pat h.bits (-(v : Int))
      have he : (-(v : Int)) % ((2 ^ h.bits : Nat) : Int) = -(v : Int) + ((2 ^ h.bits : Nat) : Int) := by
        rw [← Int.add_emod_self]
        exact Int.emod_eq_of_lt (by omega) (by omega)
      rw [he] at hc
      refine ⟨fun hne => ?_, fun h0 => by omega, fun hmin => ?_⟩
      · have hlt : pat h.bits (-(v : Int)) < 2 ^ (h.bits - 1) := by omega
        simp only [sval, hlt, if_true]; omega
      · omega
    · simp only [hneg, if_false]
      exact ⟨fun _ => by omega, fun _ => trivial, fun _ => trivial⟩

theorem getD_map_of_lt (f : Nat → Nat) (l : List Nat) (i : Nat) (hi : i < l.length) :
    (l.map f).getD i 0 = f (l.getD i 0) := by
  simp [List.getD_eq_getElem?_getD, List.getElem?_eq_getElem hi]

theorem getD_mem_of_lt (l : List Nat) (i : Nat) (hi : i < l.length) : l.getD i 0 ∈ l := by
  simp [List.getD_eq_getElem?_getD, List.getElem?_eq_getElem hi]

/-- C9 (counterexample): `abs` of the `s8` element `-128` is `-128`. -/
theorem abs_min_is_negative :
    ((StitchableKernel.absTransform.toUnaryKernel FloatSem.zero).apply s8Min Matrix.null).elem 0
      = -128 := by
  decide

/-- C9 (amended): on an integer matrix, `abs` keeps the type and the shape (the
four extents and the number of elements); every element of the result is
`>= 0` except where the source element is the most negative value
`-2^(bits-1)` of a signed type, which comes back unchanged; and every source
element that is `>= 0` comes back unchanged. -/
theorem abs_nonneg_except_min (S : FloatSem) (M dst : Matrix)
    (hM : M.WellFormed) (hI : M.IntegerTyped) :
    ((StitchableKernel.absTransform.toUnaryKernel S).apply M dst).channels = M.channels ∧
    ((StitchableKernel.absTransform.toUnaryKernel S).apply M dst).columns = M.columns ∧
    ((StitchableKernel.absTransform.toUnaryKernel S).apply M dst).rows = M.rows ∧
    ((StitchableKernel.absTransform.toUnaryKernel S).apply M dst).frames = M.frames ∧
    ((StitchableKernel.absTransform.toUnaryKernel S).apply M dst).hash = M.hash ∧
    ((StitchableKernel.absTransform.toUnaryKernel S).apply M dst).data.length = M.data.length ∧
    ∀ i, i < M.data.length →
      (M.elem i ≠ -((2 ^ (M.hash.bits - 1) : Nat) : Int) →
        0 ≤ ((StitchableKernel.absTransform.toUnaryKernel S).apply M dst).elem i) ∧
      (0 ≤ M.elem i →
        ((StitchableKernel.absTransform.toUnaryKernel S).apply M dst).data.getD i 0
          = M.data.getD i 0) ∧
      (M.elem i = -((2 ^ (M.hash.bits - 1) : Nat) : Int) →
        ((StitchableKernel.absTransform.toUnaryKernel S).apply M dst).data.getD i 0
          = M.data.getD i 0) := by
  obtain ⟨hf, hb, hd⟩ := hI
  rw [apply_stitchable S _ M dst hM]
  have ht : typeRule .absTransform M.hash = M.hash := rfl
  refine ⟨rfl, rfl, rfl, rfl, ht, by simp, fun i hi => ?_⟩
  simp only [Matrix.elem, ht, getD_map_of_lt _ _ _ hi]
  exact abs_elem S M.hash hf hb _ (hd _ (getD_mem_of_lt _ _ hi))

/-- The amended C9 at the 2x2 `s8` image `[[-1,-2],[3,4]]`: the result is the 2x2
`s8` image `[[1,2],[3,4]]`. -/
theorem abs_nonneg_except_min_witness :
    s8M.WellFormed ∧ s8M.IntegerTyped ∧
    ((StitchableKernel.absTransform.toUnaryKernel FloatSem.zero).apply s8M Matrix.null).columns
      = 2 ∧
    ((StitchableKernel.absTransform.toUnaryKernel FloatSem.zero).apply s8M Matrix.null).rows
      = 2 ∧
    ((StitchableKernel.absTransform.toUnaryKernel FloatSem.zero).apply s8M Matrix.null).hash
      = s8M.hash ∧
    0 ≤ ((StitchableKernel.absTransform.toUnaryKernel FloatSem.zero).apply s8M Matrix.null).elem 0 ∧
    ((StitchableKernel.absTransform.toUnaryKernel FloatSem.zero).apply s8M Matrix.null).data.getD 2 0
      = s8M.data.getD 2 0 ∧
    ((StitchableKernel.absTransform.toUnaryKernel FloatSem.zero).apply s8M Matrix.null).data
      = [1, 2, 3, 4] :=
  have hw : s8M.WellFormed := ⟨by decide, by decide, by decide⟩
  have hi : s8M.IntegerTyped := by
    refine ⟨rfl, by decide, ?_⟩
    intro v hv
    simp only [s8M, List.mem_cons, List.mem_singleton, List.not_mem_nil, or_false] at hv
    rcases hv with rfl | rfl | rfl | rfl <;> decide
  have h := abs_nonneg_except_min FloatSem.zero s8M Matrix.null hw hi
  ⟨hw, hi, h.2.1, h.2.2.1, h.2.2.2.2.1,
    (h.2.2.2.2.2.2 0 (by decide)).1 (by decide),
    (h.2.2.2.2.2.2 2 (by decide)).2.1 (by decide), by decide⟩

/-! ## `clamp` -/

theorem toInt_ofInt (n : Int) : (Dbl.ofInt n).toInt = n := by
  simp [Dbl.toInt, Dbl.ofInt]

theorem negMax_lt_ofInt {n : Int} (h : (Dbl.ofInt n).FitsInt) :
    (Dbl.neg Dbl.max).lt (Dbl.ofInt n) = true := by
  obtain ⟨h1, -⟩ := h
  rw [toInt_ofInt] at h1
  have e : min (Dbl.neg Dbl.max).e (Dbl.ofInt n).e = 0 := by
    show min (971 : Int) 0 = 0
    decide
  have k : (Dbl.neg Dbl.max).scaled 0 < -(2 ^ 31 : Int) := by
    have hp : (1 : Int) ≤ ((2 ^ ((971 : Int) - 0).toNat : Nat) : Int) := by
      exact_mod_cast Nat.one_le_two_pow
    show -(2 ^ 53 - 1) * ((2 ^ ((971 : Int) - 0).toNat : Nat) : Int) < _
    nlinarith
  have k2 : (Dbl.ofInt n).scaled 0 = n := by simp [Dbl.scaled, Dbl.ofInt]
  simp only [Dbl.lt, e, k2, decide_eq_true_eq]
  omega

theorem ofInt_lt_max {n : Int} (h : (Dbl.ofInt n).FitsInt) :
    (Dbl.ofInt n).lt Dbl.max = true := by
  obtain ⟨-, h1⟩ := h
  rw [toInt_ofInt] at h1
  have e : min (Dbl.ofInt n).e Dbl.max.e = 0 := by
    show min (0 : Int) 971 = 0
    decide
  have k : (2 ^ 31 : Int) < Dbl.max.scaled 0 := by
    have hp : (1 : Int) ≤ ((2 ^ ((971 : Int) - 0).toNat : Nat) : Int) := by
      exact_mod_cast Nat.one_le_two_pow
    show _ < (2 ^ 53 - 1) * ((2 ^ ((971 : Int) - 0).toNat : Nat) : Int)
    nlinarith
  have k2 : (Dbl.ofInt n).scaled 0 = n := by simp [Dbl.scaled, Dbl.ofInt]
  simp only [Dbl.lt, e, k2, decide_eq_true_eq]
  omega

theorem negMax_lt_negMax : (Dbl.neg Dbl.max).lt (Dbl.neg Dbl.max) = false := by
  simp [Dbl.lt]

theorem max_lt_max : Dbl.max.lt Dbl.max = false := by
  simp [Dbl.lt]

theorem compareLT_int (S : FloatSem) (mb : MatrixBuilder) (hf : mb.desc.hash.floating = false)
    (i j : Nat) :
    mb.compareLT S i j =
      decide (ival mb.desc.hash.signed mb.desc.hash.bits i
        < ival mb.desc.hash.signed mb.desc.hash.bits j) := by
  simp only [MatrixBuilder.compareLT, Matrix.isFloating, Matrix.isSigned, Matrix.bits, hf, ival]
  cases mb.desc.hash.signed <;> simp

theorem compareGT_int (S : FloatSem) (mb : MatrixBuilder) (hf : mb.desc.hash.floating = false)
    (i j : Nat) :
    mb.compareGT S i j =
      decide (ival mb.desc.hash.signed mb.desc.hash.bits j
        < ival mb.desc.hash.signed mb.desc.hash.bits i) := by
  simp only [MatrixBuilder.compareGT, Matrix.isFloating, Matrix.isSigned, Matrix.bits, hf, ival]
  cases mb.desc.hash.signed <;> simp

theorem elemFn_clamp_int (S : FloatSem) (mn mx : Dbl) (h : Hash) (hf : h.floating = false)
    (v : Nat) :
    elemFn S (.clampTransform mn mx) h v =
      (if mx.lt Dbl.max then
        (if ival h.signed h.bits (pat h.bits mx.toInt) <
            ival h.signed h.bits
              (if (Dbl.neg Dbl.max).lt mn then
                (if ival h.signed h.bits v < ival h.signed h.bits (pat h.bits mn.toInt)
                  then pat h.bits mn.toInt else v)
               else v)
          then pat h.bits mx.toInt
          else (if (Dbl.neg Dbl.max).lt mn then
                (if ival h.signed h.bits v < ival h.signed h.bits (pat h.bits mn.toInt)
                  then pat h.bits mn.toInt else v)
               else v))
       else (if (Dbl.neg Dbl.max).lt mn then
                (if ival h.signed h.bits v < ival h.signed h.bits (pat h.bits mn.toInt)
                  then pat h.bits mn.toInt else v)
               else v)) := by
  have ht : typeRule (.clampTransform mn mx) h = h := rfl
  simp only [elemFn, StitchableKernel.stitch, ht]
  simp only [compareLT_int S ⟨⟨0, 0, 0, 0, h, []⟩, Matrix.null⟩ hf,
    compareGT_int S ⟨⟨0, 0, 0, 0, h, []⟩, Matrix.null⟩ hf, MatrixBuilder.autoConstant,
    Matrix.isFloating, hf, MatrixBuilder.constant, Matrix.bits, decide_eq_true_eq,
    Bool.false_eq_true, if_false]

theorem clamp_elem (S : FloatSem) (h : Hash) (hf : h.floating = false) (hb : 0 < h.bits)
    (lo hi : Option Int)
    (hlo : ∀ n, lo = some n → InType h.signed h.bits n ∧ (Dbl.ofInt n).FitsInt)
    (hhi : ∀ n, hi = some n → InType h.signed h.bits n ∧ (Dbl.ofInt n).FitsInt)
    (hle : ∀ l u, lo = some l → hi = some u → l ≤ u)
    (v : Nat) :
    (∀ l, lo = some l →
      l ≤ ival h.signed h.bits (elemFn S (.clampTransform (clampMin lo) (clampMax hi)) h v)) ∧
    (∀ u, hi = some u →
      ival h.signed h.bits (elemFn S (.clampTransform (clampMin lo) (clampMax hi)) h v) ≤ u) ∧
    ((∀ l, lo = some l → l ≤ ival h.signed h.bits v) →
      (∀ u, hi = some u → ival h.signed h.bits v ≤ u) →
      elemFn S (.clampTransform (clampMin lo) (clampMax hi)) h v = v) := by
  rw [elemFn_clamp_int S _ _ h hf]
  cases lo with
  | none =>
    cases hi with
    | none =>
      simp only [clampMin, clampMax, negMax_lt_negMax, max_lt_max, Bool.false_eq_true, if_false]
      exact ⟨fun l hl => (by cases hl), fun u hu => (by cases hu), fun _ _ => trivial⟩
    | some u =>
      obtain ⟨hu1, hu2⟩ := hhi u rfl
      simp only [clampMin, clampMax, negMax_lt_negMax, ofInt_lt_max hu2, Bool.false_eq_true,
        if_false, if_true, toInt_ofInt, ival_pat hb hu1]
      refine ⟨fun l hl => (by cases hl), fun u' hu' => ?_, fun _ h2 => ?_⟩
      · cases hu'
        split
        · rw [ival_pat hb hu1]
        · omega
      · have := h2 u rfl
        rw [if_neg (by omega)]
  | some l =>
    obtain ⟨hl1, hl2⟩ := hlo l rfl
    cases hi with
    | none =>
      simp only [clampMin, clampMax, negMax_lt_ofInt hl2, max_lt_max, Bool.false_eq_true,
        if_false, if_true, toInt_ofInt, ival_pat hb hl1]
      refine ⟨fun l' hl' => ?_, fun u hu => (by cases hu), fun h1 _ => ?_⟩
      · cases hl'
        split
        · rw [ival_pat hb hl1]
        · omega
      · have := h1 l rfl
        rw [if_neg (by omega)]
    | some u =>
      obtain ⟨hu1, hu2⟩ := hhi u rfl
      have hlu := hle l u rfl rfl
      simp only [clampMin, clampMax, negMax_lt_ofInt hl2, ofInt_lt_max hu2,
        if_true, toInt_ofInt, ival_pat hb hl1, ival_pat hb hu1]
      refine ⟨fun l' hl' => ?_, fun u' hu' => ?_, fun h1 h2 => ?_⟩
      · cases hl'
        by_cases c1 : ival h.signed h.bits v < l
        · simp only [c1, if_true, ival_pat hb hl1]
          split
          · rw [ival_pat hb hu1]; exact hlu
          · rw [ival_pat hb hl1]
        · simp only [c1, if_false]
          split
          · rw [ival_pat hb hu1]; exact hlu
          · omega
      · cases hu'
        by_cases c1 : ival h.signed h.bits v < l
        · simp only [c1, if_true, ival_pat hb hl1]
          split
          · rw [ival_pat hb hu1]
          · rw [ival_pat hb hl1]; exact hlu
        · simp only [c1, if_false]
          split
          · rw [ival_pat hb hu1]
          · omega
      · have a1 := h1 l rfl
        have a2 := h2 u rfl
        have c1 : ¬ ival h.signed h.bits v < l := by omega
        have c2 : ¬ u < ival h.signed h.bits v := by omega
        simp only [c1, c2, if_false]

/-- C10 (counterexample): `clamp(0, 255)` takes the `s8` element `100`, which
lies in `[0, 255]`, to the pattern `0xFF`, that is `-1`. -/
theorem clamp_s8_0_255_gives_minus_one :
    s8Hundred.elem 0 = 100 ∧
    (((StitchableKernel.clampTransform (Dbl.ofInt 0) (Dbl.ofInt 255)).toUnaryKernel
        FloatSem.zero).apply s8Hundred Matrix.null).elem 0 = -1 := by
  refine ⟨by decide, ?_⟩
  rw [apply_stitchable _ _ _ _ ⟨by decide, by decide, by decide⟩]
  have h0 : (Dbl.ofInt 0).FitsInt := by rw [Dbl.FitsInt, toInt_ofInt]; decide
  have h255 : (Dbl.ofInt 255).FitsInt := by rw [Dbl.FitsInt, toInt_ofInt]; decide
  have he := elemFn_clamp_int FloatSem.zero (Dbl.ofInt 0) (Dbl.ofInt 255) s8Hundred.hash rfl 100
  simp only [negMax_lt_ofInt h0, ofInt_lt_max h255, toInt_ofInt, if_true] at he
  simp only [Matrix.elem, s8Hundred, List.map_cons, List.map_nil, List.getD_cons_zero] at he ⊢
  rw [he]
  decide

/-- C10 (amended): on an integer matrix, for bounds that are whole numbers the
element type can hold (and that fit `int`) with `lo <= hi`, `clamp(lo, hi)` keeps
type and shape, every element of the result lies in `[lo, hi]`, and every source
element already in `[lo, hi]` comes back unchanged; a bound left at its default
imposes no constraint. -/
theorem clamp_within_bounds (S : FloatSem) (M dst : Matrix) (lo hi : Option Int)
    (hM : M.WellFormed) (hI : M.IntegerTyped)
    (hlo : BoundOk M lo) (hhi : BoundOk M hi)
    (hle : ∀ l u, lo = some l → hi = some u → l ≤ u) :
    (((StitchableKernel.clampTransform (clampMin lo) (clampMax hi)).toUnaryKernel S).apply
        M dst).hash = M.hash ∧
    (((StitchableKernel.clampTransform (clampMin lo) (clampMax hi)).toUnaryKernel S).apply
        M dst).data.length = M.data.length ∧
    ∀ i, i < M.data.length →
      (∀ l, lo = some l →
        l ≤ (((StitchableKernel.clampTransform (clampMin lo) (clampMax hi)).toUnaryKernel S).apply
          M dst).elem i) ∧
      (∀ u, hi = some u →
        (((StitchableKernel.clampTransform (clampMin lo) (clampMax hi)).toUnaryKernel S).apply
          M dst).elem i ≤ u) ∧
      ((∀ l, lo = some l → l ≤ M.elem i) → (∀ u, hi = some u → M.elem i ≤ u) →
        (((StitchableKernel.clampTransform (clampMin lo) (clampMax hi)).toUnaryKernel S).apply
          M dst).data.getD i 0 = M.data.getD i 0) := by
  obtain ⟨hf, hb, -⟩ := hI
  rw [apply_stitchable S _ M dst hM]
  have ht : typeRule (.clampTransform (clampMin lo) (clampMax hi)) M.hash = M.hash := rfl
  refine ⟨ht, by simp, fun i hi' => ?_⟩
  simp only [Matrix.elem, ht, getD_map_of_lt _ _ _ hi']
  exact clamp_elem S M.hash hf hb lo hi hlo hhi hle _

theorem clamp_within_bounds_witness :
    s8Hundred.WellFormed ∧ s8Hundred.IntegerTyped ∧
    BoundOk s8Hundred (some 0) ∧ BoundOk s8Hundred (some 127) ∧
    (((StitchableKernel.clampTransform (clampMin (some 0)) (clampMax (some 127))).toUnaryKernel
        FloatSem.zero).apply s8Hundred Matrix.null).hash = s8Hundred.hash :=
  have hw : s8Hundred.WellFormed := ⟨by decide, by decide, by decide⟩
  have hi : s8Hundred.IntegerTyped := by
    refine ⟨rfl, by decide, ?_⟩
    intro v hv
    simp only [s8Hundred, List.mem_singleton] at hv
    subst hv; decide
  have h0 : BoundOk s8Hundred (some 0) := by
    intro n hn; cases hn
    exact ⟨by simp [InType, s8Hundred], by rw [Dbl.FitsInt, toInt_ofInt]; decide⟩
  have h1 : BoundOk s8Hundred (some 127) := by
    intro n hn; cases hn
    exact ⟨by simp [InType, s8Hundred], by rw [Dbl.FitsInt, toInt_ofInt]; decide⟩
  ⟨hw, hi, h0, h1, (clamp_within_bounds FloatSem.zero s8Hundred Matrix.null (some 0) (some 127)
    hw hi h0 h1 (by intro l u hl hu; cases hl; cases hu; decide)).1⟩

/-! ## `scale` and `add` -/

theorem toInt_neg (b : Dbl) : (Dbl.neg b).toInt = -b.toInt := by
  unfold Dbl.toInt Dbl.neg
  simp only
  split
  · ring
  · exact Int.neg_tdiv _ _

theorem elemFn_scale_int (S : FloatSem) (a : Dbl) (h : Hash) (hf : h.floating = false) (v : Nat) :
    elemFn S (.scaleTransform a) h v = (v * pat h.bits a.toInt) % 2 ^ h.bits := by
  have ht : typeRule (.scaleTransform a) h = h := rfl
  simp only [elemFn, StitchableKernel.stitch, ht, MatrixBuilder.multiply,
    MatrixBuilder.autoConstant, Matrix.isFloating, hf, MatrixBuilder.constant, Matrix.bits,
    Bool.false_eq_true, if_false]

theorem elemFn_add_int (S : FloatSem) (b : Dbl) (h : Hash) (hf : h.floating = false) (v : Nat) :
    elemFn S (.addTransform b) h v = (v + pat h.bits b.toInt) % 2 ^ h.bits := by
  have ht : typeRule (.addTransform b) h = h := rfl
  simp only [elemFn, StitchableKernel.stitch, ht, MatrixBuilder.add,
    MatrixBuilder.autoConstant, Matrix.isFloating, hf, MatrixBuilder.constant, Matrix.bits,
    Bool.false_eq_true, if_false]

theorem pat_modEq (bits : Nat) (n : Int) :
    ((pat bits n : Nat) : Int) ≡ n [ZMOD ((2 ^ bits : Nat) : Int)] := by
  rw [natCast_pat]
  exact Int.mod_modEq _ _

theorem natMod_modEq (x bits : Nat) :
    ((x % 2 ^ bits : Nat) : Int) ≡ (x : Int) [ZMOD ((2 ^ bits : Nat) : Int)] := by
  rw [Int.natCast_mod]
  exact Int.mod_modEq _ _

theorem scale_add_roundtrip_elem (S : FloatSem) (h : Hash) (hf : h.floating = false)
    (s : Int) (hs : s = 1 ∨ s = -1) (b : Dbl) (v : Nat) (hv : v < 2 ^ h.bits) :
    chainFn S [.scaleTransform (Dbl.ofInt s), .addTransform b, .addTransform (Dbl.neg b),
      .scaleTransform (Dbl.ofInt s)] h v = v := by
  have t1 : typeRule (.scaleTransform (Dbl.ofInt s)) h = h := rfl
  have t2 : typeRule (.addTransform b) h = h := rfl
  have t3 : typeRule (.addTransform (Dbl.neg b)) h = h := rfl
  simp only [chainFn, t1, t2, t3, elemFn_scale_int S _ h hf, elemFn_add_int S _ h hf,
    toInt_ofInt, toInt_neg]
  set N : Int := ((2 ^ h.bits : Nat) : Int) with hN
  have h1 : ((v * pat h.bits s % 2 ^ h.bits : Nat) : Int) ≡ v * s [ZMOD N] := by
    refine (natMod_modEq _ _).trans ?_
    push_cast
    exact (Int.ModEq.refl _).mul (by simpa using pat_modEq h.bits s)
  have h2 : (((v * pat h.bits s % 2 ^ h.bits + pat h.bits b.toInt) % 2 ^ h.bits : Nat) : Int)
      ≡ v * s + b.toInt [ZMOD N] := by
    refine (natMod_modEq _ _).trans ?_
    rw [Nat.cast_add]
    exact h1.add (pat_modEq h.bits _)
  have h3 : ((((v * pat h.bits s % 2 ^ h.bits + pat h.bits b.toInt) % 2 ^ h.bits
      + pat h.bits (-b.toInt)) % 2 ^ h.bits : Nat) : Int)
      ≡ v * s + b.toInt + -b.toInt [ZMOD N] := by
    refine (natMod_modEq _ _).trans ?_
    rw [Nat.cast_add]
    exact h2.add (pat_modEq h.bits _)
  have h4 : (((((v * pat h.bits s % 2 ^ h.bits + pat h.bits b.toInt) % 2 ^ h.bits
      + pat h.bits (-b.toInt)) % 2 ^ h.bits * pat h.bits s) % 2 ^ h.bits : Nat) : Int)
      ≡ (v * s + b.toInt + -b.toInt) * s [ZMOD N] := by
    refine (natMod_modEq _ _).trans ?_
    rw [Nat.cast_mul]
    exact h3.mul (pat_modEq h.bits _)
  have hfin : (v * s + b.toInt + -b.toInt) * s = v := by
    rcases hs with rfl | rfl <;> ring
  rw [hfin] at h4
  have hlt : ((((v * pat h.bits s % 2 ^ h.bits + pat h.bits b.toInt) % 2 ^ h.bits
      + pat h.bits (-b.toInt)) % 2 ^ h.bits * pat h.bits s) % 2 ^ h.bits) < 2 ^ h.bits :=
    Nat.mod_lt _ (by positivity)
  unfold Int.ModEq at h4
  rw [Int.emod_eq_of_lt (by positivity) (by rw [hN]; exact_mod_cast hlt),
    Int.emod_eq_of_lt (by positivity) (by rw [hN]; exact_mod_cast hv)] at h4
  exact_mod_cast h4

/-- C8 (counterexample): with `a = 2` (so `1/a = 0.5`) and `b = 1` the pipeline
`stitch([scale(2), add(1), add(-1), scale(0.5)])` takes the `u8` element `1`
to `0`: `scale(0.5)` multiplies by `int(0.5) = 0`. -/
theorem scale_roundtrip_fails_for_two :
    u8One.data = [1] ∧
    ((stitchTransform.toUnaryKernel FloatSem.zero
      [.scaleTransform (Dbl.ofInt 2), .addTransform (Dbl.ofInt 1),
        .addTransform (Dbl.neg (Dbl.ofInt 1)), .scaleTransform ⟨1, -1⟩]).apply
      u8One Matrix.null).data = [0] := by
  decide

/-- C8 (amended): on an integer matrix, for `a = 1` or `a = -1` (where `1/a = a`)
and every `b` for which `int(b)` and `int(-b)` are representable, the pipeline
`stitch([scale(a), add(b), add(-b), scale(1/a)])` returns the matrix exactly. -/
theorem scale_add_roundtrip (S : FloatSem) (M dst : Matrix) (s : Int) (b : Dbl)
    (hs : s = 1 ∨ s = -1) (_hb : b.FitsInt) (_hnb : (Dbl.neg b).FitsInt)
    (hM : M.WellFormed) (hI : M.IntegerTyped) :
    (stitchTransform.toUnaryKernel S
      [.scaleTransform (Dbl.ofInt s), .addTransform b, .addTransform (Dbl.neg b),
        .scaleTransform (Dbl.ofInt s)]).apply M dst = M := by
  obtain ⟨hf, -, hd⟩ := hI
  rw [apply_stitch S _ (by simp) M dst hM]
  have hh : chainHash [.scaleTransform (Dbl.ofInt s), .addTransform b, .addTransform (Dbl.neg b),
      .scaleTransform (Dbl.ofInt s)] M.hash = M.hash := rfl
  have hmap : M.data.map (chainFn S [.scaleTransform (Dbl.ofInt s), .addTransform b,
      .addTransform (Dbl.neg b), .scaleTransform (Dbl.ofInt s)] M.hash) = M.data := by
    conv_rhs => rw [← List.map_id M.data]
    apply List.map_congr_left
    intro v hv
    exact scale_add_roundtrip_elem S M.hash hf s hs b v (hd v hv)
  rw [hh, hmap]

theorem scale_add_roundtrip_witness :
    ((-1 : Int) = 1 ∨ (-1 : Int) = -1) ∧ (Dbl.ofInt 1).FitsInt ∧ (Dbl.neg (Dbl.ofInt 1)).FitsInt ∧
    s8M.WellFormed ∧ s8M.IntegerTyped ∧
    (stitchTransform.toUnaryKernel FloatSem.zero
      [.scaleTransform (Dbl.ofInt (-1)), .addTransform (Dbl.ofInt 1),
        .addTransform (Dbl.neg (Dbl.ofInt 1)), .scaleTransform (Dbl.ofInt (-1))]).apply
      s8M Matrix.null = s8M :=
  have h1 : (Dbl.ofInt 1).FitsInt := by rw [Dbl.FitsInt, toInt_ofInt]; decide
  have h2 : (Dbl.neg (Dbl.ofInt 1)).FitsInt := by
    rw [Dbl.FitsInt, toInt_neg, toInt_ofInt]; decide
  have hw : s8M.WellFormed := ⟨by decide, by decide, by decide⟩
  have hi : s8M.IntegerTyped := by
    refine ⟨rfl, by decide, ?_⟩
    intro v hv
    simp only [s8M, List.mem_cons, List.mem_singleton, List.not_mem_nil, or_false] at hv
    rcases hv with rfl | rfl | rfl | rfl <;> decide
  ⟨Or.inr rfl, h1, h2, hw, hi,
    scale_add_roundtrip FloatSem.zero s8M Matrix.null (-1) (Dbl.ofInt 1) (Or.inr rfl) h1 h2 hw hi⟩

/-- C4 (failing input): summing the two channels of the 2x2x2 `u8` matrix
`1 .. 8` gives `[3, 7, 7, 11]`.  Output element 2 has coordinate
`(c, x, y, t) = (0, 0, 1, 0)` and should hold `5 + 6 = 11`; the kernel adds
`3 + 4` instead, because `aliasRowStep` takes the row step of the destination
(`2`) for the source (whose row step is `4`).  The outcome is the same when no
single-axis flag of the source is set. -/
theorem sum_channels_reads_wrong_row :
    ((sumTransform.toUnaryKernel FloatSem.zero true false false false).apply
      u8Cube Matrix.null).data = [3, 7, 7, 11] ∧
    ((sumTransform.toUnaryKernel FloatSem.zero true false false false).apply
      u8Image Matrix.null).data = [3, 7, 7, 11] ∧
    (MatrixBuilder.mk
        ((sumTransform.toUnaryKernel FloatSem.zero true false false false).apply u8Cube Matrix.null)
        ((sumTransform.toUnaryKernel FloatSem.zero true false false false).apply u8Cube Matrix.null)
      ).deindex 2 = (0, 0, 1, 0) ∧
    (MatrixBuilder.mk u8Cube u8Cube).aliasIndex
      (MatrixBuilder.mk
        ((sumTransform.toUnaryKernel FloatSem.zero true false false false).apply u8Cube Matrix.null)
        ((sumTransform.toUnaryKernel FloatSem.zero true false false false).apply u8Cube Matrix.null))
      0 0 1 0 = 2 ∧
    (MatrixBuilder.mk u8Cube u8Cube).index 0 0 1 0 = 4 ∧
    [specSum true false false false u8Cube 0 0 0 0 16,
     specSum true false false false u8Cube 0 1 0 0 16,
     specSum true false false false u8Cube 0 0 1 0 16,
     specSum true false false false u8Cube 0 1 1 0 16] = [3, 7, 11, 15] := by
  decide

/-- C5: `sumTransform::preallocate` gives the destination extent one on every
reduced axis and the source extent on every other axis, and returns the
product of the four destination extents. -/
theorem sum_preallocate_extents (channels columns rows frames : Bool) (src dst : Matrix) :
    (sumTransform.preallocate channels columns rows frames src dst).1.channels
      = (if channels then 1 else src.channels) ∧
    (sumTransform.preallocate channels columns rows frames src dst).1.columns
      = (if columns then 1 else src.columns) ∧
    (sumTransform.preallocate channels columns rows frames src dst).1.rows
      = (if rows then 1 else src.rows) ∧
    (sumTransform.preallocate channels columns rows frames src dst).1.frames
      = (if frames then 1 else src.frames) ∧
    (sumTransform.preallocate channels columns rows frames src dst).2
      = (sumTransform.preallocate channels columns rows frames src dst).1.channels *
        (sumTransform.preallocate channels columns rows frames src dst).1.columns *
        (sumTransform.preallocate channels columns rows frames src dst).1.rows *
        (sumTransform.preallocate channels columns rows frames src dst).1.frames :=
  ⟨rfl, rfl, rfl, rfl, rfl⟩

theorem invoke_caches_specialization_witness :
    Reachable emitsSameType "jitcv_add0" (Dispatch.init []) ∧ ValidWidth s8M ∧
    emitsSameType s8M = true ∧
    ∃ st1 f, invoke emitsSameType "jitcv_add0" (Dispatch.init []) s8M = some (st1, f) ∧
      st1.hash = s8M.hash ∧ st1.kernel = some f ∧
      f = mangledName "jitcv_add0" s8M ∧ f ∈ st1.module ∧
      (s8M.hash = (Dispatch.init []).hash →
        st1.kernel = (Dispatch.init []).kernel ∧ st1.hash = (Dispatch.init []).hash ∧
          st1.module = (Dispatch.init []).module) :=
  have hr : Reachable emitsSameType "jitcv_add0" (Dispatch.init []) := Reachable.init []
  have hv : ValidWidth s8M := Or.inr (Or.inl rfl)
  have he : emitsSameType s8M = true := by decide
  ⟨hr, hv, he,
    invoke_caches_specialization emitsSameType "jitcv_add0" (Dispatch.init []) s8M hr hv he⟩

theorem index_is_flat_offset_witness :
    FlagsSound ⟨u8Cube, u8Cube⟩ ∧ InRange u8Cube 1 1 1 0 ∧
    (MatrixBuilder.mk u8Cube u8Cube).index 1 1 1 0 % 2 ^ 32 = flatOffset u8Cube 1 1 1 0 % 2 ^ 32 ∧
    (u8Cube.elements ≤ 2 ^ 32 →
      (MatrixBuilder.mk u8Cube u8Cube).index 1 1 1 0 = flatOffset u8Cube 1 1 1 0) :=
  have hf : FlagsSound ⟨u8Cube, u8Cube⟩ := ⟨by decide, by decide, by decide, by decide⟩
  have hr : InRange u8Cube 1 1 1 0 := ⟨by decide, by decide, by decide, by decide⟩
  ⟨hf, hr, index_is_flat_offset ⟨u8Cube, u8Cube⟩ 1 1 1 0 hf hr⟩

theorem deindex_inverse_of_index_witness :
    FlagsExact ⟨u8Cube, u8Cube⟩ ∧ u8Cube.elements < 2 ^ 32 ∧
    (MatrixBuilder.mk u8Cube u8Cube).deindex ((MatrixBuilder.mk u8Cube u8Cube).index 1 0 1 0)
      = (1, 0, 1, 0) :=
  have hf : FlagsExact ⟨u8Cube, u8Cube⟩ := ⟨by decide, by decide, by decide, by decide⟩
  have hl : u8Cube.elements < 2 ^ 32 := by decide
  ⟨hf, hl, (deindex_inverse_of_index ⟨u8Cube, u8Cube⟩ hf hl).2 1 0 1 0
    ⟨by decide, by decide, by decide, by decide⟩⟩

/-! ## `cast` -/

theorem castType_bits_pos (T : CastType) : 0 < T.toType.1 := by
  cases T <;> decide

theorem bits_le_of_represents {T S : CastType} (h : Represents T S) :
    S.toType.1 ≤ T.toType.1 := by
  have hS := castType_bits_pos S
  have hT := castType_bits_pos T
  have sS := two_pow_split hS
  have sT := two_pow_split hT
  unfold Represents InType at h
  by_contra hlt
  have hlt : T.toType.1 < S.toType.1 := by omega
  have hp : 2 ^ T.toType.1 ≤ 2 ^ (S.toType.1 - 1) :=
    Nat.pow_le_pow_right (by norm_num) (by omega)
  have hp1 : 1 ≤ 2 ^ (T.toType.1 - 1) := Nat.one_le_two_pow
  cases hs : S.toType.2.2 <;> cases ht : T.toType.2.2 <;> simp only [hs, ht, if_true,
    Bool.false_eq_true, if_false] at h
  · have := h (((2 ^ S.toType.1 : Nat) : Int) - 1) ⟨by omega, by omega⟩
    omega
  · have := h (((2 ^ S.toType.1 : Nat) : Int) - 1) ⟨by omega, by omega⟩
    omega
  · have := h (-1) ⟨by omega, by omega⟩
    omega
  · have := h (((2 ^ (S.toType.1 - 1) : Nat) : Int) - 1) ⟨by omega, by omega⟩
    omega

theorem elemFn_cast_int (S0 : FloatSem) (T : CastType) (hT : T.toType.2.1 = false)
    (h : Hash) (hf : h.floating = false) (v : Nat) :
    elemFn S0 (.castTransform T) h v =
      if (h.bits, false, h.signed) = T.toType then v
      else if T.toType.1 < h.bits then v % 2 ^ T.toType.1
      else if h.bits < T.toType.1 then
        (if h.signed then pat T.toType.1 (sval h.bits v) else v)
      else v := by
  have ht : typeRule (.castTransform T) h
      = { h with bits := T.toType.1, floating := T.toType.2.1, signed := T.toType.2.2 } := rfl
  simp only [elemFn, StitchableKernel.stitch, MatrixBuilder.cast, ht, Matrix.type,
    Matrix.isFloating, Matrix.isSigned, Matrix.bits, hf, hT, Bool.false_eq_true, if_false]
  have e : ((h.bits, false, h.signed) = (T.toType.1, false, T.toType.2.2)) ↔
      ((h.bits, false, h.signed) = T.toType) := by
    constructor
    · intro e; rw [e]; ext <;> simp [hT]
    · intro e; rw [e]; ext <;> simp [hT]
  simp only [e]

theorem pat_sval_mod {ws wt v : Nat} (hle : ws ≤ wt) (hv : v < 2 ^ ws) :
    pat wt (sval ws v) % 2 ^ ws = v := by
  have hdvd : ((2 ^ ws : Nat) : Int) ∣ ((2 ^ wt : Nat) : Int) := by
    exact_mod_cast pow_dvd_pow 2 hle
  have h1 : ((pat wt (sval ws v) % 2 ^ ws : Nat) : Int) = (v : Int) := by
    rw [Int.natCast_mod, natCast_pat, Int.emod_emod_of_dvd _ hdvd]
    unfold sval
    split
    · exact Int.emod_eq_of_lt (by positivity) (by exact_mod_cast hv)
    · rw [Int.sub_emod, Int.emod_self, Int.sub_zero, Int.emod_emod_of_dvd _ (dvd_refl _)]
      exact Int.emod_eq_of_lt (by positivity) (by exact_mod_cast hv)
  exact_mod_cast h1

theorem cast_roundtrip_elem (S0 : FloatSem) (S T : CastType)
    (hS : S.toType.2.1 = false) (hT : T.toType.2.1 = false)
    (h : Hash) (hty : (h.bits, h.floating, h.signed) = S.toType)
    (hle : S.toType.1 ≤ T.toType.1) (v : Nat) (hv : v < 2 ^ h.bits) :
    chainFn S0 [.castTransform T, .castTransform S] h v = v := by
  have hb : h.bits = S.toType.1 := congrArg Prod.fst hty
  have hf : h.floating = false := by
    have := congrArg (fun p => p.2.1) hty
    simp only at this
    rw [this, hS]
  have hsg : h.signed = S.toType.2.2 := congrArg (fun p => p.2.2) hty
  have t1 : typeRule (.castTransform T) h
      = { h with bits := T.toType.1, floating := T.toType.2.1, signed := T.toType.2.2 } := rfl
  have hpos := castType_bits_pos S
  simp only [chainFn, t1]
  rw [elemFn_cast_int S0 S hS _ (by simpa using hT), elemFn_cast_int S0 T hT h hf]
  simp only
  rcases Nat.lt_or_eq_of_le hle with hlt | heq
  · -- strictly wider
    have n1 : ¬ ((h.bits, false, h.signed) = T.toType) := by
      intro e; have := congrArg Prod.fst e; simp only at this; omega
    have n2 : ¬ ((T.toType.1, false, T.toType.2.2) = S.toType) := by
      intro e; have := congrArg Prod.fst e; simp only at this; omega
    have n3 : ¬ T.toType.1 < h.bits := by omega
    have n4 : h.bits < T.toType.1 := by omega
    simp only [n1, n2, n3, n4, hlt, if_true, if_false]
    cases hs : h.signed
    · simp only [Bool.false_eq_true, if_false]
      rw [← hb]; exact Nat.mod_eq_of_lt hv
    · simp only [if_true]
      rw [← hb]
      exact pat_sval_mod (by omega) hv
  · -- same width
    have n3 : ¬ T.toType.1 < h.bits := by omega
    have n4 : ¬ h.bits < T.toType.1 := by omega
    have n5 : ¬ S.toType.1 < T.toType.1 := by omega
    have n6 : ¬ T.toType.1 < S.toType.1 := by omega
    simp only [n3, n4, n5, n6, if_false, ite_self]

theorem cast_roundtrip_hash (S T : CastType) (h : Hash)
    (hty : (h.bits, h.floating, h.signed) = S.toType) :
    chainHash [.castTransform T, .castTransform S] h = h := by
  have hb : h.bits = S.toType.1 := congrArg Prod.fst hty
  have hf : h.floating = S.toType.2.1 := congrArg (fun p => p.2.1) hty
  have hsg : h.signed = S.toType.2.2 := congrArg (fun p => p.2.2) hty
  show ({ ({ h with bits := T.toType.1, floating := T.toType.2.1, signed := T.toType.2.2 } : Hash)
    with bits := S.toType.1, floating := S.toType.2.1, signed := S.toType.2.2 } : Hash) = h
  cases h
  simp only at hb hf hsg
  simp [hb, hf, hsg]

/-- C11: for an integer matrix of element type `S` and an integer element type
`T` that can represent every value of `S`, casting to `T` and back to `S`, as
two transforms or as one stitched pipeline, returns the matrix itself: type,
shape and every element. -/
theorem cast_roundtrip (S0 : FloatSem) (S T : CastType) (M dst dst1 : Matrix)
    (hS : S.toType.2.1 = false) (hT : T.toType.2.1 = false)
    (hty : M.type = S.toType) (hrep : Represents T S)
    (hM : M.WellFormed) (hI : M.IntegerTyped) :
    applyEach S0 [.castTransform T, .castTransform S] M dst = M ∧
    (stitchTransform.toUnaryKernel S0 [.castTransform T, .castTransform S]).apply M dst1 = M := by
  obtain ⟨-, -, hd⟩ := hI
  have hle := bits_le_of_represents hrep
  have hmap : M.data.map (chainFn S0 [.castTransform T, .castTransform S] M.hash) = M.data := by
    conv_rhs => rw [← List.map_id M.data]
    apply List.map_congr_left
    intro v hv
    exact cast_roundtrip_elem S0 S T hS hT M.hash hty hle v (hd v hv)
  have hh := cast_roundtrip_hash S T M.hash hty
  constructor
  · rw [applyEach_eq S0 dst _ M hM, hh, hmap]
  · rw [apply_stitch S0 _ (by simp) M dst1 hM, hh, hmap]

theorem cast_roundtrip_witness :
    CastType.s8.toType.2.1 = false ∧ CastType.s16.toType.2.1 = false ∧
    s8M.type = CastType.s8.toType ∧ Represents .s16 .s8 ∧ s8M.WellFormed ∧ s8M.IntegerTyped ∧
    applyEach FloatSem.zero [.castTransform .s16, .castTransform .s8] s8M Matrix.null = s8M :=
  have hrep : Represents .s16 .s8 := by
    intro n hn
    simp only [InType, CastType.toType, if_true] at hn ⊢
    norm_num at hn ⊢
    omega
  have hw : s8M.WellFormed := ⟨by decide, by decide, by decide⟩
  have hi : s8M.IntegerTyped := by
    refine ⟨rfl, by decide, ?_⟩
    intro v hv
    simp only [s8M, List.mem_cons, List.mem_singleton, List.not_mem_nil, or_false] at hv
    rcases hv with rfl | rfl | rfl | rfl <;> decide
  ⟨rfl, rfl, rfl, hrep, hw, hi,
    (cast_roundtrip FloatSem.zero .s8 .s16 s8M Matrix.null Matrix.null rfl rfl rfl hrep hw hi).1⟩

theorem ival_modEq (signed : Bool) (bits v : Nat) :
    ival signed bits v ≡ (v : Int) [ZMOD ((2 ^ bits : Nat) : Int)] := by
  unfold ival sval
  cases signed
  · simp only [Bool.false_eq_true, if_false]; exact Int.ModEq.refl _
  · simp only [if_true]
    split
    · exact Int.ModEq.refl _
    · have : (v : Int) - ((2 ^ bits : Nat) : Int) = (v : Int) + ((2 ^ bits : Nat) : Int) * (-1) := by
        ring
      rw [this]
      exact Int.modEq_add_fac_self

theorem add_elem (S : FloatSem) (h : Hash) (hf : h.floating = false) (n : Int) (v : Nat) :
    elemFn S (.addTransform (Dbl.ofInt n)) h v = pat h.bits (ival h.signed h.bits v + n) := by
  rw [elemFn_add_int S _ h hf, toInt_ofInt]
  have h1 : (((v + pat h.bits n) % 2 ^ h.bits : Nat) : Int)
      ≡ ival h.signed h.bits v + n [ZMOD ((2 ^ h.bits : Nat) : Int)] := by
    refine (natMod_modEq _ _).trans ?_
    rw [Nat.cast_add]
    exact ((ival_modEq h.signed h.bits v).symm).add (pat_modEq h.bits n)
  have h2 := (pat_modEq h.bits (ival h.signed h.bits v + n))
  have h3 := h1.trans h2.symm
  have l1 : (v + pat h.bits n) % 2 ^ h.bits < 2 ^ h.bits := Nat.mod_lt _ (by positivity)
  have l2 := pat_lt h.bits (ival h.signed h.bits v + n)
  unfold Int.ModEq at h3
  rw [Int.emod_eq_of_lt (by positivity) (by exact_mod_cast l1),
    Int.emod_eq_of_lt (by positivity) (by exact_mod_cast l2)] at h3
  exact_mod_cast h3

/-- C12: on an integer matrix of width `w`, `add(b)` for a whole number `b` that
fits `int` keeps shape and element type, and every element of the result is
the `w`-bit twos-complement pattern of `v + b`, `v` being the source element
read in its type, so the result read in that type is congruent to `v + b`
modulo `2^w`. -/
theorem add_wraps (S : FloatSem) (M dst : Matrix) (n : Int)
    (_hn : (Dbl.ofInt n).FitsInt) (hM : M.WellFormed) (hI : M.IntegerTyped) :
    ((StitchableKernel.addTransform (Dbl.ofInt n)).toUnaryKernel S).apply M dst
      = ⟨M.channels, M.columns, M.rows, M.frames, M.hash,
          M.data.map (fun v => pat M.hash.bits (ival M.hash.signed M.hash.bits v + n))⟩ ∧
    ∀ i, i < M.data.length →
      (((StitchableKernel.addTransform (Dbl.ofInt n)).toUnaryKernel S).apply M dst).elem i
        ≡ M.elem i + n [ZMOD ((2 ^ M.hash.bits : Nat) : Int)] := by
  obtain ⟨hf, -, -⟩ := hI
  have ht : typeRule (.addTransform (Dbl.ofInt n)) M.hash = M.hash := rfl
  have hfn : elemFn S (.addTransform (Dbl.ofInt n)) M.hash
      = fun v => pat M.hash.bits (ival M.hash.signed M.hash.bits v + n) := by
    funext v; exact add_elem S M.hash hf n v
  rw [apply_stitchable S _ M dst hM, ht, hfn]
  refine ⟨rfl, fun i hi => ?_⟩
  simp only [Matrix.elem, getD_map_of_lt _ _ _ hi]
  exact (ival_modEq _ _ _).trans (pat_modEq _ _)

/-- Scenario A: `add(1)` takes the 2x2 `s8` matrix `[[-1,-2],[3,4]]` to the 2x2
`s8` matrix `[[0,-1],[4,5]]`. -/
theorem add_one_s8 :
    (Dbl.ofInt 1).FitsInt ∧ s8M.WellFormed ∧ s8M.IntegerTyped ∧
    ((StitchableKernel.addTransform (Dbl.ofInt 1)).toUnaryKernel FloatSem.zero).apply s8M Matrix.null
      = ⟨1, 2, 2, 1, s8M.hash, [0, 255, 4, 5]⟩ ∧
    [sval 8 0, sval 8 255, sval 8 4, sval 8 5] = [0, -1, 4, 5] :=
  have h1 : (Dbl.ofInt 1).FitsInt := by rw [Dbl.FitsInt, toInt_ofInt]; decide
  have hw : s8M.WellFormed := ⟨by decide, by decide, by decide⟩
  have hi : s8M.IntegerTyped := by
    refine ⟨rfl, by decide, ?_⟩
    intro v hv
    simp only [s8M, List.mem_cons, List.mem_singleton, List.not_mem_nil, or_false] at hv
    rcases hv with rfl | rfl | rfl | rfl <;> decide
  ⟨h1, hw, hi, (add_wraps FloatSem.zero s8M Matrix.null 1 h1 hw hi).1.trans (by decide),
    by decide⟩

/-! ## Allocation size -/

/-- C13 (failing input): for the `u1` matrix of eight elements the generated code
asks `malloc` for `(1 udiv 8) * 8 = 0` bytes, where the packed size
`ceil(1/8) * 8` is `8` bytes. -/
theorem bytesCode_u1_is_zero :
    (MatrixBuilder.mk u1Row u1Row).allocateCode = 0 ∧
    (MatrixBuilder.mk u1Row u1Row).bytesCode = 0 ∧
    packedBytes u1Row = 8 ∧ u1Row.elements = 8 := by
  decide

/-- For the widths that are whole bytes the generated size is the packed size,
as an `i32` value. -/
theorem bytesCode_whole_bytes (mb : MatrixBuilder) (hflags : FlagsSound mb)
    (hw : mb.m.hash.bits = 8 ∨ mb.m.hash.bits = 16 ∨ mb.m.hash.bits = 32 ∨ mb.m.hash.bits = 64) :
    mb.bytesCode = packedBytes mb.m % 2 ^ 32 := by
  have he : mb.elementsCode ≡ mb.m.channels * mb.m.columns * mb.m.rows * mb.m.frames
      [MOD 2 ^ 32] := by
    unfold elementsCode
    rw [getChannels_eq hflags, getColumns_eq hflags, getRows_eq hflags, getFrames_eq hflags]
    refine (mul32_modEq _ _).trans (Nat.ModEq.mul_right _ ?_)
    refine (mul32_modEq _ _).trans (Nat.ModEq.mul_right _ ?_)
    exact mul32_modEq _ _
  have hb : udiv32 (i32 mb.bitsCode) 8 = (mb.m.hash.bits + 7) / 8 := by
    unfold udiv32 i32 bitsCode
    rcases hw with h | h | h | h <;> rw [h] <;> norm_num
  unfold bytesCode packedBytes
  rw [hb]
  have h1 := (mul32_modEq ((mb.m.hash.bits + 7) / 8) mb.elementsCode).trans
    (Nat.ModEq.mul_left _ he)
  have h2 : mul32 ((mb.m.hash.bits + 7) / 8) mb.elementsCode < 2 ^ 32 :=
    Nat.mod_lt _ (by norm_num)
  unfold Nat.ModEq at h1
  rw [Nat.mod_eq_of_lt h2] at h1
  exact h1

/-! ## Argument identifiers -/

theorem argsLUT_contains_iff (lut : List (String × Nat)) (a : String) :
    argsLUT.contains lut a = true ↔ ∃ e ∈ lut, e.1 = a := by
  simp [argsLUT.contains]

theorem argsLUT_value_of_mem {lut : List (String × Nat)} (hk : (lut.map Prod.fst).Nodup)
    {e : String × Nat} (he : e ∈ lut) : argsLUT.value lut e.1 = e.2 := by
  induction lut with
  | nil => cases he
  | cons x xs ih =>
    simp only [List.map_cons, List.nodup_cons] at hk
    unfold argsLUT.value
    rw [List.find?_cons]
    by_cases hx : x.1 = e.1
    · simp only [hx, beq_self_eq_true]
      rcases List.mem_cons.1 he with h | h
      · rw [h]
      · exact absurd (List.mem_map.2 ⟨e, h, hx.symm⟩) hk.1
    · have hx2 : (x.1 == e.1) = false := by simpa using hx
      simp only [hx2]
      rcases List.mem_cons.1 he with h | h
      · exact absurd (by rw [h]) hx
      · exact ih hk.2 h

theorem argsLUT_insert_absent {lut : List (String × Nat)} {a : String}
    (h : argsLUT.contains lut a = false) (uid : Nat) :
    argsLUT.insert lut a uid = (a, uid) :: lut := by
  unfold argsLUT.insert
  congr 1
  rw [List.filter_eq_self]
  intro e he
  have : ¬ ∃ e ∈ lut, e.1 = a := by
    rw [← argsLUT_contains_iff]; simp [h]
  simp only [bne_iff_ne, ne_eq]
  intro h1; exact this ⟨e, he, h1⟩

/-- The table after one call. -/
theorem mangledName_table (name args : String) (lut : List (String × Nat)) :
    (UnaryKernel.mangledName name args lut).1 =
      if argsLUT.contains lut args then lut else (args, lut.length) :: lut := by
  unfold UnaryKernel.mangledName
  simp only
  cases h : argsLUT.contains lut args
  · simp [argsLUT_insert_absent h]
  · simp

theorem argsLUT_ok_call (name args : String) {lut : List (String × Nat)} (h : argsLUT.Ok lut) :
    argsLUT.Ok (UnaryKernel.mangledName name args lut).1 := by
  rw [mangledName_table]
  cases hc : argsLUT.contains lut args
  · simp only [Bool.false_eq_true, if_false]
    obtain ⟨h1, h2, h3⟩ := h
    have hn : ¬ ∃ e ∈ lut, e.1 = args := by
      rw [← argsLUT_contains_iff]; simp [hc]
    refine ⟨?_, ?_, ?_⟩
    · simp only [List.map_cons, List.nodup_cons]
      refine ⟨?_, h1⟩
      intro hm
      obtain ⟨e, he, he1⟩ := List.mem_map.1 hm
      exact hn ⟨e, he, he1⟩
    · intro e he
      rcases List.mem_cons.1 he with rfl | he
      · simp
      · have := h2 e he
        simp only [List.length_cons]; omega
    · simp only [List.map_cons, List.nodup_cons]
      refine ⟨?_, h3⟩
      intro hm
      obtain ⟨e, he, he1⟩ := List.mem_map.1 hm
      have := h2 e he
      omega
  · simpa using h

theorem argsLUT_ok_after (calls : List (String × String)) :
    ∀ {lut : List (String × Nat)}, argsLUT.Ok lut → argsLUT.Ok (argsLUT.after calls lut) := by
  induction calls with
  | nil => intro lut h; exact h
  | cons c cs ih =>
    intro lut h
    exact ih (argsLUT_ok_call c.1 c.2 h)

theorem argsLUT_ok_nil : argsLUT.Ok [] := ⟨by simp, by simp, by simp⟩

theorem argsLUT_contains_call_self (name args : String) (lut : List (String × Nat)) :
    argsLUT.contains (UnaryKernel.mangledName name args lut).1 args = true := by
  rw [mangledName_table]
  cases hc : argsLUT.contains lut args
  · simp [argsLUT.contains]
  · simpa using hc

/-- A call keeps every entry of the table. -/
theorem argsLUT_mem_call (name args : String) {lut : List (String × Nat)} {e : String × Nat}
    (he : e ∈ lut) : e ∈ (UnaryKernel.mangledName name args lut).1 := by
  rw [mangledName_table]
  split
  · exact he
  · exact List.mem_cons_of_mem _ he

theorem argsLUT_mem_after (calls : List (String × String)) :
    ∀ {lut : List (String × Nat)} {e : String × Nat}, e ∈ lut → e ∈ argsLUT.after calls lut := by
  induction calls with
  | nil => intro lut e h; exact h
  | cons c cs ih =>
    intro lut e h
    exact ih (argsLUT_mem_call c.1 c.2 h)

/-- The identifier of an argument string the table holds survives later calls. -/
theorem argsLUT_value_after (calls : List (String × String)) {lut : List (String × Nat)}
    (hok : argsLUT.Ok lut) {a : String} (ha : argsLUT.contains lut a = true) :
    argsLUT.value (argsLUT.after calls lut) a = argsLUT.value lut a := by
  obtain ⟨e, he, rfl⟩ := (argsLUT_contains_iff lut a).1 ha
  rw [argsLUT_value_of_mem (argsLUT_ok_after calls hok).1 (argsLUT_mem_after calls he),
    argsLUT_value_of_mem hok.1 he]

theorem argsLUT_value_injective {lut : List (String × Nat)} (hok : argsLUT.Ok lut)
    {a b : String} (ha : argsLUT.contains lut a = true) (hb : argsLUT.contains lut b = true)
    (h : argsLUT.value lut a = argsLUT.value lut b) : a = b := by
  obtain ⟨e, he, rfl⟩ := (argsLUT_contains_iff lut a).1 ha
  obtain ⟨f, hf, rfl⟩ := (argsLUT_contains_iff lut b).1 hb
  rw [argsLUT_value_of_mem hok.1 he, argsLUT_value_of_mem hok.1 hf] at h
  have := List.inj_on_of_nodup_map hok.2.2 he hf h
  rw [this]

theorem toString_nat_ne_empty (n : Nat) : toString n ≠ "" := by
  intro h
  have hd : Nat.toDigits 10 n = [] := by
    rw [← toString_nat_data, h]
  have hv := toDigitsCore_value (n + 1) n [] (by omega)
  unfold Nat.toDigits at hd
  rw [hd] at hv
  simp only [List.foldl_nil] at hv
  subst hv
  exact absurd hd (by decide)

theorem toString_nat_injective {a b : Nat} (h : toString a = toString b) : a = b :=
  toDigits_injective (by rw [← toString_nat_data, ← toString_nat_data, h])

theorem string_append_left_cancel {p s t : String} (h : p ++ s = p ++ t) : s = t := by
  have hd := congrArg String.data h
  simp only [String.data_append] at hd
  exact String.ext (List.append_cancel_left hd)

theorem argsLUT_after_append (l1 l2 : List (String × String)) (lut : List (String × Nat)) :
    argsLUT.after (l1 ++ l2) lut = argsLUT.after l2 (argsLUT.after l1 lut) := by
  simp [argsLUT.after, List.foldl_append]

theorem argsLUT_contains_after (calls : List (String × String)) {lut : List (String × Nat)}
    {a : String} (ha : argsLUT.contains lut a = true) :
    argsLUT.contains (argsLUT.after calls lut) a = true := by
  obtain ⟨e, he, rfl⟩ := (argsLUT_contains_iff lut a).1 ha
  exact (argsLUT_contains_iff _ _).2 ⟨e, argsLUT_mem_after calls he, rfl⟩

/-- The identifier a call reads: the stored one, or the size of the table at
the first encounter. -/
theorem mangledName_uid (name args : String) (lut : List (String × Nat)) :
    argsLUT.value (UnaryKernel.mangledName name args lut).1 args =
      if argsLUT.contains lut args then argsLUT.value lut args else lut.length := by
  rw [mangledName_table]
  cases hc : argsLUT.contains lut args
  · simp [argsLUT.value]
  · simp

theorem mangledName_name (name args : String) (lut : List (String × Nat)) :
    (UnaryKernel.mangledName name args lut).2 =
      "jitcv_" ++ name ++ (if args.isEmpty then ""
        else toString (argsLUT.value (UnaryKernel.mangledName name args lut).1 args)) := rfl

/-- C14: within one kernel family, whatever calls of `mangledName()` came
before and in between, two instances get the same mangled name exactly when
their argument strings are equal; the identifier of an argument string is the
size of the table at its first encounter, later calls do not change it, and two
argument strings have the same identifier only if they are equal. -/
theorem mangledName_same_iff_args_equal (name a1 a2 : String)
    (before between : List (String × String)) :
    ((UnaryKernel.mangledName name a1 (argsLUT.after before [])).2 =
        (UnaryKernel.mangledName name a2
          (argsLUT.after between
            (UnaryKernel.mangledName name a1 (argsLUT.after before [])).1)).2 ↔ a1 = a2) ∧
    argsLUT.value (UnaryKernel.mangledName name a1 (argsLUT.after before [])).1 a1 =
      (if argsLUT.contains (argsLUT.after before []) a1
        then argsLUT.value (argsLUT.after before []) a1
        else (argsLUT.after before []).length) ∧
    argsLUT.value (UnaryKernel.mangledName name a2
        (argsLUT.after between
          (UnaryKernel.mangledName name a1 (argsLUT.after before [])).1)).1 a1 =
      argsLUT.value (UnaryKernel.mangledName name a1 (argsLUT.after before [])).1 a1 ∧
    (argsLUT.value (UnaryKernel.mangledName name a2
        (argsLUT.after between
          (UnaryKernel.mangledName name a1 (argsLUT.after before [])).1)).1 a1 =
      argsLUT.value (UnaryKernel.mangledName name a2
        (argsLUT.after between
          (UnaryKernel.mangledName name a1 (argsLUT.after before [])).1)).1 a2 ↔ a1 = a2) := by
  have hok0 : argsLUT.Ok (argsLUT.after before []) := argsLUT_ok_after before argsLUT_ok_nil
  have hok1 := argsLUT_ok_call name a1 hok0
  have hc1 := argsLUT_contains_call_self name a1 (argsLUT.after before [])
  have hafter : (UnaryKernel.mangledName name a2
        (argsLUT.after between
          (UnaryKernel.mangledName name a1 (argsLUT.after before [])).1)).1 =
      argsLUT.after (between ++ [(name, a2)])
        (UnaryKernel.mangledName name a1 (argsLUT.after before [])).1 := by
    rw [argsLUT_after_append]; rfl
  have hok2 : argsLUT.Ok (UnaryKernel.mangledName name a2
        (argsLUT.after between
          (UnaryKernel.mangledName name a1 (argsLUT.after before [])).1)).1 := by
    rw [hafter]; exact argsLUT_ok_after _ hok1
  have hkeep : argsLUT.value (UnaryKernel.mangledName name a2
        (argsLUT.after between
          (UnaryKernel.mangledName name a1 (argsLUT.after before [])).1)).1 a1 =
      argsLUT.value (UnaryKernel.mangledName name a1 (argsLUT.after before [])).1 a1 := by
    rw [hafter]; exact argsLUT_value_after _ hok1 hc1
  have hc21 : argsLUT.contains (UnaryKernel.mangledName name a2
        (argsLUT.after between
          (UnaryKernel.mangledName name a1 (argsLUT.after before [])).1)).1 a1 = true := by
    rw [hafter]; exact argsLUT_contains_after _ hc1
  have hc22 := argsLUT_contains_call_self name a2 (argsLUT.after between
          (UnaryKernel.mangledName name a1 (argsLUT.after before [])).1)
  have hinj : argsLUT.value (UnaryKernel.mangledName name a2
        (argsLUT.after between
          (UnaryKernel.mangledName name a1 (argsLUT.after before [])).1)).1 a1 =
      argsLUT.value (UnaryKernel.mangledName name a2
        (argsLUT.after between
          (UnaryKernel.mangledName name a1 (argsLUT.after before [])).1)).1 a2 ↔ a1 = a2 :=
    ⟨fun h => argsLUT_value_injective hok2 hc21 hc22 h, fun h => by rw [h]⟩
  refine ⟨?_, mangledName_uid _ _ _, hkeep, hinj⟩
  rw [mangledName_name name a1, mangledName_name name a2, ← hkeep]
  constructor
  · intro h
    have h := string_append_left_cancel h
    by_cases e1 : a1.isEmpty = true <;> by_cases e2 : a2.isEmpty = true
    · rw [String.isEmpty_iff] at e1 e2
      rw [e1, e2]
    · simp only [e1, e2, if_true, if_false] at h
      exact absurd h.symm (toString_nat_ne_empty _)
    · simp only [e1, e2, if_true, if_false] at h
      exact absurd h (toString_nat_ne_empty _)
    · simp only [e1, e2, if_false] at h
      exact hinj.1 (toString_nat_injective h)
  · intro h
    subst h
    rfl

/-- The argument-free name of an instance is the same at every later call,
whatever calls of other instances lie in between. -/
theorem mangledName_stable (name args : String) (before between : List (String × String)) :
    (UnaryKernel.mangledName name args
        (argsLUT.after between
          (UnaryKernel.mangledName name args (argsLUT.after before [])).1)).2 =
      (UnaryKernel.mangledName name args (argsLUT.after before [])).2 := by
  have hok0 : argsLUT.Ok (argsLUT.after before []) := argsLUT_ok_after before argsLUT_ok_nil
  have hok1 := argsLUT_ok_call name args hok0
  have hc1 := argsLUT_contains_call_self name args (argsLUT.after before [])
  have hafter : (UnaryKernel.mangledName name args
        (argsLUT.after between
          (UnaryKernel.mangledName name args (argsLUT.after before [])).1)).1 =
      argsLUT.after (between ++ [(name, args)])
        (UnaryKernel.mangledName name args (argsLUT.after before [])).1 := by
    rw [argsLUT_after_append]; rfl
  rw [mangledName_name name args, mangledName_name name args, hafter,
    argsLUT_value_after _ hok1 hc1]

theorem hash_eq_iff_fields (m n : Matrix) :
    m.hash = n.hash ↔
      (m.bits = n.bits ∧ m.isSigned = n.isSigned ∧ m.isFloating = n.isFloating ∧
        m.singleChannel = n.singleChannel ∧ m.singleColumn = n.singleColumn ∧
        m.singleRow = n.singleRow ∧ m.singleFrame = n.singleFrame) := by
  simp only [Matrix.bits, Matrix.isSigned, Matrix.isFloating, Matrix.singleChannel,
    Matrix.singleColumn, Matrix.singleRow, Matrix.singleFrame]
  constructor
  · intro h; rw [h]; simp
  · intro h
    cases hm : m.hash
    cases hn : n.hash
    simp_all

/-- C15: for a fixed kernel family and argument string, whatever calls lie
before and in between, two input matrices obtain the same specialisation name
from `mangledName(src)` exactly when they agree in element width, signedness,
floating flag and the four single-axis flags; `MatrixToString` prints the same
string for exactly those pairs. -/
theorem specialization_name_iff_fingerprint (name args : String)
    (before between : List (String × String)) (m n : Matrix) :
    (mangledName (UnaryKernel.mangledName name args (argsLUT.after before [])).2 m =
        mangledName (UnaryKernel.mangledName name args
          (argsLUT.after between
            (UnaryKernel.mangledName name args (argsLUT.after before [])).1)).2 n ↔
      (m.bits = n.bits ∧ m.isSigned = n.isSigned ∧ m.isFloating = n.isFloating ∧
        m.singleChannel = n.singleChannel ∧ m.singleColumn = n.singleColumn ∧
        m.singleRow = n.singleRow ∧ m.singleFrame = n.singleFrame)) ∧
    (MatrixToString m = MatrixToString n ↔
      (m.bits = n.bits ∧ m.isSigned = n.isSigned ∧ m.isFloating = n.isFloating ∧
        m.singleChannel = n.singleChannel ∧ m.singleColumn = n.singleColumn ∧
        m.singleRow = n.singleRow ∧ m.singleFrame = n.singleFrame)) := by
  rw [mangledName_stable, mangledName_eq_iff, hash_eq_iff_fields]
  exact ⟨Iff.rfl, ⟨fun h => (hash_eq_iff_fields m n).1 (MatrixToString_injective h),
    fun h => MatrixToString_congr ((hash_eq_iff_fields m n).2 h)⟩⟩

/-- C16 (failing input): `BinaryKernel::mangledName` does not read the
arguments, so two instances of one family with different argument strings get
the same specialisation name for the same pair of inputs; for the family `add`
with arguments `1` and `2` on a pair of `u8` matrices the first instance
compiles the function and the second, a fresh wrapper over the same module,
finds it by name, compiles nothing and calls the code of the first. -/
theorem binary_names_ignore_arguments :
    (∀ (name a1 a2 : String) (srcA srcB : Matrix),
      (BinaryKernel.mk name a1).mangledName srcA srcB =
        (BinaryKernel.mk name a2).mangledName srcA srcB) ∧
    (BinaryKernel.mk "add" "1").invoke (BinaryDispatch.init []) u8One u8One =
      some (⟨["jitcv_add_8ui1111_8ui1111"], some "jitcv_add_8ui1111_8ui1111",
        u8One.hash, u8One.hash, 1⟩, "jitcv_add_8ui1111_8ui1111") ∧
    (BinaryKernel.mk "add" "2").invoke (BinaryDispatch.init ["jitcv_add_8ui1111_8ui1111"])
        u8One u8One =
      some (⟨["jitcv_add_8ui1111_8ui1111"], some "jitcv_add_8ui1111_8ui1111",
        u8One.hash, u8One.hash, 0⟩, "jitcv_add_8ui1111_8ui1111") := by
  refine ⟨fun _ _ _ _ _ => rfl, ?_, ?_⟩ <;> decide

/-! ## The type of a pipeline -/

theorem typeRule_eq_spec (k : StitchableKernel) (h : Hash) : typeRule k h = typeRuleSpec k h := by
  cases k <;> rfl

theorem chainHash_eq_spec : ∀ (ps : List StitchableKernel) (h : Hash),
    chainHash ps h = chainHashSpec ps h := by
  intro ps
  induction ps with
  | nil => intro h; rfl
  | cons k ps ih =>
    intro h
    rw [chainHash, ih, typeRule_eq_spec]
    rfl

/-- C17 (counterexample): with the empty list of primitives (the default of the
`kernels` property) `stitchTransform::preallocate` leaves the destination as the
caller passed it and returns its element count: for the eight-element 2x2
two-channel source and a 1x1 destination the result is the 1x1 header and `1`. -/
theorem stitch_preallocate_empty_keeps_dst :
    stitchTransform.preallocate [] u8Cube u8One = (u8One, 1) ∧
    (stitchTransform.preallocate [] u8Cube u8One).1.channels ≠ u8Cube.channels ∧
    (stitchTransform.preallocate [] u8Cube u8One).2 ≠ u8Cube.elements := by
  decide

/-- C17 (amended): for every non-empty list of stitchable primitives and every
source header, `stitchTransform::preallocate` gives a destination with the four
extents of the source and the element type obtained by applying the type rule
of each primitive in list order (cast sets the requested type, pow makes it
floating with width `max(bits, 32)`, the others keep it), and returns the
element count of the source. -/
theorem stitch_preallocate_header (ps : List StitchableKernel) (hps : ps ≠ [])
    (src dst : Matrix) :
    (stitchTransform.preallocate ps src dst).1.channels = src.channels ∧
    (stitchTransform.preallocate ps src dst).1.columns = src.columns ∧
    (stitchTransform.preallocate ps src dst).1.rows = src.rows ∧
    (stitchTransform.preallocate ps src dst).1.frames = src.frames ∧
    (stitchTransform.preallocate ps src dst).1.hash = chainHashSpec ps src.hash ∧
    (stitchTransform.preallocate ps src dst).2 = src.elements := by
  rw [stitch_preallocate_eq ps hps, chainHash_eq_spec]
  exact ⟨rfl, rfl, rfl, rfl, rfl, rfl⟩

/-- The amended C17 at the pipeline `[cast(s16), pow(2)]` on the two-channel 2x2
`u8` source: extents 2, 2, 2, 1, type `f32`, eight elements. -/
theorem stitch_preallocate_header_witness :
    [StitchableKernel.castTransform .s16, StitchableKernel.powTransform (Dbl.ofInt 2)] ≠ [] ∧
    (stitchTransform.preallocate
        [StitchableKernel.castTransform .s16, StitchableKernel.powTransform (Dbl.ofInt 2)]
        u8Cube u8One).1.hash = ⟨32, true, true, false, false, false, true⟩ ∧
    (stitchTransform.preallocate
        [StitchableKernel.castTransform .s16, StitchableKernel.powTransform (Dbl.ofInt 2)]
        u8Cube u8One).2 = 8 := by
  have h := stitch_preallocate_header
    [StitchableKernel.castTransform .s16, StitchableKernel.powTransform (Dbl.ofInt 2)]
    (by decide) u8Cube u8One
  refine ⟨by decide, ?_, ?_⟩
  · rw [h.2.2.2.2.1]; decide
  · rw [h.2.2.2.2.2]; decide

/-! ## The type of a sum -/

/-- C18 (counterexample): a 64-bit unsigned integer source has a valid width, and
`sumTransform::preallocate` gives the destination the width `min(128, 32) = 32`,
narrower than the source. -/
theorem sum_preallocate_narrows_u64 :
    ValidWidth u64One ∧
    (sumTransform.preallocate true true true true u64One Matrix.null).1.bits = 32 ∧
    ¬ (u64One.bits ≤ (sumTransform.preallocate true true true true u64One Matrix.null).1.bits) := by
  refine ⟨?_, by decide, by decide⟩
  unfold ValidWidth
  decide

/-- C18 (amended): for a source element type of width 8, 16, 32 or 64 bits
`sumTransform::preallocate` gives the destination the width
`min(2 * bits, floating ? 64 : 32)`, which is again a valid width, with
signedness and floating flag unchanged; the destination is at least as wide as
the source except for a 64-bit integer source, whose destination is 32 bits
wide; a source type for which `MatrixBuilder::ty` has an LLVM type gives a
destination type that has one too. -/
theorem sum_preallocate_promotes (channels columns rows frames : Bool) (src dst : Matrix)
    (hw : src.bits = 8 ∨ src.bits = 16 ∨ src.bits = 32 ∨ src.bits = 64) :
    (sumTransform.preallocate channels columns rows frames src dst).1.bits =
      Nat.min (2 * src.bits) (if src.isFloating then 64 else 32) ∧
    ValidWidth (sumTransform.preallocate channels columns rows frames src dst).1 ∧
    (src.bits ≤ (sumTransform.preallocate channels columns rows frames src dst).1.bits ↔
      ¬ (src.bits = 64 ∧ src.isFloating = false)) ∧
    (sumTransform.preallocate channels columns rows frames src dst).1.isSigned = src.isSigned ∧
    (sumTransform.preallocate channels columns rows frames src dst).1.isFloating
      = src.isFloating ∧
    ((MatrixBuilder.ty src).isSome = true →
      (MatrixBuilder.ty
        (sumTransform.preallocate channels columns rows frames src dst).1).isSome = true) := by
  have hb : (sumTransform.preallocate channels columns rows frames src dst).1.bits =
      Nat.min (2 * src.bits) (if src.isFloating then 64 else 32) := rfl
  have hf : (sumTransform.preallocate channels columns rows frames src dst).1.isFloating
      = src.isFloating := rfl
  refine ⟨hb, ?_, ?_, rfl, hf, ?_⟩
  · unfold ValidWidth
    rw [hb]
    cases hfl : src.isFloating <;> rcases hw with h | h | h | h <;>
      simp_all
  · rw [hb]
    cases hfl : src.isFloating <;> rcases hw with h | h | h | h <;>
      simp_all
  · unfold MatrixBuilder.ty
    rw [hb, hf]
    cases hfl : src.isFloating <;> rcases hw with h | h | h | h <;>
      simp_all

/-- The amended C18 at the 2x2 `s8` image summed over all axes: the destination
is 16 bits wide, signed and not floating. -/
theorem sum_preallocate_promotes_witness :
    (s8M.bits = 8 ∨ s8M.bits = 16 ∨ s8M.bits = 32 ∨ s8M.bits = 64) ∧
    (sumTransform.preallocate true true true true s8M Matrix.null).1.bits = 16 ∧
    (sumTransform.preallocate true true true true s8M Matrix.null).1.isSigned = true ∧
    (sumTransform.preallocate true true true true s8M Matrix.null).1.isFloating = false :=
  have h := sum_preallocate_promotes true true true true s8M Matrix.null (Or.inl rfl)
  ⟨Or.inl rfl, h.1.trans (by decide), h.2.2.2.1.trans (by decide), h.2.2.2.2.1.trans (by decide)⟩

/-! ## Wrapping an image -/

theorem MatrixFromMat_some (mat : Mat) (m : Matrix) (h : MatrixFromMat mat = some m) :
    mat.isContinuous = true ∧
    ∃ t : CastType, m = ⟨mat.channels, mat.cols, mat.rows, 1, Matrix.typeHash t, mat.data⟩ ∧
      ((mat.depth = CV_8U ∧ t = .u8) ∨ (mat.depth = CV_8S ∧ t = .s8) ∨
       (mat.depth = CV_16U ∧ t = .u16) ∨ (mat.depth = CV_16S ∧ t = .s16) ∨
       (mat.depth = CV_32S ∧ t = .s32) ∨ (mat.depth = CV_32F ∧ t = .f32) ∨
       (mat.depth = CV_64F ∧ t = .f64)) := by
  unfold MatrixFromMat at h
  cases hc : mat.isContinuous
  · simp [hc] at h
  · refine ⟨rfl, ?_⟩
    simp only [hc, Bool.not_true, Bool.false_eq_true, if_false] at h
    split_ifs at h with h0 h1 h2 h3 h4 h5 h6
    · exact ⟨.u8, (Option.some.inj h).symm, by simp [h0]⟩
    · exact ⟨.s8, (Option.some.inj h).symm, by simp [h1]⟩
    · exact ⟨.u16, (Option.some.inj h).symm, by simp [h2]⟩
    · exact ⟨.s16, (Option.some.inj h).symm, by simp [h3]⟩
    · exact ⟨.s32, (Option.some.inj h).symm, by simp [h4]⟩
    · exact ⟨.f32, (Option.some.inj h).symm, by simp [h5]⟩
    · exact ⟨.f64, (Option.some.inj h).symm, by simp [h6]⟩

/-- C19 (counterexample): the wrapped 2x2 one-channel `u8` image has one frame
and one channel, yet neither `singleFrame` nor `singleChannel` is set, so the
fingerprint invariant fails; its hash is that of the wrapped three-channel
image, so the flags do not follow the extents. -/
theorem MatrixFromMat_gray_breaks_invariant :
    (∃ m : Matrix, MatrixFromMat grayImage = some m ∧ m.frames = 1 ∧ m.channels = 1 ∧
      m.singleFrame = false ∧ m.singleChannel = false ∧ ¬ FingerprintInvariant m) ∧
    (MatrixFromMat grayImage).map Matrix.hash = (MatrixFromMat colorImage).map Matrix.hash := by
  refine ⟨⟨⟨1, 2, 2, 1, Matrix.typeHash .u8, [10, 20, 30, 40]⟩, by decide, rfl, rfl, rfl, rfl, ?_⟩,
    by decide⟩
  intro h
  exact absurd (h.2.2.2.2 rfl) (by decide)

/-- C19 (amended): every matrix produced by `MatrixFromMat` has one frame and
none of the four single-axis flags set, so each flag is set only if the extent
of its axis is one. -/
theorem MatrixFromMat_flags_clear (mat : Mat) (m : Matrix) (h : MatrixFromMat mat = some m) :
    m.frames = 1 ∧
    m.singleChannel = false ∧ m.singleColumn = false ∧ m.singleRow = false ∧
    m.singleFrame = false ∧
    (m.singleChannel = true → m.channels = 1) ∧ (m.singleColumn = true → m.columns = 1) ∧
    (m.singleRow = true → m.rows = 1) ∧ (m.singleFrame = true → m.frames = 1) := by
  obtain ⟨_, t, rfl, _⟩ := MatrixFromMat_some mat m h
  simp [Matrix.singleChannel, Matrix.singleColumn, Matrix.singleRow, Matrix.singleFrame,
    Matrix.typeHash]

/-- The amended C19 at the 2x2 one-channel `u8` image. -/
theorem MatrixFromMat_flags_clear_witness :
    MatrixFromMat grayImage =
      some ⟨1, 2, 2, 1, Matrix.typeHash .u8, [10, 20, 30, 40]⟩ ∧
    (Matrix.mk 1 2 2 1 (Matrix.typeHash .u8) [10, 20, 30, 40]).singleFrame = false :=
  ⟨by decide, (MatrixFromMat_flags_clear grayImage
    ⟨1, 2, 2, 1, Matrix.typeHash .u8, [10, 20, 30, 40]⟩ (by decide)).2.2.2.2.1⟩

/-- C20: `MatrixFromMat` is fatal exactly when the image buffer is not continuous
or its depth is none of `CV_8U`, `CV_8S`, `CV_16U`, `CV_16S`, `CV_32S`, `CV_32F`,
`CV_64F`; otherwise it returns the header with the channels, columns and rows
of the image, one frame, the buffer of the image, and the element type `u8`,
`s8`, `u16`, `s16`, `s32`, `f32` or `f64` respectively. -/
theorem MatrixFromMat_fails_iff (mat : Mat) :
    (MatrixFromMat mat = none ↔
      (mat.isContinuous = false ∨
        (mat.depth ≠ CV_8U ∧ mat.depth ≠ CV_8S ∧ mat.depth ≠ CV_16U ∧ mat.depth ≠ CV_16S ∧
         mat.depth ≠ CV_32S ∧ mat.depth ≠ CV_32F ∧ mat.depth ≠ CV_64F))) ∧
    (∀ m : Matrix, MatrixFromMat mat = some m →
      m.channels = mat.channels ∧ m.columns = mat.cols ∧ m.rows = mat.rows ∧ m.frames = 1 ∧
      m.data = mat.data ∧
      ((mat.depth = CV_8U ∧ m.type = CastType.u8.toType) ∨
       (mat.depth = CV_8S ∧ m.type = CastType.s8.toType) ∨
       (mat.depth = CV_16U ∧ m.type = CastType.u16.toType) ∨
       (mat.depth = CV_16S ∧ m.type = CastType.s16.toType) ∨
       (mat.depth = CV_32S ∧ m.type = CastType.s32.toType) ∨
       (mat.depth = CV_32F ∧ m.type = CastType.f32.toType) ∨
       (mat.depth = CV_64F ∧ m.type = CastType.f64.toType))) := by
  constructor
  · unfold MatrixFromMat
    cases hc : mat.isContinuous
    · simp
    · simp only [Bool.not_true, Bool.false_eq_true, if_false, false_or]
      split_ifs <;> simp_all
  · intro m h
    obtain ⟨_, t, rfl, ht⟩ := MatrixFromMat_some mat m h
    refine ⟨rfl, rfl, rfl, rfl, rfl, ?_⟩
    rcases ht with ⟨h1, rfl⟩ | ⟨h1, rfl⟩ | ⟨h1, rfl⟩ | ⟨h1, rfl⟩ | ⟨h1, rfl⟩ | ⟨h1, rfl⟩ | ⟨h1, rfl⟩
    · exact Or.inl ⟨h1, rfl⟩
    · exact Or.inr (Or.inl ⟨h1, rfl⟩)
    · exact Or.inr (Or.inr (Or.inl ⟨h1, rfl⟩))
    · exact Or.inr (Or.inr (Or.inr (Or.inl ⟨h1, rfl⟩)))
    · exact Or.inr (Or.inr (Or.inr (Or.inr (Or.inl ⟨h1, rfl⟩))))
    · exact Or.inr (Or.inr (Or.inr (Or.inr (Or.inr (Or.inl ⟨h1, rfl⟩)))))
    · exact Or.inr (Or.inr (Or.inr (Or.inr (Or.inr (Or.inr ⟨h1, rfl⟩)))))

/-- C20 at concrete images: the continuous `u8` image is wrapped as a `u8`
header with one frame, a buffer that is not continuous is fatal, and so is a
depth code outside the seven. -/
theorem MatrixFromMat_fails_iff_witness :
    MatrixFromMat grayImage = some ⟨1, 2, 2, 1, Matrix.typeHash .u8, [10, 20, 30, 40]⟩ ∧
    MatrixFromMat ⟨false, 1, 2, 2, CV_8U, [10, 20, 30, 40]⟩ = none ∧
    MatrixFromMat ⟨true, 1, 2, 2, 7, [10, 20, 30, 40]⟩ = none :=
  ⟨by decide,
   (MatrixFromMat_fails_iff ⟨false, 1, 2, 2, CV_8U, [10, 20, 30, 40]⟩).1.2 (Or.inl rfl),
   (MatrixFromMat_fails_iff ⟨true, 1, 2, 2, 7, [10, 20, 30, 40]⟩).1.2
     (Or.inr (by decide))⟩

/-! ## The counted loop: limits zero and positive -/

theorem loopFrom_zero_limit {σ : Type} (body : Nat → σ → σ) :
    ∀ (k fuel j : Nat) (s : σ), j + k + 1 = 2 ^ 32 → k < fuel →
      loopFrom body 0 fuel j s = (List.range' j (k + 1)).foldl (fun s i => body i s) s := by
  intro k
  induction k with
  | zero =>
    intro fuel j s hj hf
    obtain ⟨fuel, rfl⟩ : ∃ f, fuel = f + 1 := ⟨fuel - 1, by omega⟩
    have : add32 j 1 = 0 := by
      unfold add32
      have : j + 1 = 2 ^ 32 := by omega
      rw [this, Nat.mod_self]
    simp [loopFrom, this]
  | succ k ih =>
    intro fuel j s hj hf
    obtain ⟨fuel, rfl⟩ : ∃ f, fuel = f + 1 := ⟨fuel - 1, by omega⟩
    have h1 : add32 j 1 = j + 1 := by
      unfold add32; exact Nat.mod_eq_of_lt (by omega)
    have h2 : j + 1 ≠ 0 := by omega
    rw [loopFrom]
    simp only [h1, h2, ne_eq, not_false_eq_true, if_true]
    rw [ih fuel (j + 1) (body j s) (by omega) (by omega)]
    rw [List.range'_succ j (k + 1)]
    rfl

theorem loop_zero_limit {σ : Type} (body : Nat → σ → σ) (s : σ) :
    loop body 0 s = (List.range (2 ^ 32)).foldl (fun s i => body i s) s := by
  unfold loop
  rw [loopFrom_zero_limit body (2 ^ 32 - 1) (2 ^ 32) 0 s (by omega) (by omega)]
  rw [List.range_eq_range']
  congr 2

theorem foldl_count_range (n : Nat) (a : Nat) :
    (List.range n).foldl (fun s _ => s + 1) a = a + n := by
  induction n with
  | zero => rfl
  | succ n ih => rw [List.range_succ, List.foldl_append, ih]; simp; omega

theorem foldl_trace_range (n : Nat) :
    (List.range n).foldl (fun (l : List Nat) i => l ++ [i]) [] = List.range n := by
  induction n with
  | zero => rfl
  | succ n ih => rw [List.range_succ, List.foldl_append, ih]; rfl

/-- C27 (counterexample): with limit zero the body of the emitted loop is
executed, first with index zero, and the exit test `increment != limit` only
fails when the 32-bit counter has wrapped: the body runs `2^32` times. -/
theorem loop_zero_limit_runs_body :
    loopCount 0 = 2 ^ 32 ∧ loopCount 0 ≠ 0 ∧ (loopTrace 0).head? = some 0 := by
  have hc : loopCount 0 = 2 ^ 32 := by
    unfold loopCount
    rw [loop_zero_limit, foldl_count_range]
    omega
  refine ⟨hc, by rw [hc]; exact Nat.pos_iff_ne_zero.1 (Nat.two_pow_pos 32), ?_⟩
  unfold loopTrace
  rw [loop_zero_limit, foldl_trace_range, List.range_eq_range']
  rw [show (2 : Nat) ^ 32 = (2 ^ 32 - 1) + 1 from by omega, List.range'_succ]
  rfl

/-- C27 (amended): for every 32-bit limit of at least one, the emitted loop
executes its body exactly `limit` times, the induction variable taking the
values `0, 1, ..., limit-1` in that order, and then exits; for every body the
loop is the fold of the body over these values. -/
theorem loop_runs_limit_times {σ : Type} (body : Nat → σ → σ) (s : σ) (limit : Nat)
    (h0 : 1 ≤ limit) (hl : limit < 2 ^ 32) :
    loopCount limit = limit ∧ loopTrace limit = List.range limit ∧
    loop body limit s = (List.range limit).foldl (fun s i => body i s) s := by
  refine ⟨?_, ?_, loop_eq_foldl body limit s h0 hl⟩
  · unfold loopCount
    rw [loop_eq_foldl _ limit 0 h0 hl, foldl_count_range]
    omega
  · unfold loopTrace
    rw [loop_eq_foldl _ limit [] h0 hl, foldl_trace_range]

/-- The amended C27 at the limit one million. -/
theorem loop_runs_limit_times_witness :
    1 ≤ 1000000 ∧ 1000000 < 2 ^ 32 ∧ loopCount 1000000 = 1000000 ∧
    loopTrace 1000000 = List.range 1000000 :=
  have h := loop_runs_limit_times (fun _ (n : Nat) => n) 0 1000000 (by omega) (by omega)
  ⟨by omega, by omega, h.1, h.2.1⟩

/-! ## Alias steps -/

/-- C28 (failing input): for the 2x2 two-channel `u8` source and the destination
header `sumTransform::preallocate` derives for a sum over the channels, the
aliased index of the in-range source coordinate `(c, x, y, f) = (0, 0, 1, 0)`
is `2` and the plain index is `4`: the source columns equal the destination
columns, so `aliasRowStep` takes the row step of the destination, `2 * 1`,
where the row step of the source is `2 * 2`. -/
theorem aliasIndex_differs_from_index :
    InRange u8Cube 0 0 1 0 ∧
    (sumTransform.preallocate true false false false u8Cube Matrix.null).1.columns
      = u8Cube.columns ∧
    (MatrixBuilder.mk u8Cube u8Cube).aliasIndex
      (MatrixBuilder.mk (sumTransform.preallocate true false false false u8Cube Matrix.null).1
        (sumTransform.preallocate true false false false u8Cube Matrix.null).1) 0 0 1 0 = 2 ∧
    (MatrixBuilder.mk u8Cube u8Cube).index 0 0 1 0 = 4 ∧
    (MatrixBuilder.mk u8Cube u8Cube).aliasRowStep
      (MatrixBuilder.mk (sumTransform.preallocate true false false false u8Cube Matrix.null).1
        (sumTransform.preallocate true false false false u8Cube Matrix.null).1) = 2 ∧
    (MatrixBuilder.mk u8Cube u8Cube).rowStep = 4 := by
  refine ⟨?_, by decide, by decide, by decide, by decide, by decide⟩
  unfold InRange
  decide

/-! ## The emitted preallocation -/

/-- C29 (failing input): for `square` on the 2x2 two-channel `u8` image and a
1x1 destination, the header the emitted preallocation writes keeps the
destination column count `1` where the host `preallocate` gives `2`, and the
kernel length it returns is `4` where the destination has `8` elements; for
`cast(f32)` the emitted header keeps the source type `u8` where the host gives
`f32`. -/
theorem trampoline_preallocate_keeps_columns :
    (StitchableKernel.squareTransform.trampolinePreallocate u8Image u8Image u8One).1.columns = 1 ∧
    (StitchableKernel.squareTransform.preallocate u8Image u8One).1.columns = 2 ∧
    (StitchableKernel.squareTransform.trampolinePreallocate u8Image u8Image u8One).2 = 4 ∧
    (StitchableKernel.squareTransform.preallocate u8Image u8One).2 = 8 ∧
    ((StitchableKernel.castTransform .f32).trampolinePreallocate u8Image u8Image u8One).1.type
      = CastType.u8.toType ∧
    ((StitchableKernel.castTransform .f32).preallocate u8Image u8One).1.type
      = CastType.f32.toType ∧
    (∀ (k : StitchableKernel) (m src dst : Matrix),
      (k.trampolinePreallocate m src dst).1.columns = dst.columns ∧
      (k.trampolinePreallocate m src dst).1.hash = src.hash) := by
  refine ⟨by decide, by decide, by decide, by decide, by decide, by decide, ?_⟩
  intro k m src dst
  exact ⟨rfl, rfl⟩

/-! ## What a stitch pipeline accepts -/

theorem stitch_init_iff (kernels : List Transform) :
    stitchTransform.init kernels = some () ↔
      ∀ t ∈ kernels, ∃ k : StitchableKernel, t = Transform.stitchable k := by
  induction kernels with
  | nil => simp [stitchTransform.init]
  | cons t ts ih =>
    unfold stitchTransform.init
    cases t with
    | stitchable k => simp [Transform.isStitchableKernel, ih]
    | stitchTransform ks => simp [Transform.isStitchableKernel]
    | sumTransform a b c d => simp [Transform.isStitchableKernel]
    | other n => simp [Transform.isStitchableKernel]

/-- C30 (counterexample): initialising `stitch([stitch([add(1)]), scale(2)])` is
fatal, although the inner pipeline `stitch([add(1)])` initialises. -/
theorem stitch_init_rejects_nested_stitch :
    stitchTransform.init nestedStitch = none ∧
    stitchTransform.init [.stitchable (.addTransform (Dbl.ofInt 1))] = some () := by
  constructor <;> rfl

/-- C30 (amended): a stitch node is not itself a stitchable primitive:
initialising a stitch pipeline succeeds exactly when every element of the
kernel list is one of the stitchable primitives, and is fatal exactly when
some element is any other kernel, such as `sum` or a stitch pipeline. -/
theorem stitch_init_accepts_primitives_only (kernels : List Transform) :
    (stitchTransform.init kernels = some () ↔
      ∀ t ∈ kernels, ∃ k : StitchableKernel, t = Transform.stitchable k) ∧
    (stitchTransform.init kernels = none ↔
      ∃ t ∈ kernels, ∀ k : StitchableKernel, t ≠ Transform.stitchable k) ∧
    (∀ (ks : List Transform) (c x y f : Bool) (pre post : List Transform),
      stitchTransform.init (pre ++ Transform.stitchTransform ks :: post) = none ∧
      stitchTransform.init (pre ++ Transform.sumTransform c x y f :: post) = none) := by
  have hnone : ∀ ks : List Transform, stitchTransform.init ks = none ↔
      ∃ t ∈ ks, ∀ k : StitchableKernel, t ≠ Transform.stitchable k := by
    intro ks
    have h := stitch_init_iff ks
    constructor
    · intro hn
      by_contra hc
      push_neg at hc
      have := h.2 hc
      rw [hn] at this
      exact absurd this (by simp)
    · rintro ⟨t, ht, hk⟩
      cases hi : stitchTransform.init ks with
      | none => rfl
      | some u =>
        obtain ⟨k, rfl⟩ := h.1 hi t ht
        exact absurd rfl (hk k)
  refine ⟨stitch_init_iff kernels, hnone kernels, ?_⟩
  intro ks c x y f pre post
  constructor
  · exact (hnone _).2 ⟨_, List.mem_append_right _ (List.mem_cons_self _ _), fun k h => by cases h⟩
  · exact (hnone _).2 ⟨_, List.mem_append_right _ (List.mem_cons_self _ _), fun k h => by cases h⟩

/-! ## Concatenating a template -/

/-- C26 (failing input): for a template of one 1x1 one-channel image of depth
`CV_64F`, `Cat::project` allocates `4` bytes (one `CV_32FC1` element) and copies
`8` bytes into them. -/
theorem cat_overflows_for_double :
    (Cat.project [doubleImage]).capacity = 4 ∧
    (Cat.project [doubleImage]).copies = [(0, 8)] ∧
    (Cat.project [doubleImage]).offset = 8 ∧
    ¬ ((Cat.project [doubleImage]).offset ≤ (Cat.project [doubleImage]).capacity) := by
  decide

/-! ## `MinMax` -/

namespace Common

/-- What the state of the loop of `MinMax` satisfies after the elements `pre`. -/
theorem MinMax_loop_spec {T : Type} [LinearOrder T] :
    ∀ (rest pre : List T) (mn mx : T) (mi ma : Nat),
      (∀ v ∈ pre, mn ≤ v ∧ v ≤ mx) → pre[mi]? = some mn → pre[ma]? = some mx →
      (∀ j, j < mi → pre[j]? ≠ some mn) → (∀ j, j < ma → pre[j]? ≠ some mx) →
      ∃ mn1 mx1 mi1 ma1,
        MinMax.loop rest pre.length (mn, mx, mi, ma) = (mn1, mx1, mi1, ma1) ∧
        (∀ v ∈ pre ++ rest, mn1 ≤ v ∧ v ≤ mx1) ∧
        (pre ++ rest)[mi1]? = some mn1 ∧ (pre ++ rest)[ma1]? = some mx1 ∧
        (∀ j, j < mi1 → (pre ++ rest)[j]? ≠ some mn1) ∧
        (∀ j, j < ma1 → (pre ++ rest)[j]? ≠ some mx1) := by
  intro rest
  induction rest with
  | nil =>
    intro pre mn mx mi ma h1 h2 h3 h4 h5
    exact ⟨mn, mx, mi, ma, rfl, by simpa using h1, by simpa using h2, by simpa using h3,
      by simpa using h4, by simpa using h5⟩
  | cons val rest ih =>
    intro pre mn mx mi ma h1 h2 h3 h4 h5
    have hmi : mi < pre.length := by
      by_contra hc
      rw [List.getElem?_eq_none (by omega)] at h2
      cases h2
    have hma : ma < pre.length := by
      by_contra hc
      rw [List.getElem?_eq_none (by omega)] at h3
      cases h3
    have hmnmx : mn ≤ mx := by
      have := h1 mn (List.getElem?_mem h2)
      exact this.2
    have hlen : (pre ++ [val]).length = pre.length + 1 := by simp
    have happ : pre ++ val :: rest = (pre ++ [val]) ++ rest := by simp
    have hget : ∀ j, j < pre.length → (pre ++ [val])[j]? = pre[j]? := by
      intro j hj
      exact List.getElem?_append_left hj
    have hlast : (pre ++ [val])[pre.length]? = some val := by
      simp
    unfold MinMax.loop
    by_cases c1 : val < mn
    · simp only [c1, if_true]
      rw [happ, ← hlen]
      apply ih (pre ++ [val]) val mx pre.length ma
      · intro v hv
        rcases List.mem_append.1 hv with hv | hv
        · exact ⟨le_of_lt (lt_of_lt_of_le c1 (h1 v hv).1), (h1 v hv).2⟩
        · simp only [List.mem_singleton] at hv
          subst hv
          exact ⟨le_refl _, le_trans (le_of_lt c1) hmnmx⟩
      · exact hlast
      · rw [hget ma hma]; exact h3
      · intro j hj
        rw [hget j hj]
        intro hc
        have := (h1 val (List.getElem?_mem hc)).1
        exact absurd c1 (not_lt.2 this)
      · intro j hj
        rw [hget j (by omega)]
        exact h5 j hj
    · simp only [c1, if_false]
      by_cases c2 : mx < val
      · simp only [c2, if_true]
        rw [happ, ← hlen]
        apply ih (pre ++ [val]) mn val mi pre.length
        · intro v hv
          rcases List.mem_append.1 hv with hv | hv
          · exact ⟨(h1 v hv).1, le_of_lt (lt_of_le_of_lt (h1 v hv).2 c2)⟩
          · simp only [List.mem_singleton] at hv
            subst hv
            exact ⟨not_lt.1 c1, le_refl _⟩
        · rw [hget mi hmi]; exact h2
        · exact hlast
        · intro j hj
          rw [hget j (by omega)]
          exact h4 j hj
        · intro j hj
          rw [hget j hj]
          intro hc
          have := (h1 val (List.getElem?_mem hc)).2
          exact absurd c2 (not_lt.2 this)
      · simp only [c2, if_false]
        rw [happ, ← hlen]
        apply ih (pre ++ [val]) mn mx mi ma
        · intro v hv
          rcases List.mem_append.1 hv with hv | hv
          · exact h1 v hv
          · simp only [List.mem_singleton] at hv
            subst hv
            exact ⟨not_lt.1 c1, not_lt.1 c2⟩
        · rw [hget mi hmi]; exact h2
        · rw [hget ma hma]; exact h3
        · intro j hj
          rw [hget j (by omega)]
          exact h4 j hj
        · intro j hj
          rw [hget j (by omega)]
          exact h5 j hj

theorem MinMax_spec {T : Type} [LinearOrder T] (vals : List T) (hne : vals ≠ []) :
    ∃ mn mx mi ma, MinMax vals = some (mn, mx, mi, ma) ∧
      (∀ v ∈ vals, mn ≤ v ∧ v ≤ mx) ∧ vals[mi]? = some mn ∧ vals[ma]? = some mx ∧
      (∀ j, j < mi → vals[j]? ≠ some mn) ∧ (∀ j, j < ma → vals[j]? ≠ some mx) := by
  cases vals with
  | nil => exact absurd rfl hne
  | cons v0 rest =>
    obtain ⟨mn, mx, mi, ma, h, hr⟩ := MinMax_loop_spec rest [v0] v0 v0 0 0
      (by simp) rfl rfl (by intro j hj; omega) (by intro j hj; omega)
    exact ⟨mn, mx, mi, ma, by simpa [MinMax] using h, hr⟩

/-- C22: for every non-empty list, `MinMax` returns `min`, `max`, `min_index` and
`max_index` with `min <= v <= max` for every element `v`, `vals[min_index] = min`
and `vals[max_index] = max`, and no earlier position holds `min` or `max`
respectively. -/
theorem MinMax_bounds_and_first_indices {T : Type} [LinearOrder T] (vals : List T)
    (hne : vals ≠ []) :
    ∃ min max min_index max_index,
      MinMax vals = some (min, max, min_index, max_index) ∧
      (∀ v ∈ vals, min ≤ v ∧ v ≤ max) ∧
      vals[min_index]? = some min ∧ vals[max_index]? = some max ∧
      (∀ j, j < min_index → vals[j]? ≠ some min) ∧
      (∀ j, j < max_index → vals[j]? ≠ some max) :=
  MinMax_spec vals hne

/-- C22 at the list `[3, 1, 2, 1, 5, 5]`: minimum `1` first at index `1`, maximum
`5` first at index `4`. -/
theorem MinMax_bounds_and_first_indices_witness :
    ([3, 1, 2, 1, 5, 5] : List Int) ≠ [] ∧
    MinMax ([3, 1, 2, 1, 5, 5] : List Int) = some (1, 5, 1, 4) ∧
    ∃ min max min_index max_index,
      MinMax ([3, 1, 2, 1, 5, 5] : List Int) = some (min, max, min_index, max_index) ∧
      (∀ v ∈ ([3, 1, 2, 1, 5, 5] : List Int), min ≤ v ∧ v ≤ max) :=
  have h := MinMax_bounds_and_first_indices ([3, 1, 2, 1, 5, 5] : List Int) (by decide)
  ⟨by decide, by decide, by
    obtain ⟨a, b, c, d, h1, h2, _⟩ := h
    exact ⟨a, b, c, d, h1, h2⟩⟩

end Common

namespace Common

/-! ## `Sort` -/

theorem swap_length {α : Type} (l : List α) (i j : Nat) : (swap l i j).length = l.length := by
  unfold swap
  split <;> simp

theorem swap_getElem? {α : Type} (l : List α) (i j : Nat) (hi : i < l.length) (hj : j < l.length)
    (p : Nat) :
    (swap l i j)[p]? = if p = j then l[i]? else if p = i then l[j]? else l[p]? := by
  unfold swap
  rw [List.getElem?_eq_getElem hi, List.getElem?_eq_getElem hj]
  simp only
  rw [List.getElem?_set]
  by_cases h1 : j = p
  · subst h1
    simp [hj]
  · have h1b : ¬ p = j := fun h => h1 h.symm
    simp only [h1, h1b, if_false]
    rw [List.getElem?_set]
    by_cases h2 : i = p
    · subst h2
      simp [hi]
    · have h2b : ¬ p = i := fun h => h2 h.symm
      simp [h2, h2b]

/-- The swaps of `Sort` for the descending order, after `k` rounds. -/
theorem swaps_getElem? {α : Type} (l : List α) :
    ∀ k, 2 * k ≤ l.length →
      ((List.range k).foldl (fun pairs k => swap pairs k (l.length - (1 + k))) l).length
          = l.length ∧
      ∀ p, p < l.length →
        ((List.range k).foldl (fun pairs k => swap pairs k (l.length - (1 + k))) l)[p]? =
          if p < k ∨ l.length - k ≤ p then l[l.length - 1 - p]? else l[p]? := by
  intro k
  induction k with
  | zero =>
    intro _
    refine ⟨rfl, ?_⟩
    intro p hp
    simp only [List.range_zero, List.foldl_nil]
    rw [if_neg (by omega)]
  | succ k ih =>
    intro hk
    obtain ⟨hlen, hget⟩ := ih (by omega)
    rw [List.range_succ, List.foldl_append]
    simp only [List.foldl_cons, List.foldl_nil]
    refine ⟨by rw [swap_length, hlen], ?_⟩
    intro p hp
    rw [swap_getElem? _ _ _ (by omega) (by omega)]
    by_cases c1 : p = l.length - (1 + k)
    · rw [if_pos c1, hget k (by omega), if_neg (by omega), if_pos (by omega)]
      congr 1
      omega
    · rw [if_neg c1]
      by_cases c2 : p = k
      · rw [if_pos c2, hget _ (by omega), if_neg (by omega), if_pos (by omega)]
        congr 1
        omega
      · rw [if_neg c2, hget p hp]
        by_cases c3 : p < k ∨ l.length - k ≤ p
        · rw [if_pos c3, if_pos (by omega)]
        · rw [if_neg c3, if_neg (by omega)]

theorem swaps_eq_reverse {α : Type} (l : List α) :
    (List.range (l.length / 2)).foldl (fun pairs k => swap pairs k (l.length - (1 + k))) l
      = l.reverse := by
  obtain ⟨hlen, hget⟩ := swaps_getElem? l (l.length / 2) (by omega)
  apply List.ext_getElem?
  intro p
  by_cases hp : p < l.length
  · rw [hget p hp, List.getElem?_reverse hp]
    by_cases c : p < l.length / 2 ∨ l.length - l.length / 2 ≤ p
    · rw [if_pos c]
    · rw [if_neg c]
      congr 1
      omega
  · rw [List.getElem?_eq_none (by omega), List.getElem?_eq_none (by simp; omega)]

theorem pairLt_iff {T : Type} [LinearOrder T] (p q : T × Nat) :
    pairLt p q = true ↔ p.1 < q.1 ∨ (p.1 = q.1 ∧ p.2 < q.2) := by
  unfold pairLt
  simp only [Bool.or_eq_true, Bool.and_eq_true, decide_eq_true_eq, Bool.not_eq_true',
    decide_eq_false_iff_not]
  constructor
  · rintro (h | ⟨h1, h2⟩)
    · exact Or.inl h
    · rcases lt_or_eq_of_le (not_lt.1 h1) with h | h
      · exact Or.inl h
      · exact Or.inr ⟨h, h2⟩
  · rintro (h | ⟨h1, h2⟩)
    · exact Or.inl h
    · exact Or.inr ⟨by rw [h1]; exact lt_irrefl _, h2⟩

theorem pairLe_iff {T : Type} [LinearOrder T] (p q : T × Nat) :
    pairLt q p = false ↔ p.1 < q.1 ∨ (p.1 = q.1 ∧ p.2 ≤ q.2) := by
  rw [← Bool.not_eq_true, pairLt_iff]
  constructor
  · intro h
    push_neg at h
    rcases lt_trichotomy p.1 q.1 with c | c | c
    · exact Or.inl c
    · exact Or.inr ⟨c, h.2 c.symm⟩
    · exact absurd c (not_lt.2 h.1)
  · rintro (h | ⟨h1, h2⟩) hc
    · rcases hc with c | ⟨c, _⟩
      · exact absurd h (lt_asymm c)
      · rw [c] at h; exact lt_irrefl _ h
    · rcases hc with c | ⟨_, c⟩
      · rw [h1] at c; exact lt_irrefl _ c
      · omega

theorem pairLe_total {T : Type} [LinearOrder T] :
    IsTotal (T × Nat) (fun a b => pairLt b a = false) :=
  ⟨fun a b => by
    simp only [pairLe_iff]
    rcases lt_trichotomy a.1 b.1 with c | c | c
    · exact Or.inl (Or.inl c)
    · rcases le_total a.2 b.2 with d | d
      · exact Or.inl (Or.inr ⟨c, d⟩)
      · exact Or.inr (Or.inr ⟨c.symm, d⟩)
    · exact Or.inr (Or.inl c)⟩

theorem pairLe_trans {T : Type} [LinearOrder T] :
    IsTrans (T × Nat) (fun a b => pairLt b a = false) :=
  ⟨fun a b c => by
    simp only [pairLe_iff]
    rintro (h1 | ⟨h1, h2⟩) (h3 | ⟨h3, h4⟩)
    · exact Or.inl (lt_trans h1 h3)
    · exact Or.inl (by rw [← h3]; exact h1)
    · exact Or.inl (by rw [h1]; exact h3)
    · exact Or.inr ⟨h1.trans h3, le_trans h2 h4⟩⟩

theorem pairLe_antisymm {T : Type} [LinearOrder T] :
    IsAntisymm (T × Nat) (fun a b => pairLt b a = false) :=
  ⟨fun a b => by
    simp only [pairLe_iff]
    rintro (h1 | ⟨h1, h2⟩) (h3 | ⟨h3, h4⟩)
    · exact absurd h1 (lt_asymm h3)
    · rw [h3] at h1; exact absurd h1 (lt_irrefl _)
    · rw [h1] at h3; exact absurd h3 (lt_irrefl _)
    · exact Prod.ext h1 (le_antisymm h2 h4)⟩

/-- Every ascending sort of a list of pairs returns the list `qSort` returns. -/
theorem qSort_pairs_unique {T : Type} [LinearOrder T] (l s : List (T × Nat))
    (hp : s.Perm l) (hs : s.Pairwise (fun a b => pairLt b a = false)) :
    s = qSort pairLt l := by
  haveI := @pairLe_total T _
  haveI := @pairLe_trans T _
  haveI := @pairLe_antisymm T _
  exact List.eq_of_perm_of_sorted (hp.trans (List.perm_insertionSort _ l).symm) hs
    (List.sorted_insertionSort _ l)

theorem SortPairs_ascending {T : Type} [LinearOrder T] (vals : List T) :
    SortPairs vals false = qSort pairLt (vals.enum.map (fun p => (p.2, p.1))) := rfl

theorem SortPairs_perm {T : Type} [LinearOrder T] (vals : List T) :
    (SortPairs vals false).Perm (vals.enum.map (fun p => (p.2, p.1))) :=
  List.perm_insertionSort _ _

theorem mem_SortPairs {T : Type} [LinearOrder T] (vals : List T) (p : T × Nat) :
    p ∈ SortPairs vals false ↔ vals[p.2]? = some p.1 := by
  rw [(SortPairs_perm vals).mem_iff, List.mem_map]
  constructor
  · rintro ⟨⟨i, v⟩, h, rfl⟩
    exact List.mk_mem_enum_iff_getElem?.1 h
  · intro h
    exact ⟨(p.2, p.1), List.mk_mem_enum_iff_getElem?.2 h, rfl⟩

theorem SortPairs_indices {T : Type} [LinearOrder T] (vals : List T) :
    ((SortPairs vals false).map Prod.snd).Perm (List.range vals.length) := by
  have h := (SortPairs_perm vals).map Prod.snd
  rw [List.map_map] at h
  have e : (Prod.snd ∘ fun p : Nat × T => (p.2, p.1)) = Prod.fst := rfl
  rw [e, List.enum_map_fst] at h
  exact h

theorem SortPairs_length {T : Type} [LinearOrder T] (vals : List T) :
    (SortPairs vals false).length = vals.length := by
  have h := (SortPairs_indices vals).length_eq
  simpa using h

theorem SortPairs_sorted {T : Type} [LinearOrder T] (vals : List T) :
    (SortPairs vals false).Pairwise (fun p q => p.1 < q.1 ∨ (p.1 = q.1 ∧ p.2 < q.2)) := by
  have hs : (SortPairs vals false).Pairwise (fun a b => pairLt b a = false) := by
    haveI := @pairLe_total T _
    haveI := @pairLe_trans T _
    exact List.sorted_insertionSort _ _
  have hnd : ((SortPairs vals false).map Prod.snd).Nodup :=
    (SortPairs_indices vals).nodup_iff.2 (List.nodup_range _)
  have hne : (SortPairs vals false).Pairwise (fun a b => a.2 ≠ b.2) := by
    rw [List.Nodup, List.pairwise_map] at hnd
    exact hnd
  refine (hs.and hne).imp ?_
  intro a b h
  rcases (pairLe_iff a b).1 h.1 with c | ⟨c, d⟩
  · exact Or.inl c
  · exact Or.inr ⟨c, lt_of_le_of_ne d h.2⟩

theorem SortPairs_descending {T : Type} [LinearOrder T] (vals : List T) :
    SortPairs vals true = (SortPairs vals false).reverse := by
  have hlen := SortPairs_length vals
  rw [← swaps_eq_reverse, hlen]
  rfl

/-- C21: for every list `vals` of length `n`, `Sort` returns `n` pairs
`(value, index)` with `value = vals[index]`, whose indices are a permutation
of `0 .. n-1` and whose values are non-decreasing, equal values in increasing
index order; with the descending flag the result is the reverse of that list. -/
theorem Sort_sorted_permutation {T : Type} [LinearOrder T] (vals : List T) :
    (SortPairs vals false).length = vals.length ∧
    (∀ p ∈ SortPairs vals false, vals[p.2]? = some p.1) ∧
    ((SortPairs vals false).map Prod.snd).Perm (List.range vals.length) ∧
    (SortPairs vals false).Pairwise (fun p q => p.1 < q.1 ∨ (p.1 = q.1 ∧ p.2 < q.2)) ∧
    SortPairs vals true = (SortPairs vals false).reverse :=
  ⟨SortPairs_length vals, fun p hp => (mem_SortPairs vals p).1 hp, SortPairs_indices vals,
    SortPairs_sorted vals, SortPairs_descending vals⟩

/-- C21 at the list `[3, 1, 2, 1]`. -/
theorem Sort_sorted_permutation_witness :
    SortPairs ([3, 1, 2, 1] : List Int) false = [(1, 1), (1, 3), (2, 2), (3, 0)] ∧
    SortPairs ([3, 1, 2, 1] : List Int) true = [(3, 0), (2, 2), (1, 3), (1, 1)] :=
  ⟨by decide, by
    rw [(Sort_sorted_permutation ([3, 1, 2, 1] : List Int)).2.2.2.2]
    decide⟩

end Common

namespace Common

/-! ## `Unique` -/

/-- One round of the loop of `Unique` on lists written with their last elements. -/
theorem Unique_step_snoc {T : Type} [LinearOrder T] (bi : List T) (bl : T) (mi : List Nat)
    (ml : Nat) (p : T × Nat) :
    Unique.step (bi ++ [bl], mi ++ [ml]) p =
      if bl = p.1 then (bi ++ [bl], mi ++ [max ml p.2])
      else ((bi ++ [bl]) ++ [p.1], (mi ++ [ml]) ++ [p.2]) := by
  unfold Unique.step
  simp only [List.getLast?_concat, Option.some.injEq, List.dropLast_concat,
    List.getLastD_concat]

theorem zip_snoc {α β : Type} (l : List α) (a : α) (r : List β) (b : β)
    (h : l.length = r.length) : (l ++ [a]).zip (r ++ [b]) = l.zip r ++ [(a, b)] := by
  rw [List.zip_append h]
  rfl

theorem zip_getElem_mem {α β : Type} (l : List α) (r : List β) (j : Nat) (hj : j < l.length)
    (hr : j < r.length) : (l[j], r[j]) ∈ l.zip r := by
  rw [List.mem_iff_getElem]
  exact ⟨j, by simp only [List.length_zip]; omega, by simp [List.getElem_zip]⟩

theorem UniqueInv_init {T : Type} [LinearOrder T] (p0 : T × Nat) :
    UniqueInv [p0] ([] ++ [p0.1], [] ++ [p0.2]) := by
  refine ⟨[], p0.1, [], p0.2, rfl, rfl, by simp, ?_, by simp, by simp⟩
  intro e he
  simp only [List.nil_append, List.zip_cons_cons, List.zip_nil_right, List.mem_singleton] at he
  subst he
  refine ⟨by simp, ?_⟩
  intro i hi
  simp only [List.mem_singleton] at hi
  have : i = p0.2 := by rw [← hi]
  omega

theorem UniqueInv_step {T : Type} [LinearOrder T] (pre : List (T × Nat))
    (st : List T × List Nat) (p : T × Nat) (hinv : UniqueInv pre st)
    (hle : ∀ q ∈ pre, q.1 ≤ p.1) : UniqueInv (pre ++ [p]) (Unique.step st p) := by
  obtain ⟨bi, bl, mi, ml, rfl, hlen, hsorted, hzip, hmem, hmax⟩ := hinv
  rw [Unique_step_snoc]
  have hbilt : ∀ u ∈ bi, u < bl := by
    intro u hu
    rw [List.pairwise_append] at hsorted
    exact hsorted.2.2 u hu bl (by simp)
  have hzipold := zip_snoc bi bl mi ml hlen
  have hlast : (bl, ml) ∈ pre ∧ ∀ i, (bl, i) ∈ pre → i ≤ ml := by
    apply hzip (bl, ml)
    rw [hzipold]
    simp
  have hinner : ∀ e ∈ bi.zip mi, e.1 ∈ bi := by
    intro e he
    exact (List.of_mem_zip (a := e.1) (b := e.2) he).1
  by_cases c : bl = p.1
  · rw [if_pos c]
    refine ⟨bi, bl, mi, max ml p.2, rfl, hlen, hsorted, ?_, ?_, ?_⟩
    · intro e he
      rw [zip_snoc bi bl mi _ hlen] at he
      rcases List.mem_append.1 he with he | he
      · have hold := hzip e (by rw [hzipold]; exact List.mem_append_left _ he)
        refine ⟨List.mem_append_left _ hold.1, ?_⟩
        intro i hi
        rcases List.mem_append.1 hi with hi | hi
        · exact hold.2 i hi
        · simp only [List.mem_singleton] at hi
          have h1 : e.1 = p.1 := by rw [← hi]
          have := hbilt e.1 (hinner e he)
          rw [h1, c] at this
          exact absurd this (lt_irrefl _)
      · simp only [List.mem_singleton] at he
        subst he
        constructor
        · rcases le_total ml p.2 with h | h
          · rw [max_eq_right h]
            apply List.mem_append_right
            simp only [List.mem_singleton]
            exact Prod.ext c rfl
          · rw [max_eq_left h]
            exact List.mem_append_left _ hlast.1
        · intro i hi
          rcases List.mem_append.1 hi with hi | hi
          · exact le_trans (hlast.2 i hi) (le_max_left _ _)
          · simp only [List.mem_singleton] at hi
            have : i = p.2 := by rw [← hi]
            rw [this]
            exact le_max_right _ _
    · intro q hq
      rcases List.mem_append.1 hq with hq | hq
      · exact hmem q hq
      · simp only [List.mem_singleton] at hq
        subst hq
        rw [← c]
        simp
    · intro q hq
      rcases List.mem_append.1 hq with hq | hq
      · exact hmax q hq
      · simp only [List.mem_singleton] at hq
        subst hq
        exact le_of_eq c.symm
  · rw [if_neg c]
    have hblp : bl < p.1 := lt_of_le_of_ne (hle _ hlast.1) c
    have hall : ∀ u ∈ bi ++ [bl], u < p.1 := by
      intro u hu
      rcases List.mem_append.1 hu with hu | hu
      · exact lt_trans (hbilt u hu) hblp
      · simp only [List.mem_singleton] at hu
        rw [hu]; exact hblp
    refine ⟨bi ++ [bl], p.1, mi ++ [ml], p.2, rfl, by simp [hlen], ?_, ?_, ?_, ?_⟩
    · rw [List.pairwise_append]
      refine ⟨hsorted, by simp, ?_⟩
      intro a ha b hb
      simp only [List.mem_singleton] at hb
      rw [hb]
      exact hall a ha
    · intro e he
      rw [zip_snoc (bi ++ [bl]) p.1 (mi ++ [ml]) p.2 (by simp [hlen])] at he
      rcases List.mem_append.1 he with he | he
      · have hold := hzip e he
        refine ⟨List.mem_append_left _ hold.1, ?_⟩
        intro i hi
        rcases List.mem_append.1 hi with hi | hi
        · exact hold.2 i hi
        · simp only [List.mem_singleton] at hi
          have h1 : e.1 = p.1 := by rw [← hi]
          have := hall e.1 (List.of_mem_zip (a := e.1) (b := e.2) he).1
          rw [h1] at this
          exact absurd this (lt_irrefl _)
      · simp only [List.mem_singleton] at he
        subst he
        refine ⟨by simp, ?_⟩
        intro i hi
        rcases List.mem_append.1 hi with hi | hi
        · have := hmax _ hi
          exact absurd (lt_of_lt_of_le hblp this) (lt_irrefl _)
        · simp only [List.mem_singleton] at hi
          have : i = p.2 := by rw [← hi]
          omega
    · intro q hq
      rcases List.mem_append.1 hq with hq | hq
      · exact List.mem_append_left _ (hmem q hq)
      · simp only [List.mem_singleton] at hq
        subst hq
        simp
    · intro q hq
      rcases List.mem_append.1 hq with hq | hq
      · exact hle q hq
      · simp only [List.mem_singleton] at hq
        rw [hq]

theorem UniqueInv_fold {T : Type} [LinearOrder T] :
    ∀ (rest pre : List (T × Nat)) (st : List T × List Nat),
      UniqueInv pre st →
      (pre ++ rest).Pairwise (fun p q => p.1 < q.1 ∨ (p.1 = q.1 ∧ p.2 < q.2)) →
      UniqueInv (pre ++ rest) (rest.foldl Unique.step st) := by
  intro rest
  induction rest with
  | nil => intro pre st h _; simpa using h
  | cons p rest ih =>
    intro pre st h hs
    have happ : pre ++ p :: rest = (pre ++ [p]) ++ rest := by simp
    rw [List.foldl_cons, happ]
    apply ih
    · apply UniqueInv_step pre st p h
      intro q hq
      rw [List.pairwise_append] at hs
      rcases hs.2.2 q hq p (List.mem_cons_self _ _) with c | c
      · exact le_of_lt c
      · exact le_of_eq c.1
    · rw [← happ]; exact hs

theorem indexOf_spec {T : Type} [LinearOrder T] (b : List T) (v : T) (hv : v ∈ b) :
    ∃ k : Nat, indexOf b v = (k : Int) ∧ b[k]? = some v := by
  refine ⟨List.indexOf v b, ?_, ?_⟩
  · unfold indexOf
    rw [if_pos hv]
  · have h := List.indexOf_lt_length.2 hv
    rw [List.getElem?_eq_getElem h, List.getElem_indexOf h]

theorem Unique_spec {T : Type} [LinearOrder T] (vals : List T) (hne : vals ≠ []) :
    ∃ (b : List T) (m : List Nat) (n : List Int), Unique vals [] [] [] = some (b, m, n) ∧
      b.Pairwise (fun x y => x < y) ∧ (∀ v, v ∈ b ↔ v ∈ vals) ∧
      m.length = b.length ∧
      (∀ (j : Nat) (v : T), b[j]? = some v →
        ∃ k, m[j]? = some k ∧ vals[k]? = some v ∧ ∀ i, vals[i]? = some v → i ≤ k) ∧
      n.length = vals.length ∧
      (∀ (i : Nat) (v : T), vals[i]? = some v →
        ∃ k : Nat, n[i]? = some (k : Int) ∧ b[k]? = some v) := by
  have hlen := SortPairs_length vals
  have hsorted := SortPairs_sorted vals
  have hmemsp := mem_SortPairs vals
  unfold Unique
  cases hsp : SortPairs vals false with
  | nil =>
    rw [hsp] at hlen
    have : vals.length = 0 := by simpa using hlen.symm
    exact absurd (List.length_eq_zero.1 this) hne
  | cons p0 rest =>
    rw [hsp] at hsorted hmemsp
    have hinv := UniqueInv_fold rest [p0] _ (UniqueInv_init p0) (by simpa using hsorted)
    simp only [List.singleton_append] at hinv
    obtain ⟨bi, bl, mi, ml, hst, hl, hsrt, hzip, hmem, _⟩ := hinv
    simp only [List.nil_append] at hst ⊢
    rw [hst]
    dsimp only
    have hbm : (mi ++ [ml]).length = (bi ++ [bl]).length := by simp [hl]
    have hb_in : ∀ v, v ∈ bi ++ [bl] ↔ v ∈ vals := by
      intro v
      constructor
      · intro hv
        obtain ⟨j, hj, rfl⟩ := List.mem_iff_getElem.1 hv
        have hjm : j < (mi ++ [ml]).length := by omega
        have hz := zip_getElem_mem (bi ++ [bl]) (mi ++ [ml]) j hj hjm
        have := (hmemsp _).1 (hzip _ hz).1
        exact List.getElem?_mem this
      · intro hv
        obtain ⟨i, hi⟩ := List.mem_iff_getElem?.1 hv
        exact hmem (v, i) ((hmemsp (v, i)).2 hi)
    refine ⟨_, _, _, rfl, hsrt, hb_in, hbm, ?_, by simp, ?_⟩
    · intro j v hj
      obtain ⟨hjl, hjv⟩ := List.getElem?_eq_some.1 hj
      have hjm : j < (mi ++ [ml]).length := by omega
      have hz := zip_getElem_mem (bi ++ [bl]) (mi ++ [ml]) j hjl hjm
      have h := hzip _ hz
      refine ⟨(mi ++ [ml])[j], List.getElem?_eq_getElem hjm, ?_, ?_⟩
      · rw [← hjv]
        exact (hmemsp _).1 h.1
      · intro i hi
        apply h.2 i
        apply (hmemsp _).2
        simp only
        rw [hjv]
        exact hi
    · intro i v hi
      obtain ⟨hil, hiv⟩ := List.getElem?_eq_some.1 hi
      obtain ⟨k, hk1, hk2⟩ := indexOf_spec (bi ++ [bl]) v ((hb_in v).2 (List.getElem?_mem hi))
      refine ⟨k, ?_, hk2⟩
      rw [List.getElem?_map, hi]
      simp only [Option.map_some']
      rw [hk1]

/-- C23: for every non-empty list `vals` and empty `b`, `m`, `n`, `Unique`
returns `b` as the strictly increasing list of the distinct values of `vals`,
`m[j]` as the largest index with `vals[m[j]] = b[j]` for every `j`, and `n` of
the length of `vals` with `b[n[i]] = vals[i]` for every `i`. -/
theorem Unique_like_matlab {T : Type} [LinearOrder T] (vals : List T) (hne : vals ≠ []) :
    ∃ (b : List T) (m : List Nat) (n : List Int), Unique vals [] [] [] = some (b, m, n) ∧
      b.Pairwise (fun x y => x < y) ∧ (∀ v, v ∈ b ↔ v ∈ vals) ∧
      m.length = b.length ∧
      (∀ (j : Nat) (v : T), b[j]? = some v →
        ∃ k, m[j]? = some k ∧ vals[k]? = some v ∧ ∀ i, vals[i]? = some v → i ≤ k) ∧
      n.length = vals.length ∧
      (∀ (i : Nat) (v : T), vals[i]? = some v →
        ∃ k : Nat, n[i]? = some (k : Int) ∧ b[k]? = some v) :=
  Unique_spec vals hne

/-- C23 at the list `[3, 1, 2, 1, 5, 5]`: the distinct values `[1, 2, 3, 5]`,
their last positions `[3, 2, 0, 5]` and the positions `[2, 0, 1, 0, 3, 3]` of the
elements in `b`. -/
theorem Unique_like_matlab_witness :
    ([3, 1, 2, 1, 5, 5] : List Int) ≠ [] ∧
    Unique ([3, 1, 2, 1, 5, 5] : List Int) [] [] [] =
      some ([1, 2, 3, 5], [3, 2, 0, 5], [2, 0, 1, 0, 3, 3]) ∧
    ∃ b m n, Unique ([3, 1, 2, 1, 5, 5] : List Int) [] [] [] = some (b, m, n) ∧
      b.Pairwise (fun x y => x < y) :=
  have h := Unique_like_matlab ([3, 1, 2, 1, 5, 5] : List Int) (by decide)
  ⟨by decide, by decide, by
    obtain ⟨b, m, n, h1, h2, _⟩ := h
    exact ⟨b, m, n, h1, h2⟩⟩

end Common

namespace Common

/-! ## `Mode` -/

theorem QMap_contains_iff {T : Type} [LinearOrder T] (m : List (T × Nat)) (k : T) :
    QMap.contains m k = true ↔ ∃ e ∈ m, e.1 = k := by
  simp [QMap.contains]

theorem QMap_mem_insert {T : Type} [LinearOrder T] (k : T) (v : Nat) :
    ∀ (m : List (T × Nat)), m.Pairwise (fun e f => e.1 < f.1) →
      ((QMap.insert m k v).Pairwise (fun e f => e.1 < f.1) ∧
        ∀ e, e ∈ QMap.insert m k v ↔ e = (k, v) ∨ (e ∈ m ∧ e.1 ≠ k)) := by
  intro m
  induction m with
  | nil =>
    intro _
    simp [QMap.insert]
  | cons a m ih =>
    intro hs
    rw [List.pairwise_cons] at hs
    obtain ⟨ih1, ih2⟩ := ih hs.2
    unfold QMap.insert
    by_cases c1 : k < a.1
    · simp only [c1, if_true]
      constructor
      · rw [List.pairwise_cons]
        refine ⟨?_, List.pairwise_cons.2 hs⟩
        intro f hf
        rcases List.mem_cons.1 hf with hf | hf
        · rw [hf]; exact c1
        · exact lt_trans c1 (hs.1 f hf)
      · intro e
        simp only [List.mem_cons]
        constructor
        · rintro (h | h | h)
          · exact Or.inl h
          · exact Or.inr ⟨Or.inl h, by rw [h]; exact ne_of_gt c1⟩
          · exact Or.inr ⟨Or.inr h, ne_of_gt (lt_trans c1 (hs.1 e h))⟩
        · rintro (h | ⟨h | h, _⟩)
          · exact Or.inl h
          · exact Or.inr (Or.inl h)
          · exact Or.inr (Or.inr h)
    · simp only [c1, if_false]
      by_cases c2 : a.1 < k
      · simp only [c2, if_true]
        constructor
        · rw [List.pairwise_cons]
          refine ⟨?_, ih1⟩
          intro f hf
          rcases (ih2 f).1 hf with h | h
          · rw [h]; exact c2
          · exact hs.1 f h.1
        · intro e
          simp only [List.mem_cons, ih2]
          constructor
          · rintro (h | h | h)
            · exact Or.inr ⟨Or.inl h, by rw [h]; exact ne_of_lt c2⟩
            · exact Or.inl h
            · exact Or.inr ⟨Or.inr h.1, h.2⟩
          · rintro (h | ⟨h | h, h1⟩)
            · exact Or.inr (Or.inl h)
            · exact Or.inl h
            · exact Or.inr (Or.inr ⟨h, h1⟩)
      · simp only [c2, if_false]
        have hak : a.1 = k := le_antisymm (not_lt.1 c1) (not_lt.1 c2)
        constructor
        · rw [List.pairwise_cons]
          refine ⟨?_, hs.2⟩
          intro f hf
          have := hs.1 f hf
          rw [hak] at this
          exact this
        · intro e
          simp only [List.mem_cons]
          constructor
          · rintro (h | h)
            · exact Or.inl h
            · refine Or.inr ⟨Or.inr h, ?_⟩
              have := hs.1 e h
              rw [hak] at this
              exact ne_of_gt this
          · rintro (h | ⟨h | h, h1⟩)
            · exact Or.inl h
            · rw [h] at h1; exact absurd hak h1
            · exact Or.inr h

theorem QMap_value_of_mem {T : Type} [LinearOrder T] :
    ∀ (m : List (T × Nat)), m.Pairwise (fun e f => e.1 < f.1) →
      ∀ e ∈ m, QMap.value m e.1 = e.2 := by
  intro m
  induction m with
  | nil => intro _ e he; cases he
  | cons a m ih =>
    intro hs e he
    rw [List.pairwise_cons] at hs
    unfold QMap.value
    rw [List.find?_cons]
    by_cases c : a.1 = e.1
    · simp only [c, decide_True]
      rcases List.mem_cons.1 he with h | h
      · rw [h]
      · have := hs.1 e h
        rw [c] at this
        exact absurd this (lt_irrefl _)
    · simp only [c, decide_False]
      rcases List.mem_cons.1 he with h | h
      · rw [h] at c; exact absurd rfl c
      · exact ih hs.2 e h

theorem QMap_value_absent {T : Type} [LinearOrder T] (m : List (T × Nat)) (k : T)
    (h : QMap.contains m k = false) : QMap.value m k = 0 := by
  unfold QMap.value
  have : m.find? (fun e => decide (e.1 = k)) = none := by
    rw [List.find?_eq_none]
    intro e he hc
    have : QMap.contains m k = true := (QMap_contains_iff m k).2 ⟨e, he, by simpa using hc⟩
    rw [h] at this
    cases this
  rw [this]

/-- The first key in key order holding a value that occurs. -/
theorem QMap_key_first {T : Type} [LinearOrder T] (v : Nat) (d : T) :
    ∀ (m : List (T × Nat)), m.Pairwise (fun e f => e.1 < f.1) → (∃ f ∈ m, f.2 = v) →
      (QMap.key m v d, v) ∈ m ∧ ∀ f ∈ m, f.2 = v → QMap.key m v d ≤ f.1 := by
  intro m
  induction m with
  | nil => rintro _ ⟨f, hf, _⟩; cases hf
  | cons a m ih =>
    intro hs hex
    rw [List.pairwise_cons] at hs
    unfold QMap.key
    rw [List.find?_cons]
    by_cases c : a.2 = v
    · simp only [c, decide_True]
      refine ⟨by rw [← c]; exact List.mem_cons_self _ _, ?_⟩
      intro f hf _
      rcases List.mem_cons.1 hf with h | h
      · rw [h]
      · exact le_of_lt (hs.1 f h)
    · simp only [c, decide_False]
      obtain ⟨f, hf, hfv⟩ := hex
      have hfm : f ∈ m := by
        rcases List.mem_cons.1 hf with h | h
        · rw [h] at hfv; exact absurd hfv c
        · exact h
      have := ih hs.2 ⟨f, hfm, hfv⟩
      unfold QMap.key at this
      refine ⟨List.mem_cons_of_mem _ this.1, ?_⟩
      intro g hg hgv
      rcases List.mem_cons.1 hg with h | h
      · rw [h] at hgv; exact absurd hgv c
      · exact this.2 g h hgv

/-- The map of counts after a list: its keys ascend, and its items are the
values of the list with their numbers of occurrences. -/
theorem Mode_counts_spec {T : Type} [LinearOrder T] (vals : List T) :
    (Mode.counts vals).Pairwise (fun e f => e.1 < f.1) ∧
    ∀ e, e ∈ Mode.counts vals ↔ (e.1 ∈ vals ∧ e.2 = vals.count e.1) := by
  unfold Mode.counts
  induction vals using List.reverseRecOn with
  | nil => simp
  | append_singleton vals val ih =>
    rw [List.foldl_append]
    simp only [List.foldl_cons, List.foldl_nil]
    obtain ⟨hs, hm⟩ := ih
    generalize List.foldl (fun counts val =>
      QMap.insert (if QMap.contains counts val = false then QMap.insert counts val 0 else counts)
        val (QMap.value
          (if QMap.contains counts val = false then QMap.insert counts val 0 else counts) val + 1))
      [] vals = counts at hs hm
    have h1 : (if QMap.contains counts val = false then QMap.insert counts val 0
        else counts).Pairwise (fun e f => e.1 < f.1) ∧
        QMap.value (if QMap.contains counts val = false then QMap.insert counts val 0
          else counts) val = vals.count val ∧
        ∀ e, e.1 ≠ val → (e ∈ (if QMap.contains counts val = false then QMap.insert counts val 0
          else counts) ↔ e ∈ counts) := by
      by_cases c : QMap.contains counts val = false
      · simp only [c, if_true]
        obtain ⟨i1, i2⟩ := QMap_mem_insert val 0 counts hs
        refine ⟨i1, ?_, ?_⟩
        · have hin : (val, 0) ∈ QMap.insert counts val 0 := (i2 _).2 (Or.inl rfl)
          have hv := QMap_value_of_mem _ i1 _ hin
          simp only at hv
          rw [hv]
          have : val ∉ vals := by
            intro hmem
            have : (val, vals.count val) ∈ counts := (hm _).2 ⟨hmem, rfl⟩
            have hc : QMap.contains counts val = true :=
              (QMap_contains_iff _ _).2 ⟨_, this, rfl⟩
            rw [c] at hc
            cases hc
          exact (List.count_eq_zero_of_not_mem this).symm
        · intro e he
          rw [i2]
          constructor
          · rintro (h | h)
            · rw [h] at he; exact absurd rfl he
            · exact h.1
          · intro h; exact Or.inr ⟨h, he⟩
      · have hc : QMap.contains counts val = true := by
          cases h : QMap.contains counts val
          · exact absurd h c
          · rfl
        have hif : (if QMap.contains counts val = false then QMap.insert counts val 0
            else counts) = counts := by rw [hc]; rfl
        rw [hif]
        refine ⟨hs, ?_, fun e _ => Iff.rfl⟩
        obtain ⟨e, he, hek⟩ := (QMap_contains_iff _ _).1 hc
        have := QMap_value_of_mem _ hs e he
        rw [hek] at this
        rw [this, ((hm e).1 he).2, hek]
    obtain ⟨s1, v1, m1⟩ := h1
    obtain ⟨i1, i2⟩ := QMap_mem_insert val (QMap.value (if QMap.contains counts val = false
      then QMap.insert counts val 0 else counts) val + 1) _ s1
    refine ⟨i1, ?_⟩
    intro e
    rw [i2, v1]
    constructor
    · rintro (h | ⟨h, hne⟩)
      · rw [h]
        simp
      · have := (hm e).1 ((m1 e hne).1 h)
        refine ⟨List.mem_append_left _ this.1, ?_⟩
        rw [this.2, List.count_append]
        have : List.count e.1 [val] = 0 := by
          rw [List.count_singleton]
          simp only [beq_iff_eq, ite_eq_right_iff, one_ne_zero, imp_false]
          exact fun h => hne h.symm
        omega
    · rintro ⟨h1, h2⟩
      by_cases c : e.1 = val
      · left
        apply Prod.ext
        · exact c
        · simp only
          rw [h2, c, List.count_append]
          simp
      · right
        refine ⟨(m1 e c).2 ((hm e).2 ⟨?_, ?_⟩), c⟩
        · rcases List.mem_append.1 h1 with h | h
          · exact h
          · simp only [List.mem_singleton] at h
            exact absurd h c
        · rw [h2, List.count_append]
          have : List.count e.1 [val] = 0 := by
            rw [List.count_singleton]
            simp only [beq_iff_eq, ite_eq_right_iff, one_ne_zero, imp_false]
            exact fun h => c h.symm
          omega

theorem Max_spec (vals : List Nat) (hne : vals ≠ []) :
    ∃ mx, Max vals = some mx ∧ mx ∈ vals ∧ ∀ v ∈ vals, v ≤ mx := by
  obtain ⟨mn, mx, mi, ma, h, hb, _, hma, _⟩ := MinMax_spec vals hne
  exact ⟨mx, by simp [Max, h], List.getElem?_mem hma, fun v hv => (hb v hv).2⟩

theorem Mode_spec {T : Type} [LinearOrder T] [Inhabited T] (vals : List T) (hne : vals ≠ []) :
    ∃ r, Mode vals = some r ∧ r ∈ vals ∧ (∀ v ∈ vals, vals.count v ≤ vals.count r) ∧
      (∀ v ∈ vals, vals.count v = vals.count r → r ≤ v) := by
  obtain ⟨hs, hm⟩ := Mode_counts_spec vals
  have hvne : QMap.values (Mode.counts vals) ≠ [] := by
    obtain ⟨v, hv⟩ := List.exists_mem_of_ne_nil vals hne
    have : (v, vals.count v) ∈ Mode.counts vals := (hm _).2 ⟨hv, rfl⟩
    intro hc
    have h2 : vals.count v ∈ QMap.values (Mode.counts vals) :=
      List.mem_map.2 ⟨_, this, rfl⟩
    rw [hc] at h2
    cases h2
  obtain ⟨mx, hmx, hin, hle⟩ := Max_spec _ hvne
  obtain ⟨f, hf, hfv⟩ := List.mem_map.1 hin
  obtain ⟨k1, k2⟩ := QMap_key_first mx default (Mode.counts vals) hs ⟨f, hf, hfv⟩
  have hr := (hm _).1 k1
  simp only at hr
  refine ⟨QMap.key (Mode.counts vals) mx default, ?_, hr.1, ?_, ?_⟩
  · unfold Mode
    rw [hmx]
  · intro v hv
    rw [← hr.2]
    apply hle
    exact List.mem_map.2 ⟨(v, vals.count v), (hm _).2 ⟨hv, rfl⟩, rfl⟩
  · intro v hv hc
    apply k2 (v, vals.count v) ((hm _).2 ⟨hv, rfl⟩)
    simp only
    rw [hc, ← hr.2]

/-- C25: for every non-empty list, `Mode` returns an element of the list whose
number of occurrences is maximal among all elements, and among the elements
with the maximal number of occurrences it returns the smallest. -/
theorem Mode_smallest_most_frequent {T : Type} [LinearOrder T] [Inhabited T] (vals : List T)
    (hne : vals ≠ []) :
    ∃ r, Mode vals = some r ∧ r ∈ vals ∧ (∀ v ∈ vals, vals.count v ≤ vals.count r) ∧
      (∀ v ∈ vals, vals.count v = vals.count r → r ≤ v) :=
  Mode_spec vals hne

/-- C25 at the list `[5, 3, 1, 5, 1, 2]`, where `1` and `5` both occur twice:
the mode is `1`. -/
theorem Mode_smallest_most_frequent_witness :
    ([5, 3, 1, 5, 1, 2] : List Int) ≠ [] ∧ Mode ([5, 3, 1, 5, 1, 2] : List Int) = some 1 ∧
    ∃ r, Mode ([5, 3, 1, 5, 1, 2] : List Int) = some r ∧ r ∈ ([5, 3, 1, 5, 1, 2] : List Int) :=
  have h := Mode_smallest_most_frequent ([5, 3, 1, 5, 1, 2] : List Int) (by decide)
  ⟨by decide, by decide, by
    obtain ⟨r, h1, h2, _⟩ := h
    exact ⟨r, h1, h2⟩⟩

end Common

namespace Common

/-! ## `Downsample` -/

theorem valLe_total {T : Type} [LinearOrder T] :
    IsTotal T (fun a b => decide (b < a) = false) :=
  ⟨fun a b => by
    simp only [decide_eq_false_iff_not, not_lt]
    exact le_total a b⟩

theorem valLe_trans {T : Type} [LinearOrder T] :
    IsTrans T (fun a b => decide (b < a) = false) :=
  ⟨fun a b c => by
    simp only [decide_eq_false_iff_not, not_lt]
    exact le_trans⟩

theorem qSort_perm {T : Type} [LinearOrder T] (vals : List T) :
    (qSort (fun a b => decide (a < b)) vals).Perm vals :=
  List.perm_insertionSort _ _

theorem qSort_sorted {T : Type} [LinearOrder T] (vals : List T) :
    (qSort (fun a b => decide (a < b)) vals).Pairwise (fun a b => a ≤ b) := by
  haveI := @valLe_total T _
  haveI := @valLe_trans T _
  have h : (qSort (fun a b => decide (a < b)) vals).Pairwise
      (fun a b => decide (b < a) = false) := List.sorted_insertionSort _ _
  refine h.imp ?_
  intro a b hab
  simpa using hab

theorem qSort_length {T : Type} [LinearOrder T] (vals : List T) :
    (qSort (fun a b => decide (a < b)) vals).length = vals.length :=
  (qSort_perm vals).length_eq

theorem sorted_getElem?_le {T : Type} [LinearOrder T] {l : List T}
    (hs : l.Pairwise (fun a b => a ≤ b)) {i j : Nat} {a b : T} (hij : i ≤ j)
    (ha : l[i]? = some a) (hb : l[j]? = some b) : a ≤ b := by
  obtain ⟨hi, rfl⟩ := List.getElem?_eq_some.1 ha
  obtain ⟨hj, rfl⟩ := List.getElem?_eq_some.1 hb
  rcases Nat.lt_or_eq_of_le hij with h | h
  · exact List.pairwise_iff_getElem.1 hs i j hi hj h
  · subst h; exact le_refl _

theorem foldlM_range_collect {T : Type} (f : Nat → Option T) :
    ∀ K, (∀ i, i < K → ∃ v, f i = some v) →
      ∃ r : List T,
        (List.range K).foldlM (fun newVals i => (f i).map (fun v => newVals ++ [v])) [] = some r ∧
        r.length = K ∧ ∀ i, i < K → r[i]? = f i := by
  intro K
  induction K with
  | zero =>
    intro _
    exact ⟨[], rfl, rfl, fun i hi => by omega⟩
  | succ K ih =>
    intro h
    obtain ⟨r, hr, hlen, hget⟩ := ih (fun i hi => h i (by omega))
    obtain ⟨v, hv⟩ := h K (by omega)
    refine ⟨r ++ [v], ?_, by simp [hlen], ?_⟩
    · rw [List.range_succ, List.foldlM_append, hr]
      simp [hv]
    · intro i hi
      rcases Nat.lt_or_eq_of_le (Nat.le_of_lt_succ hi) with c | c
      · rw [List.getElem?_append_left (by omega)]
        exact hget i c
      · subst c
        rw [List.getElem?_append_right (by omega), hv]
        simp [hlen]

/-- The position `Downsample` reads for output `i`, as a natural number. -/
theorem Downsample_position (i n K : Nat) (hK : 2 ≤ K) (hn : 1 ≤ n) :
    Int.tdiv ((i : Int) * ((n : Int) - 1)) ((K : Int) - 1) = ((i * (n - 1) / (K - 1) : Nat) : Int) := by
  have h1 : ((n : Int) - 1) = ((n - 1 : Nat) : Int) := by omega
  have h2 : ((K : Int) - 1) = ((K - 1 : Nat) : Int) := by omega
  rw [h1, h2, Int.tdiv_eq_ediv (by positivity) (by positivity)]
  push_cast
  rfl

theorem at?_natCast {T : Type} (l : List T) (i : Nat) : at? l (i : Int) = l[i]? := by
  unfold at?
  rw [if_neg (by omega)]
  simp

/-- For a target size of at least two `Downsample` returns: the whole sorted
list when it has at most `k` elements, otherwise `k` elements, output `i` being
the element of the sorted list at position `i * (n-1) / (k-1)`. -/
theorem Downsample_spec {T : Type} [LinearOrder T] (vals : List T) (k : Int) (hk : 2 ≤ k) :
    ∃ r, Downsample vals k = some r ∧
      r.length = min k.toNat vals.length ∧
      r.Pairwise (fun a b => a ≤ b) ∧
      (∀ v ∈ r, v ∈ vals) ∧
      (vals.length ≤ k.toNat → r = qSort (fun a b => decide (a < b)) vals) ∧
      (k.toNat < vals.length →
        (∀ i, i < k.toNat →
          r[i]? = (qSort (fun a b => decide (a < b)) vals)[i * (vals.length - 1) / (k.toNat - 1)]?) ∧
        r.head? = (qSort (fun a b => decide (a < b)) vals).head? ∧
        r.getLast? = (qSort (fun a b => decide (a < b)) vals).getLast?) := by
  obtain ⟨K, rfl⟩ : ∃ K : Nat, k = (K : Int) := ⟨k.toNat, (Int.toNat_of_nonneg (by omega)).symm⟩
  have hK : 2 ≤ K := by omega
  simp only [Int.toNat_ofNat]
  have hlen := qSort_length vals
  have hsorted := qSort_sorted vals
  have hperm := qSort_perm vals
  unfold Downsample
  simp only [hlen, Int.toNat_ofNat]
  by_cases c : (vals.length : Int) ≤ (K : Int)
  · rw [if_pos c]
    have c1 : vals.length ≤ K := by omega
    refine ⟨_, rfl, by rw [hlen]; omega, hsorted, fun v hv => hperm.mem_iff.1 hv,
      fun _ => rfl, fun h => by omega⟩
  · rw [if_neg c]
    have c1 : K < vals.length := by omega
    have hk1 : ¬ ((K : Int) - 1 = 0) := by omega
    simp only [hk1, if_false]
    have hpos : ∀ i : Nat, at? (qSort (fun a b => decide (a < b)) vals)
        (Int.tdiv ((i : Int) * ((vals.length : Int) - 1)) ((K : Int) - 1)) =
        (qSort (fun a b => decide (a < b)) vals)[i * (vals.length - 1) / (K - 1)]? := by
      intro i
      rw [Downsample_position i vals.length K hK (by omega), at?_natCast]
    simp only [hpos]
    have hin : ∀ i, i < K → i * (vals.length - 1) / (K - 1) < vals.length := by
      intro i hi
      have h1 : i * (vals.length - 1) ≤ (K - 1) * (vals.length - 1) :=
        Nat.mul_le_mul_right _ (by omega)
      have h2 : i * (vals.length - 1) / (K - 1) ≤ (K - 1) * (vals.length - 1) / (K - 1) :=
        Nat.div_le_div_right h1
      rw [Nat.mul_div_cancel_left _ (by omega : 0 < K - 1)] at h2
      omega
    obtain ⟨r, hr, hrlen, hget⟩ := foldlM_range_collect
      (fun i => (qSort (fun a b => decide (a < b)) vals)[i * (vals.length - 1) / (K - 1)]?) K
      (fun i hi => ⟨_, List.getElem?_eq_getElem (by rw [hlen]; exact hin i hi)⟩)
    refine ⟨r, hr, by rw [hrlen]; omega, ?_, ?_, fun h => by omega, fun _ => ⟨hget, ?_, ?_⟩⟩
    · rw [List.pairwise_iff_getElem]
      intro i j hi hj hij
      have hi1 := hget i (by omega)
      have hj1 := hget j (by omega)
      rw [List.getElem?_eq_getElem hi] at hi1
      rw [List.getElem?_eq_getElem hj] at hj1
      refine sorted_getElem?_le hsorted ?_ hi1.symm hj1.symm
      exact Nat.div_le_div_right (Nat.mul_le_mul_right _ (by omega))
    · intro v hv
      obtain ⟨i, hi, rfl⟩ := List.mem_iff_getElem.1 hv
      have hi1 := hget i (by omega)
      rw [List.getElem?_eq_getElem hi] at hi1
      exact hperm.mem_iff.1 (List.getElem?_mem hi1.symm)
    · rw [List.head?_eq_getElem?, List.head?_eq_getElem?, hget 0 (by omega)]
      simp
    · rw [List.getLast?_eq_getElem?, List.getLast?_eq_getElem?, hrlen, hget (K - 1) (by omega),
        hlen, Nat.mul_div_cancel_left _ (by omega : 0 < K - 1)]

/-- C24 (failing input): for the target size `k = 1` and a list of more than one
element `Downsample` divides by `k - 1 = 0`: on `[3, 1, 2]` with `k = 1`, and on
every list of at least two elements. -/
theorem Downsample_one_divides_by_zero :
    Downsample ([3, 1, 2] : List Int) 1 = none ∧
    (∀ vals : List Int, 1 < vals.length → Downsample vals 1 = none) := by
  refine ⟨by decide, ?_⟩
  intro vals h
  unfold Downsample
  simp only [qSort_length]
  rw [if_neg (by omega)]
  rfl

end Common

/-! ## Concatenating a template: the general picture -/

theorem Cat_vals (src : List Mat) :
    ∀ a : Nat, src.foldl (fun vals m => vals + m.total * m.channels) a =
      a + (src.map (fun m => m.total * m.channels)).sum := by
  induction src with
  | nil => intro a; simp
  | cons m ms ih => intro a; rw [List.foldl_cons, ih]; simp; omega

theorem Cat_copies (src : List Mat) :
    (src.foldl (fun (p : List (Nat × Nat) × Nat) m =>
        (p.1 ++ [(p.2, m.total * m.elemSize)], p.2 + m.total * m.elemSize)) ([], 0)).2 =
      (src.map (fun m => m.total * m.elemSize)).sum ∧
    (src.foldl (fun (p : List (Nat × Nat) × Nat) m =>
        (p.1 ++ [(p.2, m.total * m.elemSize)], p.2 + m.total * m.elemSize)) ([], 0)).1.map Prod.snd =
      src.map (fun m => m.total * m.elemSize) ∧
    ∀ (j o s : Nat),
      (src.foldl (fun (p : List (Nat × Nat) × Nat) m =>
        (p.1 ++ [(p.2, m.total * m.elemSize)], p.2 + m.total * m.elemSize)) ([], 0)).1[j]? =
          some (o, s) →
      o = ((src.take j).map (fun m => m.total * m.elemSize)).sum := by
  induction src using List.reverseRecOn with
  | nil => simp
  | append_singleton src m ih =>
    rw [List.foldl_append]
    simp only [List.foldl_cons, List.foldl_nil]
    obtain ⟨h1, h2, h3⟩ := ih
    have hlen : (src.foldl (fun (p : List (Nat × Nat) × Nat) m =>
        (p.1 ++ [(p.2, m.total * m.elemSize)], p.2 + m.total * m.elemSize)) ([], 0)).1.length =
        src.length := by
      have := congrArg List.length h2
      simpa using this
    refine ⟨by rw [h1]; simp, by rw [List.map_append, h2]; simp, ?_⟩
    intro j o s hj
    by_cases c : j < src.length
    · rw [List.getElem?_append_left (by omega)] at hj
      rw [List.take_append_of_le_length (by omega)]
      exact h3 j o s hj
    · rw [List.getElem?_append_right (by omega), hlen] at hj
      have hj0 : j - src.length = 0 := by
        by_contra hc
        rw [List.getElem?_eq_none (by simp; omega)] at hj
        cases hj
      rw [hj0] at hj
      simp only [List.getElem?_cons_zero, Option.some.injEq, Prod.mk.injEq] at hj
      have hjs : j = src.length := by omega
      rw [hjs, List.take_append_of_le_length (le_refl _), List.take_length, ← hj.1, h1]

theorem Cat_sizes_le (src : List Mat) (hall : ∀ m ∈ src, m.elemSize1 ≤ 4) :
    (src.map (fun m => m.total * m.elemSize)).sum ≤
      4 * (src.map (fun m => m.total * m.channels)).sum := by
  induction src with
  | nil => simp
  | cons m ms ih =>
    simp only [List.map_cons, List.sum_cons]
    have h1 := ih (fun x hx => hall x (List.mem_cons_of_mem _ hx))
    have h2 := hall m (List.mem_cons_self _ _)
    have h3 : m.total * m.elemSize ≤ 4 * (m.total * m.channels) := by
      unfold Mat.elemSize
      calc m.total * (m.channels * m.elemSize1) ≤ m.total * (m.channels * 4) :=
            Nat.mul_le_mul_left _ (Nat.mul_le_mul_left _ h2)
        _ = 4 * (m.total * m.channels) := by ring
    omega

/-- What `Cat::project` does for every template: the byte ranges it copies are
consecutive from offset zero, the bytes copied are `total * elemSize` summed
over the inputs, the capacity is four bytes for each of the
`total * channels` scalars, and the copies fit whenever no input has a depth
wider than four bytes. -/
theorem Cat_project_trace (src : List Mat) :
    (Cat.project src).capacity = 4 * (src.map (fun m => m.total * m.channels)).sum ∧
    (Cat.project src).offset = (src.map (fun m => m.total * m.elemSize)).sum ∧
    (∀ (j o s : Nat), (Cat.project src).copies[j]? = some (o, s) →
      o = ((src.take j).map (fun m => m.total * m.elemSize)).sum) ∧
    ((∀ m ∈ src, m.elemSize1 ≤ 4) → (Cat.project src).offset ≤ (Cat.project src).capacity) := by
  obtain ⟨h1, _, h3⟩ := Cat_copies src
  have hcap : (Cat.project src).capacity = 4 * (src.map (fun m => m.total * m.channels)).sum := by
    unfold Cat.project
    simp only [Cat_vals]
    omega
  have hoff : (Cat.project src).offset = (src.map (fun m => m.total * m.elemSize)).sum := h1
  refine ⟨hcap, hoff, h3, ?_⟩
  intro hall
  rw [hcap, hoff]
  exact Cat_sizes_le src hall

end OpenBR
